import Mathlib

/-
  Verification development for the gconfiglib configuration-tree library.

  The embedding models, directly from the source:
  * `gconfiglib/config_node.py`   (ConfigNode: add, get, _get_obj, _to_dict,
                                   search, _search_here, set_node_type)
  * `gconfiglib/config_attribute.py` (ConfigAttribute)
  * the template validation engine (template_attr_base.py, template_attr_fixed.py,
    template_node_base.py, template_node_fixed.py, template_node_set.py).

  Trees are modelled structurally: a configuration object is an attribute leaf
  or a node with an ordered children list (Python's OrderedDict keyed by the
  child's own name; `add` always inserts with key `obj.name`, so the key is
  kept only once, on the object).  Positions in a tree are lists of child
  indices; Python's parent back-pointers correspond to proper prefixes of a
  position.

  `set_node_type` mutates node-type fields across the whole tree through
  parent and child references and can raise; it is embedded as a fuel-indexed
  interpreter `set_node_type`/`sntSeq` from (tree, position, new type) to a
  result carrying the final tree (Python exceptions leave all mutations done
  so far in place, so the error result also carries the tree).
-/

namespace Gconfiglib

/-- Node types, from `enums.py` (`NodeType`): AN abstract, CN content node,
C content. -/
inductive NT where
  | AN
  | CN
  | C
deriving DecidableEq, Repr

/-- Leaf scalar values of attributes (strings, ints, bools, null). -/
inductive Scalar where
  | s (v : String)
  | i (v : Int)
  | b (v : Bool)
  | none
deriving DecidableEq, Repr

/-- A Python attribute value: a scalar, or a reference to a shared mutable
list cell (Python lists are heap objects passed by reference; the store of
list cells is modelled separately for the `get` independence claim). -/
inductive PyVal where
  | scalar (v : Scalar)
  | listRef (r : Nat)
deriving DecidableEq, Repr

/-- A configuration object: `ConfigAttribute` (name, value) or `ConfigNode`
(name, node_type, ordered children).  Children order is Python's OrderedDict
insertion order. -/
inductive CObj where
  | attr (name : String) (value : PyVal)
  | node (name : String) (ty : NT) (kids : List CObj)

/-- A position in a tree: the list of child indices from the root.  Python's
object identity / parent pointers are modelled by positions and their proper
prefixes. -/
abbrev Pos := List Nat

/-- Subtree at a position. -/
def getAt : CObj → Pos → Option CObj
  | t, [] => some t
  | t, i :: p =>
    match t with
    | CObj.node _ _ kids => (kids.get? i).bind (fun k => getAt k p)
    | CObj.attr _ _ => Option.none

mutual

/-- Apply `f` to the subtree at a position (tree unchanged if the position is
invalid). -/
def updAt (f : CObj → CObj) : CObj → Pos → CObj
  | t, [] => f t
  | CObj.node n ty kids, i :: p => CObj.node n ty (updKids f kids i p)
  | CObj.attr n v, _ :: _ => CObj.attr n v
termination_by t p => (p.length, 0)

/-- Children helper for `updAt`. -/
def updKids (f : CObj → CObj) : List CObj → Nat → Pos → List CObj
  | [], _, _ => []
  | k :: ks, 0, p => updAt f k p :: ks
  | k :: ks, i + 1, p => k :: updKids f ks i p
termination_by ks i p => (p.length, ks.length + 1)

end

/-- Node type stored at a position (`none` when the position is invalid or
holds a `ConfigAttribute`; `set_node_type` only ever touches `ConfigNode`s,
Python's `isinstance(child, ConfigNode)` checks). -/
def tyAt (t : CObj) (p : Pos) : Option NT :=
  match getAt t p with
  | some (CObj.node _ ty _) => some ty
  | _ => Option.none

/-- Name of the object at a position (used in error messages). -/
def nameAt (t : CObj) (p : Pos) : String :=
  match getAt t p with
  | some (CObj.node n _ _) => n
  | some (CObj.attr n _) => n
  | Option.none => ""

/-- Set the node type at a position. -/
def setTy (t : CObj) (p : Pos) (v : NT) : CObj :=
  updAt (fun x => match x with
    | CObj.node n _ kids => CObj.node n v kids
    | a => a) t p

/-- The chain of proper prefixes of a position, nearest (parent) first:
Python's `cur_node = self.parent; ...; cur_node = cur_node.parent` walk. -/
def ancChain (p : Pos) : List Pos :=
  (List.range p.length).reverse.map (fun i => p.take i)

/-- Does some proper ancestor of `p` hold node type CN?  (`set_node_type`'s
"Verify existence of Content Node in parent node hierarchy" loop.) -/
def hasCNanc (t : CObj) (p : Pos) : Bool :=
  (ancChain p).any (fun q => tyAt t q = some NT.CN)

/-- A propagation job: the condition `ifC` models the force-update branch for
AN nodes, which re-types only those children that currently have type C
(`child.node_type == NodeType.C`, read live at iteration time). -/
inductive Cond where
  | always
  | ifC
deriving DecidableEq, Repr

structure Job where
  pos : Pos
  tgt : NT
  cond : Cond

/-- Jobs for all children of the node at `p` (index list; `set_node_type`
never adds or removes children, so the indices enumerate exactly Python's
live `self.attributes.values()` iteration; attribute children are skipped by
the interpreter, matching `isinstance(child, ConfigNode)`). -/
def kidJobs (p : Pos) (v : NT) (c : Cond) : Nat → List CObj → List Job
  | _, [] => []
  | i, _ :: ks => ⟨p ++ [i], v, c⟩ :: kidJobs p v c (i + 1) ks

def childJobs (t : CObj) (p : Pos) (v : NT) (c : Cond) : List Job :=
  match getAt t p with
  | some (CObj.node _ _ kids) => kidJobs p v c 0 kids
  | _ => []

/-- Jobs for all proper ancestors of `p`, nearest first. -/
def ancJobs (p : Pos) (v : NT) : List Job :=
  (ancChain p).map (fun q => ⟨q, v, Cond.always⟩)

/-- Child-propagation value of a node-type transition (config_node.py,
`set_node_type`, lines 365-390). -/
def childVal : NT → NT → Option NT
  | NT.C, NT.AN => some NT.CN
  | NT.CN, NT.AN => some NT.CN
  | NT.AN, NT.CN => some NT.C
  | NT.AN, NT.C => some NT.C
  | _, _ => Option.none

/-- Parent-propagation value of a node-type transition. -/
def parentVal : NT → NT → Option NT
  | NT.C, NT.CN => some NT.AN
  | NT.C, NT.AN => some NT.AN
  | _, _ => Option.none

/-- Does the transition require a ContentNode ancestor? -/
def parentChk : NT → NT → Bool
  | NT.CN, NT.C => true
  | NT.AN, NT.C => true
  | _, _ => false

def cnErrMsg (n : String) : String :=
  "Attempt to change " ++ n ++ " to a Content-only node with no Content Node parent"

/-- Result of a `set_node_type` call.  Python exceptions leave every mutation
made so far in place, so `err` carries the tree state at raise time.  `out`
is fuel exhaustion (never reached with sufficient fuel). -/
inductive SRes where
  | ok (t : CObj)
  | err (msg : String) (t : CObj)
  | out (t : CObj)

mutual

/-- `ConfigNode.set_node_type(new_value, force)` (config_node.py lines
350-445) as a fuel-indexed whole-tree interpreter; the target node is the one
at position `p`.  Notes on faithfulness:
* the Python `force` parameter is never read in the body: the `else` branch
  ("On force update") runs on every call whose `new_value` equals the current
  type, so the embedding needs no force flag;
* `self.node_type = new_value` precedes the ContentNode-ancestor check and
  all propagation, so the error result carries the already-retyped tree;
* parent propagation walks every proper ancestor, nearest first, and child
  propagation runs after it, mirroring statement order;
* the child job list is computed from the current tree; since no branch of
  `set_node_type` ever changes tree structure (only `ty` fields), the index
  list coincides with Python's live dict iteration, and the `ifC` condition
  is (faithfully) re-evaluated against the current tree by `sntSeq`. -/
def set_node_type : Nat → CObj → Pos → NT → SRes
  | 0, t, _, _ => SRes.out t
  | f + 1, t, p, v =>
    match tyAt t p with
    | Option.none => SRes.ok t
    | some cur =>
      if cur = v then
        match cur with
        | NT.AN =>
          sntSeq f t ((if p.isEmpty then [] else [⟨p.dropLast, NT.AN, Cond.always⟩])
            ++ childJobs t p NT.CN Cond.ifC)
        | NT.CN =>
          sntSeq f t ((if p.isEmpty then [] else [⟨p.dropLast, NT.AN, Cond.always⟩])
            ++ childJobs t p NT.C Cond.always)
        | NT.C =>
          sntSeq f t ((if !p.isEmpty && (tyAt t p.dropLast = some NT.AN : Bool)
              then [⟨p.dropLast, NT.CN, Cond.always⟩] else [])
            ++ childJobs t p NT.C Cond.always)
      else
        let t1 := setTy t p v
        if parentChk cur v && !hasCNanc t1 p then
          SRes.err (cnErrMsg (nameAt t1 p)) t1
        else
          sntSeq f t1
            ((match parentVal cur v with
              | some pv => ancJobs p pv
              | Option.none => []) ++
             (match childVal cur v with
              | some cv => childJobs t1 p cv Cond.always
              | Option.none => []))
termination_by f _ _ _ => (f, 0)

/-- Run a list of propagation jobs in order, threading the tree; an error
aborts the remaining jobs (exception propagation). -/
def sntSeq : Nat → CObj → List Job → SRes
  | _, t, [] => SRes.ok t
  | f, t, j :: rest =>
    if j.cond = Cond.ifC ∧ ¬ tyAt t j.pos = some NT.C then sntSeq f t rest
    else
      match set_node_type f t j.pos j.tgt with
      | SRes.ok t2 => sntSeq f t2 rest
      | e => e
termination_by f _ js => (f, js.length + 1)

end

/-! ## Tree read operations: `_to_dict`, `_get_obj`, `get`, `search` -/

/-- Name of a configuration object (`self.name`). -/
def objName : CObj → String
  | CObj.attr n _ => n
  | CObj.node n _ _ => n

/-- The plain nested structure returned by `get`.  A node's `_to_dict` builds
a fresh `OrderedDict` on every call (so mapping levels are new objects), while
`ConfigAttribute._to_dict` is `return self.value`: the attribute's value is
returned by reference, which for a Python list value means the returned
structure aliases the tree's list object (`PyVal.listRef`). -/
inductive Plain where
  | val (v : PyVal)
  | dict (entries : List (String × Plain))

mutual

/-- `_to_dict` of a configuration object. -/
def to_dict : CObj → Plain
  | CObj.attr _ v => Plain.val v
  | CObj.node _ _ kids => Plain.dict (to_dictKids kids)

/-- `_to_dict` over the children mapping (`self.attributes.items()`). -/
def to_dictKids : List CObj → List (String × Plain)
  | [] => []
  | k :: ks => (objName k, to_dict k) :: to_dictKids ks

end

/-- Child lookup by name (`self.attributes[name]`; OrderedDict keys are
unique, the first match is the entry). -/
def lookupKid : List CObj → String → Option CObj
  | [], _ => Option.none
  | k :: ks, s => if objName k = s then some k else lookupKid ks s

/-- `path.split("/")`: cut the character list at every slash, keeping empty
pieces (Python semantics). -/
def splitSlash : List Char → List Char → List String
  | [], cur => [String.mk cur.reverse]
  | c :: rest, cur =>
    if c = Char.ofNat 47 then String.mk cur.reverse :: splitSlash rest []
    else splitSlash rest (c :: cur)

/-- `[x for x in path.split("/") if x != ""]`. -/
def splitPath (s : String) : List String :=
  (splitSlash s.data []).filter (fun x => x ≠ "")

/-- Path segments of an optional path argument (`None` and `""` are both
falsy and give the empty walk). -/
def pathSegs : Option String → List String
  | Option.none => []
  | some s => splitPath s

/-- `_get_obj`, after splitting the path into segments.
`ConfigNode._get_obj` (config_node.py lines 167-189) walks one segment at a
time and returns `None` when the next segment is not a child's name;
`ConfigAttribute._get_obj(path)` is `return self` — an attribute ignores any
remaining path segments.  Joining the remaining segments with `/` and
re-splitting in the recursive call reproduces the same segment list, so the
embedding passes the segment list directly. -/
def get_obj : CObj → List String → Option CObj
  | t, [] => some t
  | t, s :: rest =>
    match t with
    | CObj.attr n v => some (CObj.attr n v)
    | CObj.node _ _ kids =>
      match lookupKid kids s with
      | some k => get_obj k rest
      | Option.none => Option.none

/-- `ConfigNode.get(path)`: resolve then convert with `_to_dict`. -/
def get (t : CObj) (path : Option String) : Option Plain :=
  (get_obj t (pathSegs path)).map to_dict

/-- Names of the attribute children of a node (`list_attributes` with the
default path, i.e. of the node itself). -/
def listAttrNames : List CObj → List String
  | [] => []
  | CObj.attr n _ :: ks => n :: listAttrNames ks
  | CObj.node _ _ _ :: ks => listAttrNames ks

/-- `os.path.join` for the slash-separated paths used by `search`. -/
def pjoin (a b : String) : String :=
  if b.data.head? = some (Char.ofNat 47) then b
  else if a.data = [] || a.data.getLast? = some (Char.ofNat 47) then a ++ b
  else a ++ "/" ++ b

/-- Does an attribute name pass the `name` filter?  Python's `if name:` is
falsy both for `None` and for `""`, in which case the filter is skipped. -/
def nameOk (nm : Option String) (aName : String) : Bool :=
  match nm with
  | Option.none => true
  | some s => s = "" || s = aName

mutual

/-- `ConfigNode._search_here(name, criteria, depth, recursive)`
(config_node.py lines 291-316): walks the children in order; a matching
attribute appends `self.name`; a child node contributes its recursive results
prefixed with `os.path.join(self.name, ·)` when `recursive`, and appends
`self.name` when `depth > 1` and the child has a match at `depth - 1`. -/
def search_here : CObj → Option String → (PyVal → Bool) → Nat → Bool → List String
  | CObj.attr _ _, _, _, _, _ => []
  | CObj.node selfName _ kids, nm, crit, depth, rec =>
    searchKids selfName kids nm crit depth rec

/-- The `for a_name, attribute in self.attributes.items()` loop of
`_search_here`, in child order. -/
def searchKids : String → List CObj → Option String → (PyVal → Bool) → Nat → Bool →
    List String
  | _, [], _, _, _, _ => []
  | selfName, k :: ks, nm, crit, depth, rec =>
    (match k with
     | CObj.node _ _ _ =>
       (if rec then (search_here k nm crit depth rec).map (pjoin selfName) else [])
         ++ (if depth > 1 ∧ search_here k nm crit (depth - 1) false ≠ []
             then [selfName] else [])
     | CObj.attr aName v => if nameOk nm aName ∧ crit v then [selfName] else [])
    ++ searchKids selfName ks nm crit depth rec

end

/-- The `for element in self._get_obj(path).attributes.values() if
isinstance(element, ConfigNode)` comprehension of `search`. -/
def searchTop : List CObj → Option String → (PyVal → Bool) → Nat → Bool → List String
  | [], _, _, _, _ => []
  | k :: ks, nm, crit, depth, rec =>
    (match k with
     | CObj.node _ _ _ => search_here k nm crit depth rec
     | CObj.attr _ _ => []) ++ searchTop ks nm crit depth rec

/-- `ConfigNode.search(path, name, criteria, depth, recursive)` (config_node.py
lines 263-289): resolves `path`, runs `_search_here` on each child node of
the resolved node, joins each result onto `path`, and de-duplicates (the
source builds a Python `set` and returns `list(...)` of it; the embedding
returns the de-duplicated list in first-occurrence order — the claims below
only constrain the result as a set).  When `path` resolves to an attribute or
to nothing the source would fail with an `AttributeError` on
`.attributes`; the embedding returns `none` there. -/
def search (t : CObj) (path : String) (nm : Option String) (crit : PyVal → Bool)
    (depth : Nat) (rec : Bool) : Option (List String) :=
  match get_obj t (splitPath path) with
  | some (CObj.node _ _ kids) =>
    some (((searchTop kids nm crit depth rec).map (pjoin path)).dedup)
  | _ => Option.none

/-! ## Template validation engine

Templates are schema values (`template_base.py` and descendants).  Fields not
used by any modelled operation (`description`, `sample()`, the `node_type`
hint of node templates and the date/datetime value types) are not modelled:
no claim mentions them and no modelled scenario reaches them. -/

/-- A Python exception: `ve` is `ValueError` (the only class the validation
engine raises and catches), `other` any other exception class (name, text),
which `except ValueError` does not catch. -/
inductive PyErr where
  | ve (msg : String)
  | other (name : String) (msg : String)
deriving DecidableEq, Repr

/-- Outcome of calling a user validator callback: a returned truthiness, a
raised `ValueError` with its text, or a raised exception of another class. -/
inductive CbRes where
  | ret (b : Bool)
  | raiseVE (txt : String)
  | raiseOther (name : String) (txt : String)

/-- The declared `value_type` of an attribute template (the value types the
claims exercise). -/
inductive PType where
  | str
  | int
deriving DecidableEq, Repr

/-- Python `str()` rendering of an attribute value as it appears inside
f-string error messages.  (A list value renders its contents in Python; no
modelled claim puts a list value into a message.) -/
def pyStr : PyVal → String
  | PyVal.scalar (Scalar.s v) => v
  | PyVal.scalar (Scalar.i v) => toString v
  | PyVal.scalar (Scalar.b true) => "True"
  | PyVal.scalar (Scalar.b false) => "False"
  | PyVal.scalar Scalar.none => "None"
  | PyVal.listRef _ => "[...]"

/-- An apostrophe (used in Python's `repr` of a class object). -/
def apos : String := String.singleton (Char.ofNat 39)

/-- `f"{sys.exc_info()[0]}"` for a caught `ValueError`: the *class repr*, not
the exception's text. -/
def veClassRepr : String := "<class " ++ apos ++ "ValueError" ++ apos ++ ">"

/-- `f"{self.value_type}"`: repr of the declared type class. -/
def ptypeRepr : PType → String
  | PType.str => "<class " ++ apos ++ "str" ++ apos ++ ">"
  | PType.int => "<class " ++ apos ++ "int" ++ apos ++ ">"

/-- `isinstance(value, value_type)`.  Python's `bool` is a subclass of
`int`. -/
def isInst : PyVal → PType → Bool
  | PyVal.scalar (Scalar.s _), PType.str => true
  | PyVal.scalar (Scalar.i _), PType.int => true
  | PyVal.scalar (Scalar.b _), PType.int => true
  | _, _ => false

/-- Is the value Python `None`? -/
def isNone : PyVal → Bool
  | PyVal.scalar Scalar.none => true
  | _ => false

/-- `self.value_type(value)` - the reflection-based coercion call.  `str()`
always succeeds; `int()` of an unparsable string raises `ValueError`, and of
`None` or a list raises `TypeError` (which the `except ValueError` around the
call would not catch). -/
def coercePy : PType → PyVal → Except PyErr PyVal
  | PType.str, v => Except.ok (PyVal.scalar (Scalar.s (pyStr v)))
  | PType.int, PyVal.scalar (Scalar.s txt) =>
    match txt.toInt? with
    | some n => Except.ok (PyVal.scalar (Scalar.i n))
    | Option.none => Except.error (PyErr.ve ("invalid literal for int() with base 10: " ++ txt))
  | PType.int, PyVal.scalar (Scalar.i n) => Except.ok (PyVal.scalar (Scalar.i n))
  | PType.int, PyVal.scalar (Scalar.b bb) =>
    Except.ok (PyVal.scalar (Scalar.i (if bb then 1 else 0)))
  | PType.int, PyVal.scalar Scalar.none =>
    Except.error (PyErr.other "TypeError" "int() argument must not be None")
  | PType.int, PyVal.listRef _ =>
    Except.error (PyErr.other "TypeError" "int() argument must not be a list")

/-- `TemplateAttributeBase.validate(value, name)` (template_attr_base.py lines
40-82) on an attribute whose current value is `v` and whose `get_path()` is
`path`.  Returns `ok none` when the final value is `None` (the attribute is
to be omitted), `ok (some v1)` with the (possibly coerced) value otherwise.
Notes, straight from the source:
* the coercion block runs only when the value is non-`None` and fails
  `isinstance`; a `ValueError` from the constructor leads (no date types
  modelled) to `Expecting <path> to be of type <type repr>` unless the
  original value is `None` or `""` (then the original value is kept);
* around the validator callback only `except ValueError` is caught, and the
  caught object's *class repr* (`sys.exc_info()[0]`) - not its text - is
  appended to `Parameter <path> failed validation for value <value>`;
  any other exception class propagates unchanged;
* the callback runs only when the attribute is mandatory or the value is
  non-`None`. -/
def ta_validate (optional : Bool) (vt : PType) (validator : Option (PyVal → CbRes))
    (v : PyVal) (path : String) : Except PyErr (Option PyVal) := do
  let v1 ←
    if ¬ isNone v ∧ ¬ isInst v vt then
      match coercePy vt v with
      | Except.ok v2 => pure v2
      | Except.error (PyErr.ve _) =>
        if ¬ isNone v ∧ v ≠ PyVal.scalar (Scalar.s "") then
          Except.error (PyErr.ve ("Expecting " ++ path ++ " to be of type " ++ ptypeRepr vt))
        else
          pure v
      | Except.error e => Except.error e
    else
      pure v
  match validator with
  | Option.none => pure ()
  | some cb =>
    if ¬ optional ∨ ¬ isNone v1 then
      match cb v1 with
      | CbRes.ret true => pure ()
      | CbRes.ret false =>
        Except.error (PyErr.ve
          ("Parameter " ++ path ++ " failed validation for value " ++ pyStr v1))
      | CbRes.raiseVE _ =>
        Except.error (PyErr.ve
          ("Parameter " ++ path ++ " failed validation for value " ++ pyStr v1
            ++ ": " ++ veClassRepr))
      | CbRes.raiseOther nm txt => Except.error (PyErr.other nm txt)
    else
      pure ()
  if ¬ optional ∧ isNone v1 then
    Except.error (PyErr.ve
      ("Mandatory parameter " ++ path ++ " has not been set, and has no default value"))
  else if isNone v1 then
    pure Option.none
  else
    pure (some v1)

/-- Template schema values.  `attrFixed` is `TemplateAttributeFixed`,
`nodeFixed` is `TemplateNodeFixed` (children in declaration order, keyed by
their own names), `nodeSet` is `TemplateNodeSet` (one element template, a
list of expected names). -/
inductive Tmpl where
  | attrFixed (name : String) (optional : Bool) (vt : PType)
      (validator : Option (PyVal → CbRes)) (default : PyVal)
  | nodeFixed (name : String) (optional : Bool)
      (validator : Option (Plain → CbRes)) (children : List Tmpl)
  | nodeSet (name : String) (element : Tmpl) (names : List String)

def Tmpl.tname : Tmpl → String
  | Tmpl.attrFixed n _ _ _ _ => n
  | Tmpl.nodeFixed n _ _ _ => n
  | Tmpl.nodeSet n _ _ => n

/-- `get_path()` of a parentless node (`ConfigNode.get_path`): `""` for a
node named `root`, else `/<name>`. -/
def parentlessNodePath (n : String) : String :=
  if n = "root" then "" else "/" ++ n

/-- `OrderedDict` assignment `self.attributes[obj.name] = obj`: replace the
entry with the same name in place, else append. -/
def dictSet : List CObj → CObj → List CObj
  | [], x => [x]
  | k :: ks, x => if objName k = objName x then x :: ks else k :: dictSet ks x

/-- `node.add(child)` for a single `ConfigObject` argument, as used by the
validation engine to splice validated children back in.  The source ends
`add` with `self.set_node_type(self.node_type, force=True)`; on the all-`C`
trees handled by the template claims this trailing call returns with no
change (the lemma `set_node_type_allC_noop` below), so the structural
embedding elides it here. -/
def addChild : CObj → CObj → CObj
  | CObj.node n ty ks, x => CObj.node n ty (dictSet ks x)
  | t, _ => t

def childNames : List CObj → List String :=
  List.map objName

/-- Helper for `tnsLoop`: splice a validated child back into the parent
(`node.add(new_value)`). -/
def spliceSetResult (nd : CObj) (k2 : CObj) : CObj :=
  addChild nd k2

/-- `TemplateNodeBase.validate(node)` (template_node_base.py lines 40-86),
shared head of the node-template validators.  `input` is the configuration
object together with its `get_path()` value (`none` when the actual node is
absent); `tmplKidsCount` is `len(self.attributes)`.  Mirrors the `if/elif`
chain of the source: the `has no attributes` check is reached only when the
actual object is present *and* is a `ConfigNode`; a synthesized node for a
missing mandatory template skips it.  The node-level validator (when present)
receives `node.get()` and appends a caught `ValueError`'s *text* (`str(e)`)
to `Node <path> failed validation`; other exception classes propagate.  The
`node_type` hint is not modelled (no claim uses it). -/
def tnb_validate (name : String) (optional : Bool) (tmplKidsCount : Nat)
    (validator : Option (Plain → CbRes)) (input : Option (CObj × String)) :
    Except PyErr (Option (CObj × String)) := do
  let st ←
    match input with
    | Option.none =>
      if optional then
        pure Option.none
      else
        pure (some (CObj.node name NT.C [], parentlessNodePath name))
    | some (CObj.attr _ _, _) =>
      Except.error (PyErr.ve
        ("Configuration object passed for validation to template " ++ name
          ++ " is not a ConfigNode"))
    | some (nd, path) =>
      if tmplKidsCount = 0 then
        Except.error (PyErr.ve ("Template for node " ++ name ++ " has no attributes"))
      else
        pure (some (nd, path))
  match st with
  | Option.none => pure Option.none
  | some (nd, path) =>
    match validator with
    | Option.none => pure (some (nd, path))
    | some cb =>
      match cb (to_dict nd) with
      | CbRes.ret true => pure (some (nd, path))
      | CbRes.ret false =>
        Except.error (PyErr.ve ("Node " ++ path ++ " failed validation"))
      | CbRes.raiseVE txt =>
        if txt ≠ "" then
          Except.error (PyErr.ve ("Node " ++ path ++ " failed validation: " ++ txt))
        else
          Except.error (PyErr.ve ("Node " ++ path ++ " failed validation"))
      | CbRes.raiseOther nm txt => Except.error (PyErr.other nm txt)

/-- Fuel exhaustion marker for the fuel-indexed template engine below (never
reached with fuel at least twice the template nesting size; the fuel makes
the mutual recursion structural, hence kernel-computable). -/
def fuelOut : Except PyErr (Option (CObj × String)) :=
  Except.error (PyErr.other "FuelExhausted" "")

mutual

/-- `TemplateNodeFixed.validate(node)` (template_node_fixed.py lines 37-90):
base validation, then the child-template loop, then the mandatory/empty
checks. -/
def tnf_validate : Nat → String → Bool → Option (Plain → CbRes) → List Tmpl →
    Option (CObj × String) → Except PyErr (Option (CObj × String))
  | 0, _, _, _, _, _ => fuelOut
  | f + 1, name, optional, validator, children, input => do
    match ← tnb_validate name optional children.length validator input with
    | Option.none => pure Option.none
    | some st =>
      let (nd, path) ← tnfLoop f children st
      match nd with
      | CObj.node _ _ ks =>
        if ¬ optional ∧ ks.length = 0 then
          Except.error (PyErr.ve
            ("Mandatory node " ++ path ++ " is missing, with no defaults set"))
        else if ks.length = 0 then
          pure Option.none
        else
          pure (some (nd, path))
      | _ => pure (some (nd, path))

/-- The `for attr_t_name, attr_t in self.attributes.items()` loop of
`TemplateNodeFixed.validate`, threading the node being (re)built. -/
def tnfLoop : Nat → List Tmpl → CObj × String → Except PyErr (CObj × String)
  | _, [], st => Except.ok st
  | 0, _ :: _, _ => Except.error (PyErr.other "FuelExhausted" "")
  | f + 1, tm :: rest, st => do
    let (nd, path) := st
    match tm with
    | Tmpl.attrFixed aname aopt avt avld adft =>
      let kids := match nd with
        | CObj.node _ _ ks => ks
        | _ => []
      let res ←
        if aname ∈ childNames kids then
          match lookupKid kids aname with
          | some (CObj.attr _ av) =>
            ta_validate aopt avt avld av (path ++ "/" ++ aname)
          | some (CObj.node _ _ _) =>
            Except.error (PyErr.other "AttributeError"
              ("ConfigNode object has no attribute value"))
          | Option.none =>
            Except.error (PyErr.other "KeyError" aname)
        else
          ta_validate aopt avt avld adft (path ++ "/" ++ aname)
      match res with
      | some v1 => tnfLoop f rest (addChild nd (CObj.attr aname v1), path)
      | Option.none => tnfLoop f rest (nd, path)
    | Tmpl.nodeFixed cname copt cvld cch =>
      let kids := match nd with
        | CObj.node _ _ ks => ks
        | _ => []
      let arg : Option (CObj × String) :=
        match lookupKid kids cname with
        | some k => some (k, path ++ "/" ++ cname)
        | Option.none => Option.none
      match ← tnf_validate f cname copt cvld cch arg with
      | some (k2@(CObj.node _ _ ks2), _) =>
        if ks2.length > 0 then tnfLoop f rest (addChild nd k2, path)
        else tnfLoop f rest (nd, path)
      | _ => tnfLoop f rest (nd, path)
    | Tmpl.nodeSet sname selem snames =>
      match ← tns_validate f sname selem snames (some (nd, path)) with
      | some st2 => tnfLoop f rest st2
      | Option.none =>
        Except.error (PyErr.other "AttributeError"
          ("NoneType object has no attribute attributes"))

/-- `TemplateNodeSet.validate(node)` (template_node_set.py lines 36-69): base
validation (a node set is itself `optional=True` with one stored child
template), then for each declared name: synthesize an empty child node when
the name is absent and the element template is mandatory (skip when it is
optional), validate the (possibly synthesized) child against the element
template, and splice a non-empty result back in. -/
def tns_validate : Nat → String → Tmpl → List String →
    Option (CObj × String) → Except PyErr (Option (CObj × String))
  | 0, _, _, _, _ => fuelOut
  | f + 1, sname, element, names, input => do
    match ← tnb_validate sname true 1 Option.none input with
    | Option.none => pure Option.none
    | some st =>
      let (nd, path) ← tnsLoop f element names st
      match nd with
      | CObj.node _ _ ks =>
        if ks.length = 0 then pure Option.none else pure (some (nd, path))
      | _ => pure (some (nd, path))

/-- The `for name in self.names_lst` loop of `TemplateNodeSet.validate`. -/
def tnsLoop : Nat → Tmpl → List String → CObj × String →
    Except PyErr (CObj × String)
  | _, _, [], st => Except.ok st
  | 0, _, _ :: _, _ => Except.error (PyErr.other "FuelExhausted" "")
  | f + 1, element, nm :: rest, st => do
    let (nd, path) := st
    let kids := match nd with
      | CObj.node _ _ ks => ks
      | _ => []
    let elOptional : Bool :=
      match element with
      | Tmpl.attrFixed _ o _ _ _ => o
      | Tmpl.nodeFixed _ o _ _ => o
      | Tmpl.nodeSet _ _ _ => true
    if nm ∉ childNames kids then
      if ¬ elOptional then
        let nd2 := addChild nd (CObj.node nm NT.C [])
        let kids2 := match nd2 with
          | CObj.node _ _ ks => ks
          | _ => []
        match ← elemValidate f element (lookupKid kids2 nm) (path ++ "/" ++ nm) with
        | some k2 => tnsLoop f element rest (spliceSetResult nd2 k2, path)
        | Option.none => tnsLoop f element rest (nd2, path)
      else
        tnsLoop f element rest (nd, path)
    else
      match ← elemValidate f element (lookupKid kids nm) (path ++ "/" ++ nm) with
      | some k2 => tnsLoop f element rest (spliceSetResult nd k2, path)
      | Option.none => tnsLoop f element rest (nd, path)

/-- Validate one node-set member against the element template (the
`self.attributes["node"].validate(node._get_obj(name))` call; the node-set
constructor guarantees the element is a node template).  Returns the
validated child object to splice, or `none` when the result is empty/`None`
(`new_value.value is not None` / `len(new_value.attributes) > 0` checks). -/
def elemValidate : Nat → Tmpl → Option CObj → String → Except PyErr (Option CObj)
  | 0, _, _, _ => Except.error (PyErr.other "FuelExhausted" "")
  | f + 1, element, obj, objPath => do
    match element with
    | Tmpl.nodeFixed cname copt cvld cch =>
      match ← tnf_validate f cname copt cvld cch (obj.map (fun k => (k, objPath))) with
      | some (k2@(CObj.node _ _ ks2), _) =>
        if ks2.length > 0 then pure (some k2) else pure Option.none
      | _ => pure Option.none
    | Tmpl.nodeSet sname selem snames =>
      match ← tns_validate f sname selem snames (obj.map (fun k => (k, objPath))) with
      | some (k2@(CObj.node _ _ ks2), _) =>
        if ks2.length > 0 then pure (some k2) else pure Option.none
      | _ => pure Option.none
    | Tmpl.attrFixed _ _ _ _ _ => pure Option.none

end

/-! ## Object-graph view: `add`, `_set_parent`, `parent`, `depth`

Claim C4 is about the `parent` back-references and `depth` fields that
`ConfigNode.add` maintains.  Those are object-graph observables, so this
section models the object heap directly: every `ConfigNode`/`ConfigAttribute`
is a numbered heap object carrying its `parent` id and `depth`.  The trailing
`self.set_node_type(self.node_type, force=True)` call of `add` mutates only
`node_type` fields (covered by the structural interpreter above) and never
touches `parent`/`depth`; it is therefore not repeated in this view. -/

/-- One heap object (`ConfigNode` when `isNodeB`, else `ConfigAttribute`). -/
structure HObj where
  isNodeB : Bool
  name : String
  ty : NT
  value : PyVal
  parent : Option Nat
  depth : Nat
  kids : List Nat
deriving Repr

/-- The heap: allocated objects and the next fresh id. -/
structure HState where
  objs : List (Nat × HObj)
  next : Nat
deriving Repr

def hGet (h : HState) (i : Nat) : Option HObj :=
  (h.objs.find? (fun e => e.1 = i)).map (fun e => e.2)

def hSet (h : HState) (i : Nat) (o : HObj) : HState :=
  ⟨h.objs.map (fun e => if e.1 = i then (i, o) else e), h.next⟩

def hAlloc (h : HState) (o : HObj) : Nat × HState :=
  (h.next, ⟨h.objs ++ [(h.next, o)], h.next + 1⟩)

def hName (h : HState) (i : Nat) : String :=
  match hGet h i with
  | some o => o.name
  | Option.none => ""

def hIsNode (h : HState) (i : Nat) : Bool :=
  match hGet h i with
  | some o => o.isNodeB
  | Option.none => false

/-- `self.attributes[obj.name] = obj` on the children id list. -/
def hDictSet (h : HState) (ks : List Nat) (x : Nat) : List Nat :=
  match ks with
  | [] => [x]
  | k :: rest => if hName h k = hName h x then x :: rest else k :: hDictSet h rest x

/-- Replace the children list of a node object. -/
def hSetKids (h : HState) (i : Nat) (ks : List Nat) : HState :=
  match hGet h i with
  | some o => hSet h i { o with kids := ks }
  | Option.none => h

/-- `ConfigAttribute.__init__(name, value, parent)`. -/
def hAttrNew (h : HState) (name : String) (v : PyVal) (parent : Option Nat) :
    Nat × HState :=
  hAlloc h ⟨false, name, NT.C, v, parent, 0, []⟩

/-- `ConfigNode._set_parent(parent_node)` (config_node.py lines 145-155):
sets the parent reference, recomputes `depth`, and recurses into child
`ConfigNode`s (attribute children keep their parent, which is already this
object).  `ConfigAttribute._set_parent` only assigns `parent`.  Fuel-indexed
(the heap recursion is over reachable children). -/
def set_parent : Nat → HState → Nat → Nat → HState
  | 0, h, _, _ => h
  | f + 1, h, cid, pid =>
    match hGet h cid, hGet h pid with
    | some c, some p =>
      if c.isNodeB then
        let h1 := hSet h cid { c with parent := some pid, depth := p.depth + 1 }
        c.kids.foldl
          (fun hh kid => if hIsNode hh kid then set_parent f hh kid cid else hh) h1
      else
        hSet h cid { c with parent := some pid }
    | _, _ => h

/-- A raw value in a tuple/mapping argument to `add`: a scalar/list leaf or a
nested mapping. -/
inductive TVal where
  | leaf (v : PyVal)
  | map (entries : List (String × TVal))

/-- One element of a list argument to `add`: an existing `ConfigObject` or a
`(name, value)` tuple. -/
inductive LElem where
  | obj (i : Nat)
  | tup (name : String) (v : TVal)

/-- The accepted argument forms of `ConfigNode.add`. -/
inductive AddArg where
  | single (i : Nat)
  | listArg (elems : List LElem)
  | dictArg (entries : List (String × TVal))

mutual

/-- `ConfigNode.add(attributes)` (config_node.py lines 70-126) on the object
heap (fuel-indexed so the heap recursion is structural; fuel exhaustion
returns the heap unchanged and is never reached at the inputs below).
Branch by branch:
* a single `ConfigObject` is inserted by name and then re-parented with
  `_set_parent(self)`;
* a list element that is a `ConfigObject` is inserted by name and **not**
  re-parented (the source has no `_set_parent` call in this branch);
* a `(name, value)` tuple becomes a fresh child `ConfigNode` (mapping value)
  or `ConfigAttribute` (other value), constructed with `parent=self`;
* a mapping argument likewise materializes fresh children with `parent=self`.
The malformed-argument `ValueError` branches take no modelled input, and the
trailing `set_node_type` force call touches no parent/depth field (see the
module note above). -/
def hAdd : Nat → HState → Nat → AddArg → HState
  | 0, h, _, _ => h
  | f + 1, h, selfId, arg =>
    match arg with
    | AddArg.single objId =>
      let ks := match hGet h selfId with
        | some o => o.kids
        | Option.none => []
      let h1 := hSetKids h selfId (hDictSet h ks objId)
      set_parent (f + 1) h1 objId selfId
    | AddArg.listArg elems => hAddList f h selfId elems
    | AddArg.dictArg entries => hAddDict f h selfId entries

/-- The `for attribute in attributes` loop of the list branch. -/
def hAddList : Nat → HState → Nat → List LElem → HState
  | _, h, _, [] => h
  | 0, h, _, _ :: _ => h
  | f + 1, h, selfId, LElem.obj oid :: rest =>
    let ks := match hGet h selfId with
      | some o => o.kids
      | Option.none => []
    hAddList f (hSetKids h selfId (hDictSet h ks oid)) selfId rest
  | f + 1, h, selfId, LElem.tup nm (TVal.leaf v) :: rest =>
    let (aid, h1) := hAttrNew h nm v (some selfId)
    let ks := match hGet h1 selfId with
      | some o => o.kids
      | Option.none => []
    hAddList f (hSetKids h1 selfId (hDictSet h1 ks aid)) selfId rest
  | f + 1, h, selfId, LElem.tup nm (TVal.map m) :: rest =>
    let (nid, h1) := hNodeNew f h nm (some selfId) (some (AddArg.dictArg m))
    let ks := match hGet h1 selfId with
      | some o => o.kids
      | Option.none => []
    hAddList f (hSetKids h1 selfId (hDictSet h1 ks nid)) selfId rest

/-- The `for a_key, a_value in attributes.items()` loop of the dict branch. -/
def hAddDict : Nat → HState → Nat → List (String × TVal) → HState
  | _, h, _, [] => h
  | 0, h, _, _ :: _ => h
  | f + 1, h, selfId, (nm, TVal.map m) :: rest =>
    let (nid, h1) := hNodeNew f h nm (some selfId) (some (AddArg.dictArg m))
    let ks := match hGet h1 selfId with
      | some o => o.kids
      | Option.none => []
    hAddDict f (hSetKids h1 selfId (hDictSet h1 ks nid)) selfId rest
  | f + 1, h, selfId, (nm, TVal.leaf v) :: rest =>
    let (aid, h1) := hAttrNew h nm v (some selfId)
    let ks := match hGet h1 selfId with
      | some o => o.kids
      | Option.none => []
    hAddDict f (hSetKids h1 selfId (hDictSet h1 ks aid)) selfId rest

/-- `ConfigNode.__init__(name, parent, attributes)`: `depth` is
`parent.depth + 1` (1 when parentless), children start empty, then `add` runs
on the `attributes` argument. -/
def hNodeNew : Nat → HState → String → Option Nat → Option AddArg → Nat × HState
  | 0, h, _, _, _ => (0, h)
  | f + 1, h, name, parent, attrs =>
    let depth := match parent with
      | some pid =>
        (match hGet h pid with
         | some p => p.depth + 1
         | Option.none => 1)
      | Option.none => 1
    let (id, h1) := hAlloc h ⟨true, name, NT.C, PyVal.scalar Scalar.none, parent, depth, []⟩
    match attrs with
    | Option.none => (id, h1)
    | some a => (id, hAdd f h1 id a)

end

/-! ## Building a tree from a nested mapping (structural view)

The structural counterpart of `add`'s dict branch, used by
`ConfigNode("root", attributes=M)`: every mapping value becomes a child
`ConfigNode` (recursively), every other value a child `ConfigAttribute`.  The
trailing `set_node_type(self.node_type, force=True)` of each `add` changes
nothing on the all-`C` trees this produces (`set_node_type_allC_noop`
below). -/

mutual

/-- `ConfigNode.add` for a mapping argument: the
`for a_key, a_value in attributes.items()` loop, inserting with OrderedDict
assignment. -/
def add_dict : CObj → List (String × Plain) → CObj
  | t, [] => t
  | CObj.node n ty ks, (k, v) :: rest =>
    add_dict (CObj.node n ty (dictSet ks (matEntry k v))) rest
  | CObj.attr n v, _ => CObj.attr n v
termination_by t entries => sizeOf entries

/-- Materialize one mapping entry: nested mapping to `ConfigNode` (built by
the constructor, i.e. empty node plus `add`), other value to
`ConfigAttribute`. -/
def matEntry : String → Plain → CObj
  | k, Plain.val v => CObj.attr k v
  | k, Plain.dict m => add_dict (CObj.node k NT.C []) m
termination_by k v => sizeOf v

end

/-- `ConfigNode(name, attributes=M)` for a nested mapping `M`. -/
def node_from_dict (name : String) (entries : List (String × Plain)) : CObj :=
  add_dict (CObj.node name NT.C []) entries

mutual

/-- A nested mapping is well formed when every mapping level has distinct
keys (Python dicts cannot hold duplicate keys). -/
def wfPlain : Plain → Bool
  | Plain.val _ => true
  | Plain.dict m => wfEntries m

def wfEntries : List (String × Plain) → Bool
  | [] => true
  | (k, v) :: rest =>
    !(rest.any (fun e => e.1 = k)) && wfPlain v && wfEntries rest

end

/-! ## The list store: aliasing of list values through `get`

A Python list is a mutable heap object; `ConfigAttribute._to_dict` returns
`self.value` by reference, so a list-valued leaf of the structure returned by
`get` is *the same object* as the one inside the tree.  The store maps each
list id (`PyVal.listRef`) to its current contents; mutating a list in place
is a store update at its id. -/

abbrev Store := Nat → List Scalar

def updStore (σ : Store) (r : Nat) (vs : List Scalar) : Store :=
  fun x => if x = r then vs else σ x

/-- A fully resolved (store-independent) value: what a reader of the
structure returned by `get` observes. -/
inductive RVal where
  | scalar (v : Scalar)
  | list (vs : List Scalar)
  | dict (entries : List (String × RVal))

mutual

/-- Observe a `get` result through the store. -/
def resolveP (σ : Store) : Plain → RVal
  | Plain.val (PyVal.scalar v) => RVal.scalar v
  | Plain.val (PyVal.listRef r) => RVal.list (σ r)
  | Plain.dict m => RVal.dict (resolveE σ m)

def resolveE (σ : Store) : List (String × Plain) → List (String × RVal)
  | [] => []
  | (k, v) :: rest => (k, resolveP σ v) :: resolveE σ rest

end

/-- `get` followed by reading the result through the store. -/
def observeGet (t : CObj) (σ : Store) (path : Option String) : Option RVal :=
  (get t path).map (resolveP σ)

mutual

/-- The list ids reachable from a tree (the lists the tree's attributes hold
by reference). -/
def treeRefs : CObj → List Nat
  | CObj.attr _ (PyVal.listRef r) => [r]
  | CObj.attr _ (PyVal.scalar _) => []
  | CObj.node _ _ kids => treeRefsL kids

def treeRefsL : List CObj → List Nat
  | [] => []
  | k :: ks => treeRefs k ++ treeRefsL ks

end

mutual

/-- The list ids occurring in a `get` result. -/
def plainRefs : Plain → List Nat
  | Plain.val (PyVal.listRef r) => [r]
  | Plain.val (PyVal.scalar _) => []
  | Plain.dict m => plainRefsE m

def plainRefsE : List (String × Plain) → List Nat
  | [] => []
  | (_, v) :: rest => plainRefs v ++ plainRefsE rest

end

/-! ## C1 support: consistency, cascade-shape predicates and final-state
transforms for `set_node_type`

Claim C1 quantifies over *consistent* trees: every ConfigNode child of a C
node is C, of a CN node is C, of an AN node is CN or AN (the structural
invariant the node-type table is meant to preserve).  The predicates below
describe the tree shapes occurring during a `set_node_type` cascade, and the
transform functions give the exact final trees. -/

/-- The retyping function applied by `setTy` at its target. -/
def tyFun (v : NT) : CObj → CObj
  | CObj.node n _ kids => CObj.node n v kids
  | a => a

/-- Is this object a ConfigNode of type C? -/
def isCNode : CObj → Bool
  | CObj.node _ NT.C _ => true
  | _ => false

/-- Is this object a ConfigAttribute? -/
def isAttr : CObj → Bool
  | CObj.attr _ _ => true
  | _ => false

mutual

/-- Size measure for induction over subtrees. -/
def csize : CObj → Nat
  | CObj.attr _ _ => 1
  | CObj.node _ _ kids => 1 + csizeL kids

def csizeL : List CObj → Nat
  | [] => 0
  | k :: ks => csize k + csizeL ks

end

mutual

/-- Every node in the subtree (the object included) has type C; attributes
are unconstrained. -/
def allC : CObj → Bool
  | CObj.attr _ _ => true
  | CObj.node _ NT.C kids => allCL kids
  | CObj.node _ _ _ => false

def allCL : List CObj → Bool
  | [] => true
  | k :: ks => allC k && allCL ks

end

/-- A CN node whose child subtrees are all C (a fully promoted child), or an
attribute. -/
def cnDone : CObj → Bool
  | CObj.attr _ _ => true
  | CObj.node _ NT.CN kids => allCL kids
  | CObj.node _ _ _ => false

mutual

/-- A "dirty" subtree: the shape of the one child whose retyping is still in
progress during a cascade.  Either a CN node over all-C subtrees, or an AN
node whose children are all C (just retyped) or contain exactly one dirty
child among all-C siblings. -/
def dirty : CObj → Bool
  | CObj.attr _ _ => false
  | CObj.node _ NT.CN kids => allCL kids
  | CObj.node _ NT.AN kids => allCL kids || dirtyL kids
  | CObj.node _ NT.C _ => false

/-- Exactly one dirty member, all other members all-C. -/
def dirtyL : List CObj → Bool
  | [] => false
  | k :: ks => (dirty k && allCL ks) || (allC k && dirtyL ks)

end

/-- Children admissible for the CN-promotion sequence lemma: attributes,
all-C subtrees, fully promoted CN children, or AN-dirty children. -/
def seqKidOK : CObj → Bool
  | CObj.attr _ _ => true
  | CObj.node _ NT.C kids => allCL kids
  | CObj.node _ NT.CN kids => allCL kids
  | CObj.node _ NT.AN kids => allCL kids || dirtyL kids

/-- A C child is "raw" if its whole subtree is C (non-C children are
unconstrained). -/
def cRaw (k : CObj) : Bool := !isCNode k || allC k

/-- A processed child of the promotion sequence: attribute or promoted CN. -/
def postKid (k : CObj) : Bool := isAttr k || cnDone k

/-- No C-node children. -/
def noCkids (ks : List CObj) : Bool := ks.all (fun k => !isCNode k)

/-- All members except the one at the given index have all-C subtrees. -/
def offAllC : List CObj → Nat → Bool
  | [], _ => true
  | _ :: ks, 0 => allCL ks
  | k :: ks, i + 1 => allC k && offAllC ks i

/-- Allowed (parent node type, child) pairs of a consistent tree. -/
def childOK : NT → CObj → Bool
  | _, CObj.attr _ _ => true
  | NT.C, CObj.node _ NT.C _ => true
  | NT.CN, CObj.node _ NT.C _ => true
  | NT.AN, CObj.node _ NT.CN _ => true
  | NT.AN, CObj.node _ NT.AN _ => true
  | _, CObj.node _ _ _ => false

mutual

/-- Structural consistency of a configuration tree (claim C1's hypothesis). -/
def consB : CObj → Bool
  | CObj.attr _ _ => true
  | CObj.node _ ty kids => consL ty kids

def consL : NT → List CObj → Bool
  | _, [] => true
  | ty, k :: ks => childOK ty k && consB k && consL ty ks

end

/-- Stability above a position: every strict ancestor is an AN node with no
C-node children (such ancestors absorb AN force-updates without change). -/
def stA : CObj → Pos → Bool
  | _, [] => true
  | CObj.attr _ _, _ :: _ => true
  | CObj.node _ NT.AN kids, i :: p =>
    noCkids kids &&
    (match kids.get? i with
     | some k => stA k p
     | Option.none => true)
  | CObj.node _ _ _, _ :: _ => false

/-- The C-zone of a cascade path: every level from here on is a C node whose
off-path children are all-C subtrees. -/
def zC : CObj → Pos → Bool
  | _, [] => true
  | CObj.node _ NT.C kids, i :: p =>
    offAllC kids i &&
    (match kids.get? i with
     | some k => zC k p
     | Option.none => true)
  | _, _ :: _ => false

/-- Shape of the chain strictly above a cascade target: stable AN levels,
then optionally one CN anchor followed by C levels, or C levels up to the
root (the ancestor shapes a consistent tree gives a C node). -/
def zTop : CObj → Pos → Bool
  | _, [] => true
  | CObj.node _ NT.AN kids, i :: p =>
    noCkids kids &&
    (match kids.get? i with
     | some k => zTop k p
     | Option.none => true)
  | CObj.node _ NT.CN kids, i :: p =>
    offAllC kids i &&
    (match kids.get? i with
     | some k => zC k p
     | Option.none => true)
  | CObj.node _ NT.C kids, i :: p =>
    offAllC kids i &&
    (match kids.get? i with
     | some k => zC k p
     | Option.none => true)
  | CObj.attr _ _, _ :: _ => false

/-- Promote a C node to CN (the effect of an AN force-update on a C child). -/
def promoteC : CObj → CObj
  | CObj.node n NT.C kids => CObj.node n NT.CN kids
  | x => x

mutual

/-- Retype a whole subtree to C (the effect of a completed demotion). -/
def mkAllC : CObj → CObj
  | CObj.attr n v => CObj.attr n v
  | CObj.node n _ kids => CObj.node n NT.C (mkAllCL kids)

def mkAllCL : List CObj → List CObj
  | [] => []
  | k :: ks => mkAllC k :: mkAllCL ks

end

/-- Final state of a child after a CN-target cascade: CN over an all-C
subtree. -/
def casKid : CObj → CObj
  | CObj.attr n v => CObj.attr n v
  | CObj.node n _ kids => CObj.node n NT.CN (mkAllCL kids)

/-- Promote the C children of a node. -/
def promoteKidsF : CObj → CObj
  | CObj.node n ty kids => CObj.node n ty (kids.map promoteC)
  | a => a

/-- Replace every child by its cascade final state. -/
def casKidsF : CObj → CObj
  | CObj.node n ty kids => CObj.node n ty (kids.map casKid)
  | a => a

/-- Retype a node to AN and replace every child by its cascade final state. -/
def casKidsAN : CObj → CObj
  | CObj.node n _ kids => CObj.node n NT.AN (kids.map casKid)
  | a => a

/-- Number of C-node children. -/
def countC (ks : List CObj) : Nat := (ks.filter (fun k => isCNode k)).length

/-- `set_node_type` terminates with this result for every sufficiently large
fuel (the embedding's way of saying the Python call returns/raises with this
outcome). -/
def Runs (t : CObj) (p : Pos) (v : NT) (r : SRes) : Prop :=
  ∃ N, ∀ f, N ≤ f → set_node_type f t p v = r

/-- `sntSeq` analogue of `Runs`. -/
def RunsSeq (t : CObj) (js : List Job) (r : SRes) : Prop :=
  ∃ N, ∀ f, N ≤ f → sntSeq f t js = r

/-! # Theorems -/

/-! ## Position algebra -/

theorem getAt_append (xs : Pos) : ∀ (t : CObj) (ys : Pos),
    getAt t (xs ++ ys) = (getAt t xs).bind (fun u => getAt u ys) := by
  induction xs with
  | nil => intro t ys; simp [getAt]
  | cons x xs ih =>
    intro t ys
    match t with
    | CObj.attr n v => simp [getAt]
    | CObj.node n ty kids =>
      simp only [List.cons_append, getAt]
      match kids.get? x with
      | Option.none => simp
      | some k => simp [ih k ys]

theorem updAt_append (p : Pos) : ∀ (f : CObj → CObj) (t : CObj) (r : Pos),
    updAt f t (p ++ r) = updAt (fun u => updAt f u r) t p := by
  induction p with
  | nil => intro f t r; simp [updAt]
  | cons i p ih =>
    intro f t r
    match t with
    | CObj.attr n v => simp [updAt]
    | CObj.node n ty kids =>
      simp only [List.cons_append, updAt]
      congr 1
      induction kids generalizing i with
      | nil => simp [updKids]
      | cons k ks ihk =>
        match i with
        | 0 => simp [updKids, ih]
        | j + 1 => simp [updKids, ihk j]

theorem getAt_updAt_self (f : CObj → CObj) (p : Pos) : ∀ (t : CObj),
    getAt (updAt f t p) p = (getAt t p).map f := by
  induction p with
  | nil => intro t; simp [getAt, updAt]
  | cons i p ih =>
    intro t
    match t with
    | CObj.attr n v => simp [getAt, updAt]
    | CObj.node n ty kids =>
      simp only [updAt, getAt]
      induction kids generalizing i with
      | nil => simp [updKids]
      | cons k ks ihk =>
        match i with
        | 0 => simpa [updKids] using ih k
        | j + 1 => simpa [updKids] using ihk j

/-- Updating below a position `p` leaves positions that branch off before the
end of `p` untouched. -/
theorem getAt_updAt_disjoint (p : Pos) : ∀ (f : CObj → CObj) (t : CObj)
    (i j : Nat) (r s : Pos), i ≠ j →
    getAt (updAt f t (p ++ i :: r)) (p ++ j :: s) = getAt t (p ++ j :: s) := by
  induction p with
  | nil =>
    intro f t i j r s hij
    match t with
    | CObj.attr n v => simp [getAt, updAt]
    | CObj.node n ty kids =>
      simp only [List.nil_append, updAt, getAt]
      have : (updKids f kids i r).get? j = kids.get? j := by
        induction kids generalizing i j with
        | nil => simp [updKids]
        | cons k ks ihk =>
          match i, j with
          | 0, 0 => exact absurd rfl hij
          | 0, jj + 1 => simp [updKids]
          | ii + 1, 0 => simp [updKids]
          | ii + 1, jj + 1 =>
            simp only [updKids, List.get?_cons_succ]
            exact ihk ii jj (by omega)
      rw [this]
  | cons x p ih =>
    intro f t i j r s hij
    match t with
    | CObj.attr n v => simp [getAt, updAt]
    | CObj.node n ty kids =>
      simp only [List.cons_append, updAt, getAt]
      have : (updKids f kids x (p ++ i :: r)).get? x
          = (kids.get? x).map (fun k => updAt f k (p ++ i :: r)) := by
        induction kids generalizing x with
        | nil => simp [updKids]
        | cons k ks ihk =>
          match x with
          | 0 => simp [updKids]
          | xx + 1 => simpa [updKids] using ihk xx
      rw [this]
      match kids.get? x with
      | Option.none => simp
      | some k => simpa using ih f k i j r s hij

/-- Updating strictly below `q` leaves the node type and name at `q`
unchanged (only the children content changes there). -/
theorem tyAt_updAt_strict_below (q : Pos) : ∀ (f : CObj → CObj) (t : CObj)
    (i : Nat) (r : Pos),
    tyAt (updAt f t (q ++ i :: r)) q = tyAt t q
    ∧ nameAt (updAt f t (q ++ i :: r)) q = nameAt t q := by
  induction q with
  | nil =>
    intro f t i r
    match t with
    | CObj.attr n v => simp [tyAt, nameAt, getAt, updAt]
    | CObj.node n ty kids => simp [tyAt, nameAt, getAt, updAt]
  | cons x q ih =>
    intro f t i r
    match t with
    | CObj.attr n v => simp [tyAt, nameAt, getAt, updAt]
    | CObj.node n ty kids =>
      simp only [List.cons_append, updAt, tyAt, nameAt, getAt]
      have : (updKids f kids x (q ++ i :: r)).get? x
          = (kids.get? x).map (fun k => updAt f k (q ++ i :: r)) := by
        induction kids generalizing x with
        | nil => simp [updKids]
        | cons k ks ihk =>
          match x with
          | 0 => simp [updKids]
          | xx + 1 => simpa [updKids] using ihk xx
      rw [this]
      match kids.get? x with
      | Option.none => simp [tyAt, nameAt]
      | some k =>
        have h2 := ih f k i r
        simp only [Option.map_some', Option.some_bind]
        simp only [tyAt, nameAt] at h2
        exact h2

theorem getAt_cons (n : String) (ty : NT) (kids : List CObj) (i : Nat) (s : Pos) :
    getAt (CObj.node n ty kids) (i :: s) = (kids.get? i).bind (fun k => getAt k s) := by
  simp [getAt]

theorem exists_node_of_tyAt {t : CObj} {p : Pos} {u : NT} (h : tyAt t p = some u) :
    ∃ n kids, getAt t p = some (CObj.node n u kids) := by
  unfold tyAt at h
  match hg : getAt t p with
  | Option.none => rw [hg] at h; simp at h
  | some (CObj.attr n v) => rw [hg] at h; simp at h
  | some (CObj.node n ty kids) =>
    rw [hg] at h
    simp at h
    subst h
    exact ⟨n, kids, rfl⟩

/-- The function `setTy` applies at the target. -/
theorem setTy_fun (t : CObj) (p : Pos) (v : NT) :
    setTy t p v = updAt (fun x => match x with
      | CObj.node n _ kids => CObj.node n v kids
      | a => a) t p := rfl

theorem tyAt_setTy_self {t : CObj} {p : Pos} {u : NT} (v : NT)
    (h : tyAt t p = some u) : tyAt (setTy t p v) p = some v := by
  obtain ⟨n, kids, hg⟩ := exists_node_of_tyAt h
  rw [setTy_fun] at *
  unfold tyAt
  rw [getAt_updAt_self, hg]
  simp

theorem nameAt_setTy (t : CObj) (p : Pos) (v : NT) :
    nameAt (setTy t p v) p = nameAt t p := by
  rw [setTy_fun]
  unfold nameAt
  rw [getAt_updAt_self]
  match getAt t p with
  | Option.none => simp
  | some (CObj.attr n w) => simp
  | some (CObj.node n ty kids) => simp

/-- Every position decomposes against another: equal, branching at a common
prefix, or one a strict extension of the other. -/
theorem pos_rel (p : Pos) : ∀ (q : Pos),
    p = q
    ∨ (∃ c i j r s, i ≠ j ∧ p = c ++ i :: r ∧ q = c ++ j :: s)
    ∨ (∃ i r, p = q ++ i :: r)
    ∨ (∃ i s, q = p ++ i :: s) := by
  induction p with
  | nil =>
    intro q
    match q with
    | [] => exact Or.inl rfl
    | x :: q2 => exact Or.inr (Or.inr (Or.inr ⟨x, q2, rfl⟩))
  | cons a p ih =>
    intro q
    match q with
    | [] => exact Or.inr (Or.inr (Or.inl ⟨a, p, rfl⟩))
    | b :: q2 =>
      by_cases hab : a = b
      · subst hab
        rcases ih q2 with h | ⟨c, i, j, r, s, hij, hp, hq⟩ | ⟨i, r, hp⟩ | ⟨i, s, hq⟩
        · exact Or.inl (by rw [h])
        · exact Or.inr (Or.inl ⟨a :: c, i, j, r, s, hij, by simp [hp], by simp [hq]⟩)
        · exact Or.inr (Or.inr (Or.inl ⟨i, r, by simp [hp]⟩))
        · exact Or.inr (Or.inr (Or.inr ⟨i, s, by simp [hq]⟩))
      · exact Or.inr (Or.inl ⟨[], a, b, p, q2, hab, rfl, rfl⟩)

/-- `setTy` changes the node type at exactly its target position. -/
theorem tyAt_setTy_ne {t : CObj} {p q : Pos} (v : NT) (h : q ≠ p) :
    tyAt (setTy t p v) q = tyAt t q := by
  rcases pos_rel p q with he | ⟨c, i, j, r, s, hij, hp, hq⟩ | ⟨i, r, hp⟩ | ⟨i, s, hq⟩
  · exact absurd he.symm h
  · subst hp; subst hq
    rw [setTy_fun]
    unfold tyAt
    rw [getAt_updAt_disjoint c _ t i j r s hij]
  · subst hp
    rw [setTy_fun]
    exact (tyAt_updAt_strict_below q _ t i r).1
  · subst hq
    rw [setTy_fun]
    unfold tyAt
    rw [getAt_append, getAt_append, getAt_updAt_self]
    match getAt t p with
    | Option.none => simp
    | some (CObj.attr n w) => simp
    | some (CObj.node n ty kids) => simp [getAt_cons]

theorem anyCongrB {α : Type} {l : List α} {f g : α → Bool}
    (h : ∀ a ∈ l, f a = g a) : l.any f = l.any g := by
  induction l with
  | nil => simp
  | cons a l ih =>
    simp only [List.any_cons]
    rw [h a (by simp), ih (fun b hb => h b (by simp [hb]))]

theorem ancChain_mem (p q : Pos) (hq : q ∈ ancChain p) : ∃ i r, p = q ++ i :: r := by
  unfold ancChain at hq
  rw [List.mem_map] at hq
  obtain ⟨i, hi, htake⟩ := hq
  rw [List.mem_reverse, List.mem_range] at hi
  subst htake
  match hd : p.drop i with
  | [] =>
    rw [List.drop_eq_nil_iff] at hd
    omega
  | j :: r =>
    refine ⟨j, r, ?_⟩
    conv_lhs => rw [← List.take_append_drop i p]
    rw [hd]

theorem hasCNanc_setTy (t : CObj) (p : Pos) (v : NT) :
    hasCNanc (setTy t p v) p = hasCNanc t p := by
  unfold hasCNanc
  apply anyCongrB
  intro q hq
  obtain ⟨i, r, hdec⟩ := ancChain_mem p q hq
  subst hdec
  have hty := (tyAt_updAt_strict_below q (fun x => match x with
    | CObj.node n _ kids => CObj.node n v kids
    | a => a) t i r).1
  simp only [setTy, hty]

/-! ## Unfolding lemmas for `set_node_type` -/

/-- A type transition whose ContentNode-ancestor check fails raises, with the
target's type already changed and nothing else touched. -/
theorem snt_trans_err {t : CObj} {p : Pos} {cur v : NT} (f : Nat)
    (hty : tyAt t p = some cur) (hne : ¬ cur = v)
    (hchk : parentChk cur v = true) (hanc : hasCNanc (setTy t p v) p = false) :
    set_node_type (f + 1) t p v
      = SRes.err (cnErrMsg (nameAt (setTy t p v) p)) (setTy t p v) := by
  rw [set_node_type]
  rw [hty]
  simp [hne, hchk, hanc]

/-! ## C10 -/

/-- C10: for a node of type CN or AN with no ContentNode ancestor, demoting it
to C raises the structural-consistency error only after the node's own
`node_type` has already been set to C, and the change is not rolled back: the
state at raise time has the target at C while every other node (children and
ancestors included) keeps its previous type. -/
theorem C10_failed_demotion_keeps_partial_state (t : CObj) (p : Pos) (cur : NT)
    (f : Nat) (hty : tyAt t p = some cur) (hcn : cur = NT.CN ∨ cur = NT.AN)
    (hanc : hasCNanc t p = false) :
    set_node_type (f + 1) t p NT.C
      = SRes.err (cnErrMsg (nameAt t p)) (setTy t p NT.C)
    ∧ tyAt (setTy t p NT.C) p = some NT.C
    ∧ ∀ q, q ≠ p → tyAt (setTy t p NT.C) q = tyAt t q := by
  refine ⟨?_, tyAt_setTy_self NT.C hty, fun q hqp => tyAt_setTy_ne NT.C hqp⟩
  have hne : ¬ cur = NT.C := by rcases hcn with h | h <;> subst h <;> simp
  have hchk : parentChk cur NT.C = true := by rcases hcn with h | h <;> subst h <;> rfl
  have hanc2 : hasCNanc (setTy t p NT.C) p = false := by
    rw [hasCNanc_setTy]; exact hanc
  rw [snt_trans_err f hty hne hchk hanc2, nameAt_setTy]

def c10t : CObj :=
  CObj.node "r" NT.AN [CObj.node "p" NT.CN [CObj.node "c" NT.C []]]

theorem C10_witness :
    set_node_type 9 c10t [0] NT.C
      = SRes.err (cnErrMsg (nameAt c10t [0])) (setTy c10t [0] NT.C)
    ∧ tyAt (setTy c10t [0] NT.C) [0] = some NT.C
    ∧ ∀ q, q ≠ [0] → tyAt (setTy c10t [0] NT.C) q = tyAt c10t q :=
  C10_failed_demotion_keeps_partial_state c10t [0] NT.CN 8 (by rfl)
    (Or.inl rfl) (by rfl)

/-! ## C9 -/

/-- The tree of the end-to-end search scenario:
`{"i": 2, "n": {"b": 5, "n2": {}}}` mounted under child `t1` of the root. -/
def c9tree : CObj :=
  CObj.node "root" NT.C
    [CObj.node "t1" NT.C
      [CObj.attr "i" (PyVal.scalar (Scalar.i 2)),
       CObj.node "n" NT.C
         [CObj.attr "b" (PyVal.scalar (Scalar.i 5)),
          CObj.node "n2" NT.C []]]]

/-- C9: `search("/", None, v == 5, depth=2, recursive=True)` over
`{"i":2,"n":{"b":5,"n2":{}}}` mounted at `/t1` returns, as a set, exactly
`{"/t1/n", "/t1"}` with no duplicates (the source returns `list` of a Python
`set`, whose iteration order is unspecified; the embedding fixes
first-occurrence order, and the statement only constrains the result up to
permutation). -/
theorem C9_search_scenario :
    ∃ l, search c9tree "/" Option.none
        (fun v => v == PyVal.scalar (Scalar.i 5)) 2 true = some l
      ∧ l.Perm ["/t1/n", "/t1"] ∧ l.Nodup := by
  refine ⟨["/t1/n", "/t1"], ?_, List.Perm.refl _, by decide⟩
  rfl

/-! ## C5 -/

def c5tree : CObj := CObj.node "root" NT.C [CObj.attr "a" (PyVal.scalar (Scalar.i 1))]

/-- C5 counterexample: the claim says a path whose earlier segment resolves
to a leaf Attribute (so later segments cannot be walked) makes `get` and
`_get_obj` return `None`; but `ConfigAttribute._get_obj(path)` is
`return self`, so `/a/b` on a tree whose `a` is an attribute returns the
attribute and its value, not `None`. -/
theorem C5_counterexample :
    get c5tree (some "/a/b") = some (Plain.val (PyVal.scalar (Scalar.i 1)))
    ∧ get_obj c5tree (splitPath "/a/b")
        = some (CObj.attr "a" (PyVal.scalar (Scalar.i 1))) := by
  constructor <;> rfl

/-- `ConfigAttribute._get_obj(path)` is `return self`, whatever the path. -/
theorem get_obj_attr (n : String) (v : PyVal) (ys : List String) :
    get_obj (CObj.attr n v) ys = some (CObj.attr n v) := by
  cases ys <;> rfl

/-- C5 (amended): path resolution walks segments through node children and
returns `None` exactly on a missing name at a node level; a segment that
resolves to a leaf Attribute returns that attribute with all remaining
segments ignored; an empty or omitted path returns the object itself; `get`
is `_get_obj` followed by `_to_dict`.  The first conjunct is the
decomposition law making "walking one segment at a time" precise. -/
theorem C5_amended_path_resolution :
    (∀ (t : CObj) (xs ys : List String),
      get_obj t (xs ++ ys) = (get_obj t xs).bind (fun u => get_obj u ys))
    ∧ (∀ (n : String) (v : PyVal) (ys : List String),
      get_obj (CObj.attr n v) ys = some (CObj.attr n v))
    ∧ (∀ (n : String) (ty : NT) (kids : List CObj) (s : String) (rest : List String),
      lookupKid kids s = Option.none →
      get_obj (CObj.node n ty kids) (s :: rest) = Option.none)
    ∧ (∀ t : CObj, get_obj t [] = some t)
    ∧ (∀ (t : CObj) (path : Option String),
      get t path = (get_obj t (pathSegs path)).map to_dict) := by
  refine ⟨?_, get_obj_attr, ?_, fun t => rfl, fun t path => rfl⟩
  · intro t xs ys
    induction xs generalizing t with
    | nil => simp [get_obj]
    | cons x xs ih =>
      match t with
      | CObj.attr n v => simp [get_obj, get_obj_attr]
      | CObj.node n ty kids =>
        simp only [List.cons_append, get_obj]
        match lookupKid kids x with
        | Option.none => simp
        | some k => simp [ih k]
  · intro n ty kids s rest hmiss
    simp [get_obj, hmiss]

theorem C5_amended_witness :
    get_obj (CObj.node "r" NT.C []) ["zz"] = Option.none
    ∧ get_obj c5tree (["a"] ++ ["b"])
        = (get_obj c5tree ["a"]).bind (fun u => get_obj u ["b"]) :=
  ⟨C5_amended_path_resolution.2.2.1 "r" NT.C [] "zz" [] rfl,
   C5_amended_path_resolution.1 c5tree ["a"] ["b"]⟩

/-! ## C2 -/

def c2tree : CObj := CObj.node "root" NT.C [CObj.attr "a" (PyVal.listRef 0)]

def c2store : Store := fun _ => [Scalar.i 5]

/-- C2 counterexample: `get` is *not* a deep, independent copy.
`ConfigAttribute._to_dict` returns `self.value` by reference, so the
structure returned by `get("/a")` holds the very list object (`listRef 0`)
stored in the tree; mutating that returned list in place (a store update at
its id) changes what a subsequent `get("/a")` returns. -/
theorem C2_counterexample :
    get c2tree (some "/a") = some (Plain.val (PyVal.listRef 0))
    ∧ 0 ∈ treeRefs c2tree
    ∧ observeGet c2tree c2store (some "/a") = some (RVal.list [Scalar.i 5])
    ∧ observeGet c2tree (updStore c2store 0 [Scalar.i 6]) (some "/a")
        = some (RVal.list [Scalar.i 6])
    ∧ RVal.list [Scalar.i 5] ≠ RVal.list [Scalar.i 6] := by
  refine ⟨rfl, by simp [treeRefs, treeRefsL, c2tree], rfl, rfl, by simp⟩

theorem lookupKid_mem {kids : List CObj} {s : String} {k : CObj}
    (h : lookupKid kids s = some k) : k ∈ kids := by
  induction kids with
  | nil => simp [lookupKid] at h
  | cons a ks ih =>
    rw [lookupKid] at h
    by_cases ha : objName a = s
    · simp [ha] at h
      simp [h]
    · simp [ha] at h
      simp [ih h]

theorem treeRefs_mem_subset {k : CObj} : ∀ {kids : List CObj}, k ∈ kids →
    ∀ x ∈ treeRefs k, x ∈ treeRefsL kids := by
  intro kids
  induction kids with
  | nil => simp
  | cons a ks ih =>
    intro hk x hx
    rcases List.mem_cons.1 hk with he | hm
    · subst he
      simp [treeRefsL, hx]
    · simp [treeRefsL]
      exact Or.inr (ih hm x hx)

/-- The object `_get_obj` returns is a subtree: its list references are among
the tree's. -/
theorem get_obj_refs (segs : List String) : ∀ (t u : CObj),
    get_obj t segs = some u → ∀ x ∈ treeRefs u, x ∈ treeRefs t := by
  induction segs with
  | nil =>
    intro t u h
    rw [get_obj] at h
    cases h
    intro x hx
    exact hx
  | cons s rest ih =>
    intro t u h x hx
    match t with
    | CObj.attr n v =>
      rw [get_obj_attr] at h
      cases h
      exact hx
    | CObj.node n ty kids =>
      rw [get_obj] at h
      match hk : lookupKid kids s with
      | Option.none => rw [hk] at h; simp at h
      | some k =>
        rw [hk] at h
        simp at h
        exact treeRefs_mem_subset (lookupKid_mem hk) x (ih k u h x hx)

mutual

theorem plainRefs_to_dict (u : CObj) :
    ∀ x ∈ plainRefs (to_dict u), x ∈ treeRefs u := by
  match u with
  | CObj.attr n v =>
    intro x hx
    match v with
    | PyVal.scalar w => simp [to_dict, plainRefs] at hx
    | PyVal.listRef r =>
      simp [to_dict, plainRefs] at hx
      simp [treeRefs, hx]
  | CObj.node n ty kids =>
    intro x hx
    rw [to_dict] at hx
    rw [plainRefs] at hx
    exact plainRefs_to_dictKids kids x hx

theorem plainRefs_to_dictKids (ks : List CObj) :
    ∀ x ∈ plainRefsE (to_dictKids ks), x ∈ treeRefsL ks := by
  match ks with
  | [] =>
    intro x hx
    simp [to_dictKids, plainRefsE] at hx
  | k :: rest =>
    intro x hx
    rw [to_dictKids, plainRefsE] at hx
    rw [treeRefsL]
    rcases List.mem_append.1 hx with h1 | h2
    · exact List.mem_append.2 (Or.inl (plainRefs_to_dict k x h1))
    · exact List.mem_append.2 (Or.inr (plainRefs_to_dictKids rest x h2))

end

mutual

theorem resolveP_upd (σ : Store) (r : Nat) (vs : List Scalar) (pl : Plain)
    (h : r ∉ plainRefs pl) : resolveP (updStore σ r vs) pl = resolveP σ pl := by
  match pl with
  | Plain.val (PyVal.scalar w) => rfl
  | Plain.val (PyVal.listRef x) =>
    rw [resolveP, resolveP]
    simp [plainRefs] at h
    simp [updStore, Ne.symm h]
  | Plain.dict m =>
    rw [resolveP, resolveP]
    rw [plainRefs] at h
    rw [resolveE_upd σ r vs m h]

theorem resolveE_upd (σ : Store) (r : Nat) (vs : List Scalar)
    (m : List (String × Plain)) (h : r ∉ plainRefsE m) :
    resolveE (updStore σ r vs) m = resolveE σ m := by
  match m with
  | [] => rfl
  | (k, v) :: rest =>
    rw [resolveE, resolveE]
    rw [plainRefsE] at h
    simp only [List.mem_append] at h
    push_neg at h
    rw [resolveP_upd σ r vs v h.1, resolveE_upd σ r vs rest h.2]

end

/-- C2 (amended): the mapping levels `get` returns are freshly built
`OrderedDict`s, but leaf values are shared by reference; in-place mutation of
a list value reachable from the tree is visible to later `get` calls
(`C2_counterexample`), while mutating any list *not* held by the tree - in
particular any fresh copy - never changes what `get` returns. -/
theorem C2_amended_store_frame (t : CObj) (σ : Store) (r : Nat)
    (vs : List Scalar) (path : Option String) (h : r ∉ treeRefs t) :
    observeGet t (updStore σ r vs) path = observeGet t σ path := by
  unfold observeGet get
  match hg : get_obj t (pathSegs path) with
  | Option.none => simp
  | some u =>
    simp only [Option.map_some']
    rw [resolveP_upd]
    intro hmem
    exact h (get_obj_refs (pathSegs path) t u hg r (plainRefs_to_dict u r hmem))

theorem C2_amended_witness :
    observeGet c2tree (updStore c2store 1 [Scalar.i 7]) (some "/a")
      = observeGet c2tree c2store (some "/a") :=
  C2_amended_store_frame c2tree c2store 1 [Scalar.i 7] (some "/a")
    (by simp [treeRefs, treeRefsL, c2tree])

/-! ## C8 -/

theorem add_dict_name (entries : List (String × Plain)) :
    ∀ (n : String) (ty : NT) (ks : List CObj),
    objName (add_dict (CObj.node n ty ks) entries) = n := by
  induction entries with
  | nil => intro n ty ks; rw [add_dict]; rfl
  | cons e rest ih =>
    intro n ty ks
    match e with
    | (k, v) =>
      rw [add_dict]
      exact ih n ty _

theorem matEntry_name (k : String) (v : Plain) : objName (matEntry k v) = k := by
  match v with
  | Plain.val w => rw [matEntry]; rfl
  | Plain.dict m =>
    rw [matEntry]
    exact add_dict_name m k NT.C []

theorem dictSet_fresh {ks : List CObj} {x : CObj}
    (h : objName x ∉ childNames ks) : dictSet ks x = ks ++ [x] := by
  induction ks with
  | nil => rfl
  | cons a rest ih =>
    rw [dictSet]
    simp only [childNames, List.map_cons, List.mem_cons] at h
    push_neg at h
    rw [if_neg (fun he => h.1 he.symm), ih (by simp only [childNames]; exact h.2)]
    rfl

theorem to_dictKids_append (a b : List CObj) :
    to_dictKids (a ++ b) = to_dictKids a ++ to_dictKids b := by
  induction a with
  | nil => rfl
  | cons k rest ih => simp [to_dictKids, ih]

theorem childNames_append (a b : List CObj) :
    childNames (a ++ b) = childNames a ++ childNames b := by
  simp [childNames]

mutual

/-- Building from a well-formed mapping whose keys are fresh appends the
materialized children in order; `_to_dict` then reads the mapping back. -/
theorem add_dict_to_dict (entries : List (String × Plain)) :
    ∀ (n : String) (ty : NT) (ks : List CObj),
    wfEntries entries = true →
    (∀ e ∈ entries, e.1 ∉ childNames ks) →
    to_dict (add_dict (CObj.node n ty ks) entries)
      = Plain.dict (to_dictKids ks ++ entries) := by
  match entries with
  | [] =>
    intro n ty ks hwf hdis
    simp [add_dict, to_dict]
  | (k, v) :: rest =>
    intro n ty ks hwf hdis
    rw [add_dict]
    rw [wfEntries] at hwf
    simp only [Bool.and_eq_true] at hwf
    have hkfresh : objName (matEntry k v) ∉ childNames ks := by
      rw [matEntry_name]
      exact hdis (k, v) (by simp)
    rw [dictSet_fresh hkfresh]
    have hdis2 : ∀ e ∈ rest, e.1 ∉ childNames (ks ++ [matEntry k v]) := by
      intro e he
      rw [childNames_append]
      simp only [List.mem_append]
      push_neg
      refine ⟨hdis e (by simp [he]), ?_⟩
      simp [childNames, matEntry_name]
      intro heq
      have := hwf.1.1
      rw [Bool.not_eq_true'] at this
      have h2 : rest.any (fun e2 => e2.1 = k) = true :=
        List.any_eq_true.2 ⟨e, he, by simp [heq]⟩
      rw [this] at h2
      exact Bool.noConfusion h2
    rw [add_dict_to_dict rest n ty (ks ++ [matEntry k v]) hwf.2 hdis2,
      to_dictKids_append]
    simp [to_dictKids, matEntry_name, to_dict_matEntry k v hwf.1.2]
termination_by (sizeOf entries, 1)

theorem to_dict_matEntry (k : String) (v : Plain) (h : wfPlain v = true) :
    to_dict (matEntry k v) = v := by
  match v with
  | Plain.val w => rw [matEntry]; rfl
  | Plain.dict m =>
    rw [matEntry]
    rw [wfPlain] at h
    rw [add_dict_to_dict m k NT.C [] h (by simp [childNames])]
    rfl
termination_by (sizeOf v, 2)

end

/-- C8: for every well-formed nested mapping `M` (string keys unique at each
level; values scalars, lists, or nested mappings), building
`ConfigNode("root", attributes=M)` and calling `get()` with no path returns a
mapping structurally equal to `M`.  (The constructor's trailing
`set_node_type` force call changes nothing on this all-C tree; see
`set_node_type_allC_noop`.) -/
theorem C8_roundtrip (entries : List (String × Plain))
    (h : wfEntries entries = true) :
    get (node_from_dict "root" entries) Option.none = some (Plain.dict entries) := by
  unfold get node_from_dict pathSegs
  rw [get_obj]
  simp only [Option.map_some']
  rw [add_dict_to_dict entries "root" NT.C [] h (by simp [childNames])]
  rfl

theorem C8_witness :
    get (node_from_dict "root"
        [("a", Plain.val (PyVal.scalar (Scalar.i 1))),
         ("n", Plain.dict [("b", Plain.val (PyVal.scalar (Scalar.s "x")))])])
        Option.none
      = some (Plain.dict
        [("a", Plain.val (PyVal.scalar (Scalar.i 1))),
         ("n", Plain.dict [("b", Plain.val (PyVal.scalar (Scalar.s "x")))])]) :=
  C8_roundtrip _ (by rfl)

/-! ## C3 -/

/-- C3 counterexample: the claim says a mandatory node template with zero
declared children raises `Template for node X has no attributes` *for every
input*; but that check sits in the `elif` chain of
`TemplateNodeBase.validate`, which is skipped when the actual node is absent:
a missing mandatory node is synthesized and validation then fails later with
the different `Mandatory node /X is missing, with no defaults set` error. -/
theorem C3_counterexample :
    tnf_validate 5 "X" false Option.none [] Option.none
      = Except.error (PyErr.ve "Mandatory node /X is missing, with no defaults set")
    ∧ PyErr.ve "Mandatory node /X is missing, with no defaults set"
        ≠ PyErr.ve "Template for node X has no attributes" := by
  exact ⟨rfl, by simp⟩

/-- C3 (amended): a mandatory `TemplateNodeFixed` with zero declared child
templates raises `Template for node X has no attributes` exactly when the
actual object is present and is a `ConfigNode`; when the actual node is
absent it raises `Mandatory node <path> is missing, with no defaults set`
instead, and when the actual object is an Attribute it raises the
`is not a ConfigNode` structural error. -/
theorem C3_amended_zero_child_template (f : Nat) (name : String) :
    (∀ (vld : Option (Plain → CbRes)) (n2 : String) (ty : NT) (ks : List CObj)
      (path : String),
      tnf_validate (f + 1) name false vld [] (some (CObj.node n2 ty ks, path))
        = Except.error (PyErr.ve ("Template for node " ++ name ++ " has no attributes")))
    ∧ tnf_validate (f + 1) name false Option.none [] Option.none
        = Except.error (PyErr.ve
            ("Mandatory node " ++ parentlessNodePath name ++ " is missing, with no defaults set"))
    ∧ (∀ (vld : Option (Plain → CbRes)) (an : String) (av : PyVal) (path : String),
      tnf_validate (f + 1) name false vld [] (some (CObj.attr an av, path))
        = Except.error (PyErr.ve
            ("Configuration object passed for validation to template " ++ name
              ++ " is not a ConfigNode"))) := by
  refine ⟨?_, ?_, ?_⟩
  · intro vld n2 ty ks path
    rw [tnf_validate]
    simp [tnb_validate, Bind.bind, Except.bind]
  · rw [tnf_validate]
    simp [tnb_validate, tnfLoop, Bind.bind, Except.bind, pure, Except.pure]
  · intro vld an av path
    rw [tnf_validate]
    simp [tnb_validate, Bind.bind, Except.bind]

theorem C3_amended_witness :
    tnf_validate 4 "X" false Option.none []
        (some (CObj.node "X" NT.C [CObj.attr "a" (PyVal.scalar (Scalar.i 1))], "/X"))
      = Except.error (PyErr.ve ("Template for node " ++ "X" ++ " has no attributes")) :=
  (C3_amended_zero_child_template 3 "X").1 Option.none "X" NT.C
    [CObj.attr "a" (PyVal.scalar (Scalar.i 1))] "/X"

/-! ## C6 -/

/-- C6 counterexample, two parts.
First: a validator callback that raises a non-`ValueError` exception is not
caught by `except ValueError`; the exception propagates unchanged, so
validation fails with an error that is not the library's message and carries
neither the attribute's path nor its value (here: a bare `KeyError: boom`).
Second: when the callback raises a `ValueError`, the text appended to the
message is `sys.exc_info()[0]` - the class repr - not the exception's text:
two callbacks raising `ValueError`s with different texts yield the *same*
error message. -/
theorem C6_counterexample :
    ta_validate true PType.str
        (some (fun _ => CbRes.raiseOther "KeyError" "boom"))
        (PyVal.scalar (Scalar.s "debug")) "/general/log_level"
      = Except.error (PyErr.other "KeyError" "boom")
    ∧ (∀ msg, PyErr.other "KeyError" "boom" ≠ PyErr.ve msg)
    ∧ ta_validate true PType.str (some (fun _ => CbRes.raiseVE "first reason"))
        (PyVal.scalar (Scalar.s "debug")) "/general/log_level"
      = ta_validate true PType.str (some (fun _ => CbRes.raiseVE "second reason"))
        (PyVal.scalar (Scalar.s "debug")) "/general/log_level" := by
  exact ⟨rfl, fun msg => by simp, rfl⟩

/-- C6 (amended): for an attribute template with a validator callback, when
the attribute is mandatory or its value is non-null (and the value already
has the declared runtime type, so no coercion runs):
* a falsy return fails with `Parameter <path> failed validation for value
  <value>`;
* a raised `ValueError` fails with that message plus `: ` and the exception
  *class repr* (not the exception's text);
* any other exception class propagates unchanged (no path, no value). -/
theorem C6_amended_validator_failures (optional : Bool) (vt : PType)
    (cb : PyVal → CbRes) (v : PyVal) (path : String)
    (hinst : isInst v vt = true)
    (hrun : optional = false ∨ isNone v = false) :
    (cb v = CbRes.ret false →
      ta_validate optional vt (some cb) v path
        = Except.error (PyErr.ve
            ("Parameter " ++ path ++ " failed validation for value " ++ pyStr v)))
    ∧ (∀ txt, cb v = CbRes.raiseVE txt →
      ta_validate optional vt (some cb) v path
        = Except.error (PyErr.ve
            ("Parameter " ++ path ++ " failed validation for value " ++ pyStr v
              ++ ": " ++ veClassRepr)))
    ∧ (∀ nm txt, cb v = CbRes.raiseOther nm txt →
      ta_validate optional vt (some cb) v path
        = Except.error (PyErr.other nm txt)) := by
  have hco : ¬ (¬ isNone v ∧ ¬ isInst v vt) := by
    intro h
    exact h.2 (by simp [hinst])
  have hgo : (¬ optional = true ∨ ¬ isNone v = true) := by
    rcases hrun with h | h
    · exact Or.inl (by simp [h])
    · exact Or.inr (by simp [h])
  refine ⟨?_, ?_, ?_⟩
  · intro hcb
    unfold ta_validate
    rcases hrun with h | h <;> simp [hinst, h, hcb, Bind.bind, Except.bind, pure, Except.pure]
  · intro txt hcb
    unfold ta_validate
    rcases hrun with h | h <;> simp [hinst, h, hcb, Bind.bind, Except.bind, pure, Except.pure]
  · intro nm txt hcb
    unfold ta_validate
    rcases hrun with h | h <;> simp [hinst, h, hcb, Bind.bind, Except.bind, pure, Except.pure]

/-- The claim's concrete instance, via the amended theorem: a validator
rejecting the value `debug` at `/general/log_level` yields exactly
`Parameter /general/log_level failed validation for value debug`. -/
theorem C6_amended_witness :
    ta_validate true PType.str (some (fun _ => CbRes.ret false))
        (PyVal.scalar (Scalar.s "debug")) "/general/log_level"
      = Except.error (PyErr.ve
          "Parameter /general/log_level failed validation for value debug") := by
  have h := (C6_amended_validator_failures true PType.str
    (fun _ => CbRes.ret false) (PyVal.scalar (Scalar.s "debug"))
    "/general/log_level" rfl (Or.inr rfl)).1 rfl
  exact h

/-! ## C7 -/

/-- The node-set scenario: names `["a","b"]`, a mandatory element template
whose only attribute template has default `"d"`. -/
def c7elem : Tmpl :=
  Tmpl.nodeFixed "spec" false Option.none
    [Tmpl.attrFixed "x" true PType.str Option.none (PyVal.scalar (Scalar.s "d"))]

def c7parent : CObj :=
  CObj.node "p" NT.C [CObj.node "a" NT.C [CObj.attr "x" (PyVal.scalar (Scalar.s "v"))]]

/-- C7: validating a parent that already contains child `a` but not `b`
against the node set succeeds (no error) and returns the parent with a new
child node `b` whose attributes are populated entirely from the element
template's defaults (here `x = "d"`), while `a` keeps its own value. -/
theorem C7_nodeset_synthesizes_mandatory_member :
    tns_validate 20 "specset" c7elem ["a", "b"] (some (c7parent, "/p"))
      = Except.ok (some (CObj.node "p" NT.C
          [CObj.node "a" NT.C [CObj.attr "x" (PyVal.scalar (Scalar.s "v"))],
           CObj.node "b" NT.C [CObj.attr "x" (PyVal.scalar (Scalar.s "d"))]],
          "/p")) := rfl

/-! ## C4 -/

/-- A heap with a target node `n` (id 0, depth 1), a parentless attribute `a`
(id 1), and a node `m` (id 2) carrying a stale depth 5 with child `d`
(id 3, depth 6). -/
def c4heap : HState :=
  ⟨[(0, ⟨true, "n", NT.C, PyVal.scalar Scalar.none, Option.none, 1, []⟩),
    (1, ⟨false, "a", NT.C, PyVal.scalar (Scalar.i 7), Option.none, 0, []⟩),
    (2, ⟨true, "m", NT.C, PyVal.scalar Scalar.none, Option.none, 5, [3]⟩),
    (3, ⟨true, "d", NT.C, PyVal.scalar Scalar.none, some 2, 6, []⟩)], 4⟩

/-- C4 (code bug): `ConfigNode.add` fails to re-parent children passed in a
bare list of `ConfigObject`s.  After `n.add([a])` the attribute is inserted
under `n` but its `parent` is still `None`; after `n.add([m])` the node keeps
its stale parent and depth (5, not `n.depth + 1 = 2`) and so does its
descendant.  The single-object branch of the very same method re-parents and
recomputes depths (`_set_parent`), and the mapping branch constructs children
with `parent=self` - the list branch alone omits the `_set_parent` call. -/
theorem C4_list_add_skips_reparenting :
    (hGet (hAdd 10 c4heap 0 (AddArg.listArg [LElem.obj 1])) 0).map HObj.kids
        = some [1]
    ∧ (hGet (hAdd 10 c4heap 0 (AddArg.listArg [LElem.obj 1])) 1).map HObj.parent
        = some Option.none
    ∧ (hGet (hAdd 10 c4heap 0 (AddArg.listArg [LElem.obj 2])) 2).map HObj.parent
        = some Option.none
    ∧ (hGet (hAdd 10 c4heap 0 (AddArg.listArg [LElem.obj 2])) 2).map HObj.depth
        = some 5
    ∧ (hGet (hAdd 10 c4heap 0 (AddArg.single 2)) 2).map HObj.parent
        = some (some 0)
    ∧ (hGet (hAdd 10 c4heap 0 (AddArg.single 2)) 2).map HObj.depth = some 2
    ∧ (hGet (hAdd 10 c4heap 0 (AddArg.single 2)) 3).map HObj.parent
        = some (some 2)
    ∧ (hGet (hAdd 10 c4heap 0 (AddArg.single 2)) 3).map HObj.depth = some 3
    ∧ (hGet (hAdd 10 c4heap 0
          (AddArg.dictArg [("x", TVal.leaf (PyVal.scalar (Scalar.i 1)))])) 4).map
        HObj.parent = some (some 0) := by
  refine ⟨rfl, rfl, rfl, rfl, rfl, rfl, rfl, rfl, rfl⟩

/-! ## C1: position and update utilities -/

theorem getAt_child {t : CObj} {p : Pos} {n : String} {ty : NT} {kids : List CObj}
    (h : getAt t p = some (CObj.node n ty kids)) (j : Nat) :
    getAt t (p ++ [j]) = kids.get? j := by
  rw [getAt_append, h]
  simp only [Option.some_bind, getAt]
  cases hk : kids.get? j with
  | none => rfl
  | some k => rfl

theorem getAt_parent {t : CObj} {q : Pos} {i : Nat} {k : CObj}
    (h : getAt t (q ++ [i]) = some k) :
    ∃ n ty kids, getAt t q = some (CObj.node n ty kids) ∧ kids.get? i = some k := by
  rw [getAt_append] at h
  match hq : getAt t q with
  | Option.none => rw [hq] at h; simp at h
  | some (CObj.attr n v) => rw [hq] at h; simp [getAt] at h
  | some (CObj.node n ty kids) =>
    rw [hq] at h
    simp only [Option.some_bind, getAt] at h
    match hk : kids.get? i with
    | Option.none => rw [hk] at h; simp at h
    | some k2 =>
      rw [hk] at h
      simp [getAt] at h
      exact ⟨n, ty, kids, rfl, by rw [hk, h]⟩

theorem get?_updKids_self (F : CObj → CObj) : ∀ (ks : List CObj) (i : Nat) (s : Pos),
    (updKids F ks i s).get? i = (ks.get? i).map (fun k => updAt F k s) := by
  intro ks
  induction ks with
  | nil => intro i s; simp [updKids]
  | cons k ks ih =>
    intro i s
    match i with
    | 0 => simp [updKids]
    | j + 1 => simpa [updKids] using ih j s

theorem get?_updKids_ne (F : CObj → CObj) : ∀ (ks : List CObj) (i j : Nat) (s : Pos),
    i ≠ j → (updKids F ks i s).get? j = ks.get? j := by
  intro ks
  induction ks with
  | nil => intro i j s _; simp [updKids]
  | cons k ks ih =>
    intro i j s hij
    match i, j with
    | 0, 0 => exact absurd rfl hij
    | 0, jj + 1 => simp [updKids]
    | ii + 1, 0 => simp [updKids]
    | ii + 1, jj + 1 =>
      simp only [updKids, List.get?_cons_succ]
      exact ih ii jj s (by omega)

theorem updKids_append_len (F : CObj → CObj) :
    ∀ (as : List CObj) (b : CObj) (bs : List CObj) (s : Pos),
    updKids F (as ++ b :: bs) as.length s = as ++ updAt F b s :: bs := by
  intro as
  induction as with
  | nil => intro b bs s; simp [updKids]
  | cons a as ih => intro b bs s; simp [updKids, ih]

theorem length_updKids (F : CObj → CObj) : ∀ (ks : List CObj) (i : Nat) (s : Pos),
    (updKids F ks i s).length = ks.length := by
  intro ks
  induction ks with
  | nil => intro i s; simp [updKids]
  | cons k ks ih =>
    intro i s
    match i with
    | 0 => simp [updKids]
    | j + 1 => simp [updKids, ih j s]

theorem updAt_updAt (F G : CObj → CObj) : ∀ (q : Pos) (t : CObj),
    updAt F (updAt G t q) q = updAt (fun u => F (G u)) t q := by
  intro q
  induction q with
  | nil => intro t; simp [updAt]
  | cons i q ih =>
    intro t
    match t with
    | CObj.attr n v => simp [updAt]
    | CObj.node n ty kids =>
      simp only [updAt]
      congr 1
      induction kids generalizing i with
      | nil => simp [updKids]
      | cons k ks ihk =>
        match i with
        | 0 => simp [updKids, ih]
        | j + 1 => simp [updKids, ihk j]

theorem updAt_id : ∀ (q : Pos) (t : CObj), updAt (fun u => u) t q = t := by
  intro q
  induction q with
  | nil => intro t; simp [updAt]
  | cons i q ih =>
    intro t
    match t with
    | CObj.attr n v => simp [updAt]
    | CObj.node n ty kids =>
      simp only [updAt]
      congr 1
      induction kids generalizing i with
      | nil => simp [updKids]
      | cons k ks ihk =>
        match i with
        | 0 => simp [updKids, ih]
        | j + 1 => simp [updKids, ihk j]

theorem updKids_congr_aux {F G : CObj → CObj} {q : Pos}
    (hq : ∀ t, (∀ u, getAt t q = some u → F u = G u) → updAt F t q = updAt G t q) :
    ∀ (ks : List CObj) (i : Nat),
    (∀ u, ((ks.get? i).bind (fun k => getAt k q)) = some u → F u = G u) →
    updKids F ks i q = updKids G ks i q := by
  intro ks
  induction ks with
  | nil => intro i h; simp [updKids]
  | cons k ks ih =>
    intro i h
    match i with
    | 0 =>
      simp only [updKids]
      rw [hq k (fun u hu => h u (by simpa using hu))]
    | j + 1 =>
      simp only [updKids]
      rw [ih j (fun u hu => h u (by simpa using hu))]

theorem updAt_congr {F G : CObj → CObj} : ∀ (q : Pos) (t : CObj),
    (∀ u, getAt t q = some u → F u = G u) → updAt F t q = updAt G t q := by
  intro q
  induction q with
  | nil =>
    intro t h
    simp only [updAt]
    exact h t rfl
  | cons i q ih =>
    intro t h
    match t with
    | CObj.attr n v => simp [updAt]
    | CObj.node n ty kids =>
      simp only [updAt]
      congr 1
      exact updKids_congr_aux ih kids i (fun u hu => h u (by simpa [getAt] using hu))

theorem updAt_fix {F : CObj → CObj} {t : CObj} {q : Pos} {u : CObj}
    (hget : getAt t q = some u) (hfix : F u = u) : updAt F t q = t := by
  have h1 : updAt F t q = updAt (fun x => x) t q :=
    updAt_congr q t (fun w hw => by
      rw [hget] at hw
      cases hw
      exact hfix)
  rw [h1, updAt_id]

theorem updAt_funext {F G : CObj → CObj} (h : ∀ u, F u = G u) (t : CObj) (q : Pos) :
    updAt F t q = updAt G t q := by
  rw [funext h]

theorem ancChain_snoc (q : Pos) (i : Nat) : ancChain (q ++ [i]) = q :: ancChain q := by
  unfold ancChain
  have h1 : (q ++ [i]).length = q.length + 1 := by simp
  rw [h1, List.range_succ, List.reverse_append]
  simp only [List.reverse_singleton, List.singleton_append, List.map_cons]
  congr 1
  · exact List.take_left q [i]
  · apply List.map_congr_left
    intro j hj
    rw [List.mem_reverse, List.mem_range] at hj
    exact List.take_append_of_le_length (by omega)

theorem ancJobs_snoc (q : Pos) (i : Nat) (v : NT) :
    ancJobs (q ++ [i]) v = ⟨q, v, Cond.always⟩ :: ancJobs q v := by
  unfold ancJobs
  rw [ancChain_snoc]
  simp

theorem hasCNanc_snoc (t : CObj) (q : Pos) (i : Nat) :
    hasCNanc t (q ++ [i]) = (decide (tyAt t q = some NT.CN) || hasCNanc t q) := by
  unfold hasCNanc
  rw [ancChain_snoc]
  simp

theorem hasCNanc_congr {t t2 : CObj} (p : Pos)
    (h : ∀ q ∈ ancChain p, tyAt t2 q = tyAt t q) : hasCNanc t2 p = hasCNanc t p := by
  unfold hasCNanc
  exact anyCongrB (fun q hq => by rw [h q hq])

theorem kidJobs_congr (p : Pos) (v : NT) (c : Cond) :
    ∀ (ks ks2 : List CObj) (i : Nat), ks.length = ks2.length →
    kidJobs p v c i ks = kidJobs p v c i ks2 := by
  intro ks
  induction ks with
  | nil =>
    intro ks2 i h
    match ks2 with
    | [] => rfl
    | _ :: _ => simp at h
  | cons k ks ih =>
    intro ks2 i h
    match ks2 with
    | [] => simp at h
    | k2 :: ks3 =>
      simp only [kidJobs]
      rw [ih ks3 (i + 1) (by simpa using h)]

/-! ## C1: algebra of the shape predicates and transforms -/

theorem csize_pos (k : CObj) : 1 ≤ csize k := by
  match k with
  | CObj.attr n v => simp [csize]
  | CObj.node n ty kids => simp [csize]

theorem csize_mem {k : CObj} : ∀ {ks : List CObj}, k ∈ ks → csize k ≤ csizeL ks := by
  intro ks h
  induction ks with
  | nil => cases h
  | cons k2 ks ih =>
    rcases List.mem_cons.mp h with h1 | h1
    · subst h1; simp [csizeL]
    · calc csize k ≤ csizeL ks := ih h1
        _ ≤ csizeL (k2 :: ks) := by simp only [csizeL]; omega

theorem allC_node_inv {n : String} {ty : NT} {kids : List CObj}
    (h : allC (CObj.node n ty kids) = true) : ty = NT.C ∧ allCL kids = true := by
  match ty with
  | NT.C => exact ⟨rfl, h⟩
  | NT.CN => simp [allC] at h
  | NT.AN => simp [allC] at h

theorem allCL_mem : ∀ {ks : List CObj}, allCL ks = true → ∀ k ∈ ks, allC k = true := by
  intro ks h k hk
  induction ks with
  | nil => cases hk
  | cons k2 ks ih =>
    simp only [allCL, Bool.and_eq_true] at h
    rcases List.mem_cons.mp hk with h1 | h1
    · subst h1; exact h.1
    · exact ih h.2 h1

theorem allCL_get? {ks : List CObj} {i : Nat} {k : CObj} (h : allCL ks = true)
    (hk : ks.get? i = some k) : allC k = true :=
  allCL_mem h k (List.get?_mem hk)

theorem allC_mkAllC_aux : ∀ (m : Nat) (ks : List CObj), csizeL ks ≤ m →
    allCL (mkAllCL ks) = true := by
  intro m
  induction m with
  | zero =>
    intro ks h
    match ks with
    | [] => rfl
    | k :: ks => have := csize_pos k; simp [csizeL] at h; omega
  | succ m ih =>
    intro ks h
    match ks with
    | [] => rfl
    | k :: ks2 =>
      simp only [csizeL] at h
      have hk : allC (mkAllC k) = true := by
        match k with
        | CObj.attr n v => rfl
        | CObj.node n ty kids =>
          have h2 : csizeL kids ≤ m := by simp [csize] at h ⊢; omega
          simpa [mkAllC, allC] using ih kids h2
      have h3 : allCL (mkAllCL ks2) = true := by
        have := csize_pos k
        exact ih ks2 (by omega)
      simp [mkAllCL, allCL, hk, h3]

theorem mkAllCL_allCL (ks : List CObj) : allCL (mkAllCL ks) = true :=
  allC_mkAllC_aux (csizeL ks) ks le_rfl

theorem mkAllC_allC (k : CObj) : allC (mkAllC k) = true := by
  match k with
  | CObj.attr n v => rfl
  | CObj.node n ty kids => simpa [mkAllC, allC] using mkAllCL_allCL kids

theorem mkAllC_id_aux : ∀ (m : Nat) (ks : List CObj), csizeL ks ≤ m →
    allCL ks = true → mkAllCL ks = ks := by
  intro m
  induction m with
  | zero =>
    intro ks h _
    match ks with
    | [] => rfl
    | k :: ks => have := csize_pos k; simp [csizeL] at h; omega
  | succ m ih =>
    intro ks h hall
    match ks with
    | [] => rfl
    | k :: ks2 =>
      simp only [csizeL] at h
      simp only [allCL, Bool.and_eq_true] at hall
      have hk : mkAllC k = k := by
        match k with
        | CObj.attr n v => rfl
        | CObj.node n ty kids =>
          obtain ⟨hty, hkids⟩ := allC_node_inv hall.1
          subst hty
          have h2 : csizeL kids ≤ m := by simp [csize] at h ⊢; omega
          simp [mkAllC, ih kids h2 hkids]
      have h3 : mkAllCL ks2 = ks2 := by
        have := csize_pos k
        exact ih ks2 (by omega) hall.2
      simp [mkAllCL, hk, h3]

theorem mkAllCL_id {ks : List CObj} (h : allCL ks = true) : mkAllCL ks = ks :=
  mkAllC_id_aux (csizeL ks) ks le_rfl h

theorem mkAllC_id {k : CObj} (h : allC k = true) : mkAllC k = k := by
  match k with
  | CObj.attr n v => rfl
  | CObj.node n ty kids =>
    obtain ⟨hty, hkids⟩ := allC_node_inv h
    subst hty
    simp [mkAllC, mkAllCL_id hkids]

theorem mkAllCL_idem (ks : List CObj) : mkAllCL (mkAllCL ks) = mkAllCL ks :=
  mkAllCL_id (mkAllCL_allCL ks)

theorem casKid_promoteC (k : CObj) : casKid (promoteC k) = casKid k := by
  match k with
  | CObj.attr n v => rfl
  | CObj.node n ty kids => match ty with
    | NT.C => rfl
    | NT.CN => rfl
    | NT.AN => rfl

theorem casKid_tyFun (v : NT) (k : CObj) : casKid (tyFun v k) = casKid k := by
  match k with
  | CObj.attr n v2 => rfl
  | CObj.node n ty kids => rfl

theorem casKid_idem (k : CObj) : casKid (casKid k) = casKid k := by
  match k with
  | CObj.attr n v => rfl
  | CObj.node n ty kids => simp [casKid, mkAllCL_idem]

theorem casKid_mkAllC (k : CObj) : casKid (mkAllC k) = casKid k := by
  match k with
  | CObj.attr n v => rfl
  | CObj.node n ty kids => simp [casKid, mkAllC, mkAllCL_idem]

theorem promoteC_of_notC {k : CObj} (h : isCNode k = false) : promoteC k = k := by
  match k with
  | CObj.attr n v => rfl
  | CObj.node n ty kids => match ty with
    | NT.C => simp [isCNode] at h
    | NT.CN => rfl
    | NT.AN => rfl

theorem isCNode_promoteC (k : CObj) : isCNode (promoteC k) = false := by
  match k with
  | CObj.attr n v => rfl
  | CObj.node n ty kids => match ty with
    | NT.C => rfl
    | NT.CN => rfl
    | NT.AN => rfl

theorem isCNode_casKid (k : CObj) : isCNode (casKid k) = false := by
  match k with
  | CObj.attr n v => rfl
  | CObj.node n ty kids => rfl

theorem noCkids_cons {k : CObj} {ks : List CObj} :
    noCkids (k :: ks) = (!isCNode k && noCkids ks) := by
  simp [noCkids]

theorem map_promoteC_id : ∀ {ks : List CObj}, noCkids ks = true → ks.map promoteC = ks := by
  intro ks h
  induction ks with
  | nil => rfl
  | cons k ks ih =>
    rw [noCkids_cons] at h
    simp only [Bool.and_eq_true, Bool.not_eq_true'] at h
    simp [promoteC_of_notC h.1, ih h.2]

theorem noCkids_map_promoteC (ks : List CObj) : noCkids (ks.map promoteC) = true := by
  induction ks with
  | nil => rfl
  | cons k ks ih =>
    simp only [List.map_cons, noCkids_cons, ih, Bool.and_true]
    simp [isCNode_promoteC]

theorem noCkids_map_casKid (ks : List CObj) : noCkids (ks.map casKid) = true := by
  induction ks with
  | nil => rfl
  | cons k ks ih =>
    simp only [List.map_cons, noCkids_cons, ih, Bool.and_true]
    simp [isCNode_casKid]

theorem allC_casKid_promoteC {k : CObj} (h : allC k = true) : casKid k = promoteC k := by
  match k with
  | CObj.attr n v => rfl
  | CObj.node n ty kids =>
    obtain ⟨hty, hkids⟩ := allC_node_inv h
    subst hty
    simp [casKid, promoteC, mkAllCL_id hkids]

theorem casKid_of_postKid {k : CObj} (h : postKid k = true) : casKid k = k := by
  match k with
  | CObj.attr n v => rfl
  | CObj.node n ty kids =>
    simp only [postKid, isAttr, Bool.false_or] at h
    match ty with
    | NT.C => simp [cnDone] at h
    | NT.AN => simp [cnDone] at h
    | NT.CN => simp [casKid, mkAllCL_id h]

theorem seqKidOK_promoteC {k : CObj} (h : seqKidOK k = true) :
    seqKidOK (promoteC k) = true := by
  match k with
  | CObj.attr n v => exact h
  | CObj.node n ty kids => match ty with
    | NT.C => exact h
    | NT.CN => exact h
    | NT.AN => exact h

theorem postKid_promoteC {k : CObj} (h : postKid k = true) :
    postKid (promoteC k) = true := by
  match k with
  | CObj.attr n v => exact h
  | CObj.node n ty kids => match ty with
    | NT.C => simp [postKid, isAttr, cnDone] at h
    | NT.CN => exact h
    | NT.AN => simp [postKid, isAttr, cnDone] at h

theorem postKid_casKid (k : CObj) : postKid (casKid k) = true := by
  match k with
  | CObj.attr n v => rfl
  | CObj.node n ty kids =>
    simp [casKid, postKid, cnDone, mkAllCL_allCL]

theorem cnDone_casKid_node (n : String) (ty : NT) (kids : List CObj) :
    cnDone (casKid (CObj.node n ty kids)) = true := by
  simp [casKid, cnDone, mkAllCL_allCL]

theorem dirtyL_mem : ∀ {ks : List CObj}, dirtyL ks = true →
    ∀ k ∈ ks, allC k = true ∨ dirty k = true := by
  intro ks h k hk
  induction ks with
  | nil => cases hk
  | cons k2 ks ih =>
    simp only [dirtyL, Bool.or_eq_true, Bool.and_eq_true] at h
    rcases List.mem_cons.mp hk with h1 | h1
    · subst h1
      rcases h with h2 | h2
      · exact Or.inr h2.1
      · exact Or.inl h2.1
    · rcases h with h2 | h2
      · exact Or.inl (allCL_mem h2.2 k h1)
      · exact ih h2.2 h1

theorem dirtyL_of_single : ∀ (ks : List CObj) (i : Nat) (k : CObj),
    ks.get? i = some k → dirty k = true → offAllC ks i = true → dirtyL ks = true := by
  intro ks
  induction ks with
  | nil => intro i k h; simp at h
  | cons k2 ks ih =>
    intro i k h hd hoff
    match i with
    | 0 =>
      simp only [List.get?_cons_zero, Option.some.injEq] at h
      subst h
      simp only [offAllC] at hoff
      simp [dirtyL, hd, hoff]
    | j + 1 =>
      simp only [List.get?_cons_succ] at h
      simp only [offAllC, Bool.and_eq_true] at hoff
      simp [dirtyL, hoff.1, ih j k h hd hoff.2]

theorem dirtyL_exists : ∀ {ks : List CObj}, dirtyL ks = true →
    ∃ i k, ks.get? i = some k ∧ dirty k = true := by
  intro ks h
  induction ks with
  | nil => simp [dirtyL] at h
  | cons k2 ks ih =>
    simp only [dirtyL, Bool.or_eq_true, Bool.and_eq_true] at h
    rcases h with h2 | h2
    · exact ⟨0, k2, rfl, h2.1⟩
    · obtain ⟨i, k, hk, hd⟩ := ih h2.2
      exact ⟨i + 1, k, by simpa using hk, hd⟩

theorem isCNode_mkAllC_of_dirty {k : CObj} (h : dirty k = true) :
    isCNode (mkAllC k) = true := by
  match k with
  | CObj.attr n v => simp [dirty] at h
  | CObj.node n ty kids => rfl

theorem noCkids_false_of_get? {ks : List CObj} {i : Nat} {k : CObj}
    (h : ks.get? i = some k) (hc : isCNode k = true) : noCkids ks = false := by
  have hm := List.get?_mem h
  by_contra hne
  have h2 : noCkids ks = true := by
    cases hn : noCkids ks
    · exact absurd hn hne
    · rfl
  unfold noCkids at h2
  rw [List.all_eq_true] at h2
  have := h2 k hm
  rw [hc] at this
  simp at this

theorem allC_tyAt : ∀ (r : Pos) (u : CObj), allC u = true →
    ∀ n2 ty2 kids2, getAt u r = some (CObj.node n2 ty2 kids2) → ty2 = NT.C := by
  intro r
  induction r with
  | nil =>
    intro u hall n2 ty2 kids2 hg
    simp only [getAt, Option.some.injEq] at hg
    subst hg
    exact (allC_node_inv hall).1
  | cons i r ih =>
    intro u hall n2 ty2 kids2 hg
    match u with
    | CObj.attr n v => simp [getAt] at hg
    | CObj.node n ty kids =>
      obtain ⟨hty, hkids⟩ := allC_node_inv hall
      simp only [getAt] at hg
      match hk : kids.get? i with
      | Option.none => rw [hk] at hg; simp at hg
      | some k =>
        rw [hk] at hg
        simp only [Option.some_bind] at hg
        exact ih k (allCL_get? hkids hk) n2 ty2 kids2 hg

theorem isCNode_updAt_cons (F : CObj → CObj) (k : CObj) (j : Nat) (s : Pos) :
    isCNode (updAt F k (j :: s)) = isCNode k := by
  match k with
  | CObj.attr n v => simp [updAt, isCNode]
  | CObj.node n ty kids =>
    simp only [updAt]
    cases ty <;> rfl

theorem noCkids_updKids (F : CObj → CObj) : ∀ (ks : List CObj) (i : Nat) (s : Pos),
    (∀ k, ks.get? i = some k → isCNode (updAt F k s) = isCNode k) →
    noCkids (updKids F ks i s) = noCkids ks := by
  intro ks
  induction ks with
  | nil => intro i s _; simp [updKids]
  | cons k ks ih =>
    intro i s h
    match i with
    | 0 =>
      simp only [updKids, noCkids_cons]
      rw [h k rfl]
    | j + 1 =>
      simp only [updKids, noCkids_cons]
      rw [ih j s (fun k2 hk2 => h k2 (by simpa using hk2))]

theorem offAllC_updKids_self (F : CObj → CObj) : ∀ (ks : List CObj) (i : Nat) (s : Pos),
    offAllC (updKids F ks i s) i = offAllC ks i := by
  intro ks
  induction ks with
  | nil => intro i s; simp [updKids]
  | cons k ks ih =>
    intro i s
    match i with
    | 0 => simp [updKids, offAllC]
    | j + 1 => simp [updKids, offAllC, ih j s]

theorem offAllC_get?_ne : ∀ (ks : List CObj) (i j : Nat) (k : CObj),
    offAllC ks i = true → ks.get? j = some k → i ≠ j → allC k = true := by
  intro ks
  induction ks with
  | nil => intro i j k _ h; simp at h
  | cons k2 ks ih =>
    intro i j k hoff hk hij
    match i, j with
    | 0, 0 => exact absurd rfl hij
    | 0, jj + 1 =>
      simp only [offAllC] at hoff
      simp only [List.get?_cons_succ] at hk
      exact allCL_get? hoff hk
    | ii + 1, 0 =>
      simp only [offAllC, Bool.and_eq_true] at hoff
      simp only [List.get?_cons_zero, Option.some.injEq] at hk
      subst hk
      exact hoff.1
    | ii + 1, jj + 1 =>
      simp only [offAllC, Bool.and_eq_true] at hoff
      simp only [List.get?_cons_succ] at hk
      exact ih ii jj k hoff.2 hk (by omega)

theorem offAllC_of_allCL : ∀ {ks : List CObj} (i : Nat), allCL ks = true →
    offAllC ks i = true := by
  intro ks
  induction ks with
  | nil => intro i _; rfl
  | cons k ks ih =>
    intro i h
    simp only [allCL, Bool.and_eq_true] at h
    match i with
    | 0 => exact h.2
    | j + 1 => simp [offAllC, h.1, ih j h.2]

/-! ## C1: stability and zone predicates under reads and updates -/

theorem getAt_updAt_above (F : CObj → CObj) (q ext : Pos) (t : CObj) :
    getAt (updAt F t (q ++ ext)) q = (getAt t q).map (fun u => updAt F u ext) := by
  rw [updAt_append, getAt_updAt_self]

theorem tyAt_updAt_tyPres {F : CObj → CObj}
    (hFn : ∀ n ty kids, ∃ kids2, F (CObj.node n ty kids) = CObj.node n ty kids2)
    (hFa : ∀ n v, F (CObj.attr n v) = CObj.attr n v) (t : CObj) (q : Pos) :
    tyAt (updAt F t q) q = tyAt t q := by
  unfold tyAt
  rw [getAt_updAt_self]
  match hg : getAt t q with
  | Option.none => simp
  | some (CObj.attr n v) => simp [hFa n v]
  | some (CObj.node n ty kids) =>
    obtain ⟨kids2, he⟩ := hFn n ty kids
    simp [he]

theorem stA_nil (t : CObj) : stA t [] = true := by
  match t with
  | CObj.attr n v => rfl
  | CObj.node n ty kids => cases ty <;> rfl

theorem zC_nil (t : CObj) : zC t [] = true := by
  match t with
  | CObj.attr n v => rfl
  | CObj.node n ty kids => cases ty <;> rfl

theorem zTop_nil (t : CObj) : zTop t [] = true := by
  match t with
  | CObj.attr n v => rfl
  | CObj.node n ty kids => cases ty <;> rfl

theorem getAt_single {n : String} {ty : NT} {kids : List CObj} {i : Nat} {k : CObj}
    (hk : kids.get? i = some k) : getAt (CObj.node n ty kids) [i] = some k := by
  rw [getAt_cons, hk]
  rfl

theorem stA_cons_AN (n : String) (kids : List CObj) (x : Nat) (b : Pos) :
    stA (CObj.node n NT.AN kids) (x :: b) =
    (noCkids kids && match kids.get? x with
      | some k => stA k b
      | Option.none => true) := rfl

theorem zC_cons_C (n : String) (kids : List CObj) (x : Nat) (b : Pos) :
    zC (CObj.node n NT.C kids) (x :: b) =
    (offAllC kids x && match kids.get? x with
      | some k => zC k b
      | Option.none => true) := rfl

theorem zTop_cons_AN (n : String) (kids : List CObj) (x : Nat) (b : Pos) :
    zTop (CObj.node n NT.AN kids) (x :: b) =
    (noCkids kids && match kids.get? x with
      | some k => zTop k b
      | Option.none => true) := rfl

theorem zTop_cons_CN (n : String) (kids : List CObj) (x : Nat) (b : Pos) :
    zTop (CObj.node n NT.CN kids) (x :: b) =
    (offAllC kids x && match kids.get? x with
      | some k => zC k b
      | Option.none => true) := rfl

theorem zTop_cons_C (n : String) (kids : List CObj) (x : Nat) (b : Pos) :
    zTop (CObj.node n NT.C kids) (x :: b) =
    (offAllC kids x && match kids.get? x with
      | some k => zC k b
      | Option.none => true) := rfl

theorem stA_snoc : ∀ (q : Pos) (t : CObj) (i : Nat),
    stA t (q ++ [i]) = true ↔
    (stA t q = true ∧ ∀ n ty kids, getAt t q = some (CObj.node n ty kids) →
      ty = NT.AN ∧ noCkids kids = true) := by
  intro q
  induction q with
  | nil =>
    intro t i
    match t with
    | CObj.attr n v => simp [stA, getAt]
    | CObj.node n ty kids =>
      simp only [List.nil_append]
      match ty with
      | NT.AN =>
        have hL : stA (CObj.node n NT.AN kids) [i] = noCkids kids := by
          simp only [stA]
          cases hk : kids.get? i
          · simp
          · simp [stA]
        rw [hL]
        constructor
        · intro h
          refine ⟨rfl, fun n2 ty2 kids2 hg => ?_⟩
          simp only [getAt, Option.some.injEq] at hg
          cases hg
          exact ⟨rfl, h⟩
        · rintro ⟨h1, h2⟩
          exact (h2 n NT.AN kids rfl).2
      | NT.CN =>
        simp only [stA]
        constructor
        · intro h; simp at h
        · rintro ⟨h1, h2⟩
          have := (h2 n NT.CN kids rfl).1
          simp at this
      | NT.C =>
        simp only [stA]
        constructor
        · intro h; simp at h
        · rintro ⟨h1, h2⟩
          have := (h2 n NT.C kids rfl).1
          simp at this
  | cons x q ih =>
    intro t i
    match t with
    | CObj.attr n v => simp [stA, getAt]
    | CObj.node n ty kids =>
      simp only [List.cons_append]
      match ty with
      | NT.CN =>
        simp only [stA]
        constructor
        · intro h; simp at h
        · rintro ⟨h1, _⟩; simp at h1
      | NT.C =>
        simp only [stA]
        constructor
        · intro h; simp at h
        · rintro ⟨h1, _⟩; simp at h1
      | NT.AN =>
        simp only [stA]
        cases hk : kids.get? x with
        | none =>
          have hk2 : kids[x]? = Option.none := by simpa using hk
          simp [getAt, hk2]
        | some k =>
          have hk2 : kids[x]? = some k := by simpa using hk
          have hge : ∀ u, getAt (CObj.node n NT.AN kids) (x :: q) = some u ↔
              getAt k q = some u := by
            intro u; simp [getAt, hk2]
          simp only [Bool.and_eq_true]
          rw [ih k i]
          constructor
          · rintro ⟨h1, h2, h3⟩
            exact ⟨⟨h1, h2⟩, fun n2 ty2 kids2 hg => h3 n2 ty2 kids2 ((hge _).mp hg)⟩
          · rintro ⟨⟨h1, h2⟩, h3⟩
            exact ⟨h1, h2, fun n2 ty2 kids2 hg => h3 n2 ty2 kids2 ((hge _).mpr hg)⟩

theorem stA_at_prefix : ∀ (a ext : Pos) (t : CObj), ext ≠ [] →
    stA t (a ++ ext) = true →
    stA t a = true ∧ ∀ n ty kids, getAt t a = some (CObj.node n ty kids) →
      ty = NT.AN ∧ noCkids kids = true := by
  intro a
  induction a with
  | nil =>
    intro ext t hext h
    refine ⟨stA_nil t, fun n ty kids hg => ?_⟩
    simp only [getAt, Option.some.injEq] at hg
    subst hg
    match ext with
    | [] => exact absurd rfl hext
    | e :: ext2 =>
      simp only [List.nil_append] at h
      match ty with
      | NT.AN =>
        simp only [stA, Bool.and_eq_true] at h
        exact ⟨rfl, h.1⟩
      | NT.CN => simp [stA] at h
      | NT.C => simp [stA] at h
  | cons x a2 ih =>
    intro ext t hext h
    match t with
    | CObj.attr n v => simp [stA, getAt]
    | CObj.node n ty kids =>
      simp only [List.cons_append] at h
      match ty with
      | NT.CN => simp [stA] at h
      | NT.C => simp [stA] at h
      | NT.AN =>
        simp only [stA, Bool.and_eq_true] at h
        obtain ⟨hnk, hrest⟩ := h
        cases hk : kids.get? x with
        | none =>
          have hk2 : kids[x]? = Option.none := by simpa using hk
          refine ⟨by simp [stA, hnk, hk2], fun n2 ty2 kids2 hg => ?_⟩
          simp [getAt, hk2] at hg
        | some k =>
          have hk2 : kids[x]? = some k := by simpa using hk
          rw [hk] at hrest
          obtain ⟨hsk, hfacts⟩ := ih ext k hext hrest
          refine ⟨by simp [stA, hnk, hk2, hsk], fun n2 ty2 kids2 hg => ?_⟩
          simp only [getAt, hk, Option.some_bind] at hg
          exact hfacts n2 ty2 kids2 hg

theorem stA_updAt (F : CObj → CObj) (ext : Pos) : ∀ (r : Pos) (t : CObj),
    (ext = [] → ∀ u, getAt t r = some u → isCNode (F u) = isCNode u) →
    stA (updAt F t (r ++ ext)) r = stA t r := by
  intro r
  induction r with
  | nil => intro t _; simp [stA_nil]
  | cons i r ih =>
    intro t h
    match t with
    | CObj.attr n v => simp [updAt, stA]
    | CObj.node n ty kids =>
      simp only [List.cons_append, updAt]
      match ty with
      | NT.CN => simp [stA]
      | NT.C => simp [stA]
      | NT.AN =>
        simp only [stA]
        have hnk : noCkids (updKids F kids i (r ++ ext)) = noCkids kids := by
          apply noCkids_updKids
          intro k hk
          match hre : r ++ ext with
          | j :: s => exact isCNode_updAt_cons F k j s
          | [] =>
            obtain ⟨hr, he⟩ := List.append_eq_nil.mp hre
            subst hr
            subst he
            simpa [updAt] using h rfl k (getAt_single hk)
        rw [hnk, get?_updKids_self]
        cases hk : kids.get? i with
        | none => simp
        | some k =>
          simp only [Option.map_some']
          have hr := ih k (fun he u hu => h he u (by
            subst he
            rw [getAt_cons, hk]
            simpa using hu))
          rw [hr]

theorem zC_updAt (F : CObj → CObj) (ext : Pos) (hext : ext ≠ []) :
    ∀ (r : Pos) (t : CObj), zC (updAt F t (r ++ ext)) r = zC t r := by
  intro r
  induction r with
  | nil => intro t; simp [zC_nil]
  | cons i r ih =>
    intro t
    match t with
    | CObj.attr n v => simp [updAt, zC]
    | CObj.node n ty kids =>
      simp only [List.cons_append, updAt]
      match ty with
      | NT.AN => simp [zC]
      | NT.CN => simp [zC]
      | NT.C =>
        simp only [zC]
        rw [offAllC_updKids_self, get?_updKids_self]
        cases hk : kids.get? i with
        | none => simp
        | some k => simp [ih k]

theorem zTop_updAt (F : CObj → CObj) (ext : Pos) (hext : ext ≠ []) :
    ∀ (r : Pos) (t : CObj), zTop (updAt F t (r ++ ext)) r = zTop t r := by
  intro r
  induction r with
  | nil => intro t; simp [zTop_nil]
  | cons i r ih =>
    intro t
    match t with
    | CObj.attr n v => simp [updAt, zTop]
    | CObj.node n ty kids =>
      simp only [List.cons_append, updAt]
      match ty with
      | NT.AN =>
        simp only [zTop]
        have hnk : noCkids (updKids F kids i (r ++ ext)) = noCkids kids := by
          apply noCkids_updKids
          intro k _
          match hre : r ++ ext with
          | j :: s => exact isCNode_updAt_cons F k j s
          | [] =>
            obtain ⟨hr, he⟩ := List.append_eq_nil.mp hre
            exact absurd he hext
        rw [hnk, get?_updKids_self]
        cases hk : kids.get? i with
        | none => simp
        | some k => simp [ih k]
      | NT.CN =>
        simp only [zTop]
        rw [offAllC_updKids_self, get?_updKids_self]
        cases hk : kids.get? i with
        | none => simp
        | some k => simp [zC_updAt F ext hext r k]
      | NT.C =>
        simp only [zTop]
        rw [offAllC_updKids_self, get?_updKids_self]
        cases hk : kids.get? i with
        | none => simp
        | some k => simp [zC_updAt F ext hext r k]

theorem zC_snoc : ∀ (b : Pos) (k : CObj) (i : Nat), zC k (b ++ [i]) = true →
    ∀ n ty kids, getAt k b = some (CObj.node n ty kids) →
    ty = NT.C ∧ offAllC kids i = true ∧ zC k b = true := by
  intro b
  induction b with
  | nil =>
    intro k i h n ty kids hg
    simp only [getAt, Option.some.injEq] at hg
    subst hg
    match ty with
    | NT.AN => simp [zC] at h
    | NT.CN => simp [zC] at h
    | NT.C =>
      simp only [List.nil_append, zC, Bool.and_eq_true] at h
      exact ⟨rfl, h.1, rfl⟩
  | cons x b2 ih =>
    intro k i h n ty kids hg
    match k with
    | CObj.attr n2 v => simp [zC] at h
    | CObj.node n2 ty2 kids2 =>
      match ty2 with
      | NT.AN => simp [zC] at h
      | NT.CN => simp [zC] at h
      | NT.C =>
        simp only [List.cons_append, zC, Bool.and_eq_true] at h
        obtain ⟨hoff, hrest⟩ := h
        simp only [getAt] at hg
        cases hk : kids2.get? x with
        | none => rw [hk] at hg; simp at hg
        | some k2 =>
          rw [hk] at hg
          simp only [Option.some_bind] at hg
          rw [hk] at hrest
          obtain ⟨h1, h2, h3⟩ := ih k2 i hrest n ty kids hg
          exact ⟨h1, h2, by rw [zC_cons_C, hk]; simp [hoff, h3]⟩

theorem zTop_snoc : ∀ (b : Pos) (t : CObj) (i : Nat), zTop t (b ++ [i]) = true →
    ∀ m tyb bkids, getAt t b = some (CObj.node m tyb bkids) →
    (tyb = NT.AN ∧ noCkids bkids = true ∧ stA t b = true) ∨
    (tyb = NT.CN ∧ offAllC bkids i = true ∧ stA t b = true) ∨
    (tyb = NT.C ∧ offAllC bkids i = true ∧ zTop t b = true) := by
  intro b
  induction b with
  | nil =>
    intro t i h m tyb bkids hg
    simp only [getAt, Option.some.injEq] at hg
    subst hg
    match tyb with
    | NT.AN =>
      simp only [List.nil_append, zTop, Bool.and_eq_true] at h
      exact Or.inl ⟨rfl, h.1, rfl⟩
    | NT.CN =>
      simp only [List.nil_append, zTop, Bool.and_eq_true] at h
      exact Or.inr (Or.inl ⟨rfl, h.1, rfl⟩)
    | NT.C =>
      simp only [List.nil_append, zTop, Bool.and_eq_true] at h
      exact Or.inr (Or.inr ⟨rfl, h.1, rfl⟩)
  | cons x b2 ih =>
    intro t i h m tyb bkids hg
    match t with
    | CObj.attr n v => simp [zTop] at h
    | CObj.node n ty kids =>
      simp only [getAt] at hg
      cases hk : kids.get? x with
      | none => rw [hk] at hg; simp at hg
      | some k =>
        rw [hk] at hg
        simp only [Option.some_bind] at hg
        match ty with
        | NT.AN =>
          simp only [List.cons_append, zTop, Bool.and_eq_true, hk] at h
          obtain ⟨hnk, hrest⟩ := h
          rcases ih k i hrest m tyb bkids hg with ⟨h1, h2, h3⟩ | ⟨h1, h2, h3⟩ | ⟨h1, h2, h3⟩
          · exact Or.inl ⟨h1, h2, by rw [stA_cons_AN, hk]; simp [hnk, h3]⟩
          · exact Or.inr (Or.inl ⟨h1, h2, by rw [stA_cons_AN, hk]; simp [hnk, h3]⟩)
          · exact Or.inr (Or.inr ⟨h1, h2, by rw [zTop_cons_AN, hk]; simp [hnk, h3]⟩)
        | NT.CN =>
          simp only [List.cons_append, zTop, Bool.and_eq_true, hk] at h
          obtain ⟨hoff, hrest⟩ := h
          obtain ⟨h1, h2, h3⟩ := zC_snoc b2 k i hrest m tyb bkids hg
          exact Or.inr (Or.inr ⟨h1, h2, by rw [zTop_cons_CN, hk]; simp [hoff, h3]⟩)
        | NT.C =>
          simp only [List.cons_append, zTop, Bool.and_eq_true, hk] at h
          obtain ⟨hoff, hrest⟩ := h
          obtain ⟨h1, h2, h3⟩ := zC_snoc b2 k i hrest m tyb bkids hg
          exact Or.inr (Or.inr ⟨h1, h2, by rw [zTop_cons_C, hk]; simp [hoff, h3]⟩)

/-! ## C1: consequences of structural consistency -/

theorem consL_mem : ∀ {ty : NT} {ks : List CObj}, consL ty ks = true →
    ∀ k ∈ ks, childOK ty k = true ∧ consB k = true := by
  intro ty ks h k hk
  induction ks with
  | nil => cases hk
  | cons k2 ks ih =>
    simp only [consL, Bool.and_eq_true] at h
    rcases List.mem_cons.mp hk with h1 | h1
    · subst h1; exact ⟨h.1.1, h.1.2⟩
    · exact ih h.2 h1

theorem childOK_C_inv {n2 : String} {ty2 : NT} {kk : List CObj}
    (h : childOK NT.C (CObj.node n2 ty2 kk) = true) : ty2 = NT.C := by
  match ty2 with
  | NT.C => rfl
  | NT.CN => simp [childOK] at h
  | NT.AN => simp [childOK] at h

theorem childOK_CN_inv {n2 : String} {ty2 : NT} {kk : List CObj}
    (h : childOK NT.CN (CObj.node n2 ty2 kk) = true) : ty2 = NT.C := by
  match ty2 with
  | NT.C => rfl
  | NT.CN => simp [childOK] at h
  | NT.AN => simp [childOK] at h

theorem childOK_AN_notC {n2 : String} {ty2 : NT} {kk : List CObj}
    (h : childOK NT.AN (CObj.node n2 ty2 kk) = true) :
    isCNode (CObj.node n2 ty2 kk) = false := by
  match ty2 with
  | NT.C => simp [childOK] at h
  | NT.CN => rfl
  | NT.AN => rfl

theorem childOK_nonC_parent {tym : NT} {n2 : String} {ty2 : NT} {kk : List CObj}
    (h : childOK tym (CObj.node n2 ty2 kk) = true) (hne : ty2 ≠ NT.C) :
    tym = NT.AN := by
  match tym with
  | NT.AN => rfl
  | NT.C => exact absurd (childOK_C_inv h) hne
  | NT.CN => exact absurd (childOK_CN_inv h) hne

theorem noCkids_of_consL_AN {ks : List CObj} (h : consL NT.AN ks = true) :
    noCkids ks = true := by
  induction ks with
  | nil => rfl
  | cons k ks ih =>
    simp only [consL, Bool.and_eq_true] at h
    rw [noCkids_cons, ih h.2, Bool.and_true]
    match k with
    | CObj.attr n v => rfl
    | CObj.node n2 ty2 kk => simp [childOK_AN_notC h.1.1]

theorem consL_allCL_aux : ∀ (m : Nat) (ty : NT) (ks : List CObj), csizeL ks ≤ m →
    (ty = NT.C ∨ ty = NT.CN) → consL ty ks = true → allCL ks = true := by
  intro m
  induction m with
  | zero =>
    intro ty ks h _ _
    match ks with
    | [] => rfl
    | k :: ks => have := csize_pos k; simp [csizeL] at h; omega
  | succ m ih =>
    intro ty ks h hty hc
    match ks with
    | [] => rfl
    | k :: ks2 =>
      simp only [csizeL] at h
      simp only [consL, Bool.and_eq_true] at hc
      have hk : allC k = true := by
        match k with
        | CObj.attr n v => rfl
        | CObj.node n2 ty2 kk =>
          have hty2 : ty2 = NT.C := by
            rcases hty with h2 | h2 <;> subst h2
            · exact childOK_C_inv hc.1.1
            · exact childOK_CN_inv hc.1.1
          subst hty2
          have hkk : consL NT.C kk = true := hc.1.2
          have h2 : csizeL kk ≤ m := by simp [csize] at h ⊢; omega
          simpa [allC] using ih NT.C kk h2 (Or.inl rfl) hkk
      have h3 : allCL ks2 = true := by
        have := csize_pos k
        exact ih ty ks2 (by omega) hty hc.2
      simp [allCL, hk, h3]

theorem consB_allC {n : String} {kids : List CObj}
    (h : consB (CObj.node n NT.C kids) = true) :
    allC (CObj.node n NT.C kids) = true := by
  have h2 : consL NT.C kids = true := h
  exact consL_allCL_aux (csizeL kids) NT.C kids le_rfl (Or.inl rfl) h2

theorem consB_getAt : ∀ (p : Pos) (t : CObj), consB t = true →
    ∀ u, getAt t p = some u → consB u = true := by
  intro p
  induction p with
  | nil =>
    intro t hc u hg
    simp only [getAt, Option.some.injEq] at hg
    subst hg
    exact hc
  | cons i p2 ih =>
    intro t hc u hg
    match t with
    | CObj.attr n v => simp [getAt] at hg
    | CObj.node n ty kids =>
      rw [getAt_cons] at hg
      cases hk : kids.get? i with
      | none => rw [hk] at hg; simp at hg
      | some k =>
        rw [hk] at hg
        simp only [Option.some_bind] at hg
        have hck := (consL_mem hc k (List.get?_mem hk)).2
        exact ih k hck u hg

theorem consB_stA : ∀ (p : Pos) (t : CObj), consB t = true →
    ∀ n ty kids, getAt t p = some (CObj.node n ty kids) → ty ≠ NT.C →
    stA t p = true := by
  intro p
  induction p with
  | nil => intro t _ n ty kids _ _; exact stA_nil t
  | cons i p2 ih =>
    intro t hc n ty kids hg hne
    match t with
    | CObj.attr m v => simp [getAt] at hg
    | CObj.node m tym tkids =>
      rw [getAt_cons] at hg
      cases hk : tkids.get? i with
      | none => rw [hk] at hg; simp at hg
      | some k =>
        rw [hk] at hg
        simp only [Option.some_bind] at hg
        have hcl : consL tym tkids = true := hc
        obtain ⟨hok, hck⟩ := consL_mem hcl k (List.get?_mem hk)
        match k with
        | CObj.attr n2 v2 =>
          match p2 with
          | [] => simp [getAt] at hg
          | _ :: _ => simp [getAt] at hg
        | CObj.node n2 ty2 kk =>
          match ty2 with
          | NT.C =>
            have hall : allC (CObj.node n2 NT.C kk) = true := consB_allC hck
            exact absurd (allC_tyAt p2 _ hall n ty kids hg) hne
          | NT.CN =>
            have htym : tym = NT.AN := childOK_nonC_parent hok (by simp)
            subst htym
            match p2 with
            | [] =>
              rw [stA_cons_AN, hk]
              simp [noCkids_of_consL_AN hcl, stA_nil]
            | j :: p3 =>
              exfalso
              rw [getAt_cons] at hg
              cases hk2 : kk.get? j with
              | none => rw [hk2] at hg; simp at hg
              | some k2 =>
                rw [hk2] at hg
                simp only [Option.some_bind] at hg
                have hck2 : consL NT.CN kk = true := hck
                obtain ⟨hok2, hcc2⟩ := consL_mem hck2 k2 (List.get?_mem hk2)
                match k2 with
                | CObj.attr n3 v3 =>
                  match p3 with
                  | [] => simp [getAt] at hg
                  | _ :: _ => simp [getAt] at hg
                | CObj.node n3 ty3 kk3 =>
                  have hty3 : ty3 = NT.C := childOK_CN_inv hok2
                  subst hty3
                  have hall2 : allC (CObj.node n3 NT.C kk3) = true := consB_allC hcc2
                  exact hne (allC_tyAt p3 _ hall2 n ty kids hg)
          | NT.AN =>
            have htym : tym = NT.AN := childOK_nonC_parent hok (by simp)
            subst htym
            rw [stA_cons_AN, hk]
            have hsk : stA (CObj.node n2 NT.AN kk) p2 = true :=
              ih _ hck n ty kids hg hne
            simp [noCkids_of_consL_AN hcl, hsk]

theorem allC_zC : ∀ (p : Pos) (u : CObj), allC u = true →
    ∀ x, getAt u p = some x → zC u p = true := by
  intro p
  induction p with
  | nil => intro u _ x _; exact zC_nil u
  | cons i p2 ih =>
    intro u hall x hg
    match u with
    | CObj.attr n v => simp [getAt] at hg
    | CObj.node n ty kids =>
      obtain ⟨hty, hkids⟩ := allC_node_inv hall
      subst hty
      rw [getAt_cons] at hg
      cases hk : kids.get? i with
      | none => rw [hk] at hg; simp at hg
      | some k =>
        rw [hk] at hg
        simp only [Option.some_bind] at hg
        rw [zC_cons_C, hk]
        simp [offAllC_of_allCL i hkids, ih k (allCL_get? hkids hk) x hg]

theorem consB_zTop : ∀ (p : Pos) (t : CObj), consB t = true →
    ∀ n kids, getAt t p = some (CObj.node n NT.C kids) → zTop t p = true := by
  intro p
  induction p with
  | nil => intro t _ n kids _; exact zTop_nil t
  | cons i p2 ih =>
    intro t hc n kids hg
    match t with
    | CObj.attr m v => simp [getAt] at hg
    | CObj.node m tym tkids =>
      rw [getAt_cons] at hg
      cases hk : tkids.get? i with
      | none => rw [hk] at hg; simp at hg
      | some k =>
        rw [hk] at hg
        simp only [Option.some_bind] at hg
        have hcl : consL tym tkids = true := hc
        obtain ⟨hok, hck⟩ := consL_mem hcl k (List.get?_mem hk)
        match k with
        | CObj.attr n2 v2 =>
          match p2 with
          | [] => simp [getAt] at hg
          | _ :: _ => simp [getAt] at hg
        | CObj.node n2 ty2 kk =>
          match tym with
          | NT.AN =>
            rw [zTop_cons_AN, hk]
            simp [noCkids_of_consL_AN hcl, ih _ hck n kids hg]
          | NT.CN =>
            have hty2 : ty2 = NT.C := childOK_CN_inv hok
            subst hty2
            have hall : allC (CObj.node n2 NT.C kk) = true := consB_allC hck
            rw [zTop_cons_CN, hk]
            have hoffa : allCL tkids = true :=
              consL_allCL_aux (csizeL tkids) NT.CN tkids le_rfl (Or.inr rfl) hcl
            simp [offAllC_of_allCL i hoffa, allC_zC p2 _ hall _ hg]
          | NT.C =>
            have hty2 : ty2 = NT.C := childOK_C_inv hok
            subst hty2
            have hall : allC (CObj.node n2 NT.C kk) = true := consB_allC hck
            rw [zTop_cons_C, hk]
            have hoffa : allCL tkids = true :=
              consL_allCL_aux (csizeL tkids) NT.C tkids le_rfl (Or.inl rfl) hcl
            simp [offAllC_of_allCL i hoffa, allC_zC p2 _ hall _ hg]

theorem getAt_prefix_node {t : CObj} {q : Pos} {i : Nat} {r : Pos} {u : CObj}
    (h : getAt t (q ++ i :: r) = some u) :
    ∃ n ty kids, getAt t q = some (CObj.node n ty kids)
      ∧ ∃ k, kids.get? i = some k ∧ getAt k r = some u := by
  rw [getAt_append] at h
  match hg : getAt t q with
  | Option.none => rw [hg] at h; simp at h
  | some (CObj.attr n v) => rw [hg] at h; simp [getAt] at h
  | some (CObj.node n ty kids) =>
    rw [hg] at h
    simp only [Option.some_bind] at h
    rw [getAt_cons] at h
    match hk : kids.get? i with
    | Option.none => rw [hk] at h; simp at h
    | some k =>
      rw [hk] at h
      simp only [Option.some_bind] at h
      exact ⟨n, ty, kids, rfl, k, hk, h⟩

theorem hasCNanc_false_of_stA {t : CObj} {p : Pos} (hst : stA t p = true)
    {u : CObj} (hval : getAt t p = some u) : hasCNanc t p = false := by
  cases han : hasCNanc t p with
  | false => rfl
  | true =>
    exfalso
    unfold hasCNanc at han
    rw [List.any_eq_true] at han
    obtain ⟨q, hq, hcn⟩ := han
    rw [decide_eq_true_eq] at hcn
    obtain ⟨i, r, hdec⟩ := ancChain_mem p q hq
    rw [hdec] at hval hst
    obtain ⟨n, ty, kids, hgq, k, hk, hgk⟩ := getAt_prefix_node hval
    obtain ⟨_, hfacts⟩ := stA_at_prefix q (i :: r) t (by simp) hst
    have := (hfacts n ty kids hgq).1
    subst this
    unfold tyAt at hcn
    rw [hgq] at hcn
    simp at hcn

/-! ## C1: run combinators -/

theorem runs_none {t : CObj} {p : Pos} (v : NT) (h : tyAt t p = Option.none) :
    Runs t p v (SRes.ok t) := by
  refine ⟨1, fun f hf => ?_⟩
  obtain ⟨g, rfl⟩ : ∃ g, f = g + 1 := ⟨f - 1, by omega⟩
  rw [set_node_type, h]

theorem runsSeq_nil (t : CObj) : RunsSeq t [] (SRes.ok t) :=
  ⟨0, fun f _ => by rw [sntSeq]⟩

theorem runsSeq_cons_fire {t t2 : CObj} {j : Job} {rest : List Job} {r : SRes}
    (hfire : ¬(j.cond = Cond.ifC ∧ ¬ tyAt t j.pos = some NT.C))
    (h1 : Runs t j.pos j.tgt (SRes.ok t2)) (h2 : RunsSeq t2 rest r) :
    RunsSeq t (j :: rest) r := by
  obtain ⟨N1, h1⟩ := h1
  obtain ⟨N2, h2⟩ := h2
  refine ⟨max N1 N2, fun f hf => ?_⟩
  rw [sntSeq, if_neg hfire, h1 f (le_trans (le_max_left _ _) hf)]
  exact h2 f (le_trans (le_max_right _ _) hf)

theorem runsSeq_cons_skip {t : CObj} {j : Job} {rest : List Job} {r : SRes}
    (hc : j.cond = Cond.ifC) (hty : ¬ tyAt t j.pos = some NT.C)
    (h2 : RunsSeq t rest r) : RunsSeq t (j :: rest) r := by
  obtain ⟨N2, h2⟩ := h2
  refine ⟨N2, fun f hf => ?_⟩
  rw [sntSeq, if_pos ⟨hc, hty⟩]
  exact h2 f hf

theorem runsSeq_cons_err {t t2 : CObj} {j : Job} {rest : List Job} {m : String}
    (hfire : ¬(j.cond = Cond.ifC ∧ ¬ tyAt t j.pos = some NT.C))
    (h1 : Runs t j.pos j.tgt (SRes.err m t2)) :
    RunsSeq t (j :: rest) (SRes.err m t2) := by
  obtain ⟨N1, h1⟩ := h1
  refine ⟨N1, fun f hf => ?_⟩
  rw [sntSeq, if_neg hfire, h1 f hf]

theorem sntSeq_append (f : Nat) : ∀ (js1 js2 : List Job) (t : CObj),
    sntSeq f t (js1 ++ js2) = match sntSeq f t js1 with
      | SRes.ok t2 => sntSeq f t2 js2
      | e => e := by
  intro js1
  induction js1 with
  | nil =>
    intro js2 t
    simp only [List.nil_append]
    conv_rhs => rw [sntSeq]
  | cons j js1 ih =>
    intro js2 t
    simp only [List.cons_append]
    rw [sntSeq]
    conv_rhs => rw [sntSeq]
    by_cases hg : (j.cond = Cond.ifC ∧ ¬ tyAt t j.pos = some NT.C)
    · rw [if_pos hg, if_pos hg, ih]
    · rw [if_neg hg, if_neg hg]
      cases hs : set_node_type f t j.pos j.tgt with
      | ok t2 => exact ih js2 t2
      | err m te => rfl
      | out te => rfl

theorem runsSeq_append {t t2 : CObj} {js1 js2 : List Job} {r : SRes}
    (h1 : RunsSeq t js1 (SRes.ok t2)) (h2 : RunsSeq t2 js2 r) :
    RunsSeq t (js1 ++ js2) r := by
  obtain ⟨N1, h1⟩ := h1
  obtain ⟨N2, h2⟩ := h2
  refine ⟨max N1 N2, fun f hf => ?_⟩
  rw [sntSeq_append, h1 f (le_trans (le_max_left _ _) hf)]
  exact h2 f (le_trans (le_max_right _ _) hf)

theorem runs_step {t t1 : CObj} {p : Pos} {v : NT} {jobs : List Job} {r : SRes}
    (heq : ∀ f, set_node_type (f + 1) t p v = sntSeq f t1 jobs)
    (h : RunsSeq t1 jobs r) : Runs t p v r := by
  obtain ⟨N, hN⟩ := h
  refine ⟨N + 1, fun f hf => ?_⟩
  obtain ⟨g, rfl⟩ : ∃ g, f = g + 1 := ⟨f - 1, by omega⟩
  rw [heq g]
  exact hN g (by omega)

theorem runsSeq_const_noop (t : CObj) : ∀ (js : List Job),
    (∀ j ∈ js, j.cond = Cond.always ∧ Runs t j.pos j.tgt (SRes.ok t)) →
    RunsSeq t js (SRes.ok t) := by
  intro js
  induction js with
  | nil => intro _; exact runsSeq_nil t
  | cons j js ih =>
    intro h
    obtain ⟨hc, hr⟩ := h j (by simp)
    refine runsSeq_cons_fire ?_ hr (ih (fun j2 hj2 => h j2 (by simp [hj2])))
    rw [hc]
    simp

theorem runsSeq_noop (t : CObj) (p : Pos) (v : NT) (c : Cond) :
    ∀ (ks : List CObj) (i : Nat),
    (∀ j, j < ks.length →
      (c = Cond.ifC ∧ ¬ tyAt t (p ++ [i + j]) = some NT.C)
      ∨ Runs t (p ++ [i + j]) v (SRes.ok t)) →
    RunsSeq t (kidJobs p v c i ks) (SRes.ok t) := by
  intro ks
  induction ks with
  | nil => intro i _; exact runsSeq_nil t
  | cons k ks ih =>
    intro i h
    simp only [kidJobs]
    by_cases hg : (c = Cond.ifC ∧ ¬ tyAt t (p ++ [i]) = some NT.C)
    · refine runsSeq_cons_skip hg.1 hg.2 (ih (i + 1) (fun j hj => ?_))
      rw [show i + 1 + j = i + (j + 1) by omega]
      exact h (j + 1) (by simpa using Nat.succ_lt_succ hj)
    · have h0 := h 0 (by simp)
      rw [Nat.add_zero] at h0
      rcases h0 with h0 | h0
      · exact absurd h0 hg
      · refine runsSeq_cons_fire hg h0 (ih (i + 1) (fun j hj => ?_))
        rw [show i + 1 + j = i + (j + 1) by omega]
        exact h (j + 1) (by simpa using Nat.succ_lt_succ hj)

/-! ## C1: branch unfoldings of `set_node_type` -/

theorem snt_force_AN {t : CObj} {p : Pos} (hty : tyAt t p = some NT.AN) (f : Nat) :
    set_node_type (f + 1) t p NT.AN
      = sntSeq f t ((if p.isEmpty then [] else [⟨p.dropLast, NT.AN, Cond.always⟩])
          ++ childJobs t p NT.CN Cond.ifC) := by
  rw [set_node_type, hty]
  rfl

theorem snt_force_CN {t : CObj} {p : Pos} (hty : tyAt t p = some NT.CN) (f : Nat) :
    set_node_type (f + 1) t p NT.CN
      = sntSeq f t ((if p.isEmpty then [] else [⟨p.dropLast, NT.AN, Cond.always⟩])
          ++ childJobs t p NT.C Cond.always) := by
  rw [set_node_type, hty]
  rfl

theorem snt_force_C {t : CObj} {p : Pos} (hty : tyAt t p = some NT.C) (f : Nat) :
    set_node_type (f + 1) t p NT.C
      = sntSeq f t ((if !p.isEmpty && (tyAt t p.dropLast = some NT.AN : Bool)
            then [⟨p.dropLast, NT.CN, Cond.always⟩] else [])
          ++ childJobs t p NT.C Cond.always) := by
  rw [set_node_type, hty]
  rfl

theorem snt_trans {t : CObj} {p : Pos} {cur v : NT} (hty : tyAt t p = some cur)
    (hne : ¬ cur = v)
    (hchk : (parentChk cur v && !hasCNanc (setTy t p v) p) = false) (f : Nat) :
    set_node_type (f + 1) t p v = sntSeq f (setTy t p v)
      ((match parentVal cur v with
        | some pv => ancJobs p pv
        | Option.none => []) ++
       (match childVal cur v with
        | some cv => childJobs (setTy t p v) p cv Cond.always
        | Option.none => [])) := by
  rw [set_node_type, hty]
  simp [hne, hchk]

theorem snt_trans_C_CN {t : CObj} {p : Pos} (hty : tyAt t p = some NT.C) (f : Nat) :
    set_node_type (f + 1) t p NT.CN
      = sntSeq f (setTy t p NT.CN) (ancJobs p NT.AN) := by
  have h := @snt_trans t p NT.C NT.CN hty (by decide) (Bool.false_and _) f
  rw [show parentVal NT.C NT.CN = some NT.AN from rfl,
      show childVal NT.C NT.CN = Option.none from rfl] at h
  simpa using h

theorem snt_trans_C_AN {t : CObj} {p : Pos} (hty : tyAt t p = some NT.C) (f : Nat) :
    set_node_type (f + 1) t p NT.AN
      = sntSeq f (setTy t p NT.AN)
          (ancJobs p NT.AN ++ childJobs (setTy t p NT.AN) p NT.CN Cond.always) := by
  have h := @snt_trans t p NT.C NT.AN hty (by decide) (Bool.false_and _) f
  rw [show parentVal NT.C NT.AN = some NT.AN from rfl,
      show childVal NT.C NT.AN = some NT.CN from rfl] at h
  simpa using h

theorem snt_trans_CN_AN {t : CObj} {p : Pos} (hty : tyAt t p = some NT.CN) (f : Nat) :
    set_node_type (f + 1) t p NT.AN
      = sntSeq f (setTy t p NT.AN)
          (childJobs (setTy t p NT.AN) p NT.CN Cond.always) := by
  have h := @snt_trans t p NT.CN NT.AN hty (by decide) (Bool.false_and _) f
  rw [show parentVal NT.CN NT.AN = Option.none from rfl,
      show childVal NT.CN NT.AN = some NT.CN from rfl] at h
  simpa using h

theorem snt_trans_AN_CN {t : CObj} {p : Pos} (hty : tyAt t p = some NT.AN) (f : Nat) :
    set_node_type (f + 1) t p NT.CN
      = sntSeq f (setTy t p NT.CN)
          (childJobs (setTy t p NT.CN) p NT.C Cond.always) := by
  have h := @snt_trans t p NT.AN NT.CN hty (by decide) (Bool.false_and _) f
  rw [show parentVal NT.AN NT.CN = Option.none from rfl,
      show childVal NT.AN NT.CN = some NT.C from rfl] at h
  simpa using h

theorem snt_trans_CN_C_ok {t : CObj} {p : Pos} (hty : tyAt t p = some NT.CN)
    (hanc : hasCNanc t p = true) (f : Nat) :
    set_node_type (f + 1) t p NT.C = sntSeq f (setTy t p NT.C) [] := by
  have hchk : (parentChk NT.CN NT.C && !hasCNanc (setTy t p NT.C) p) = false := by
    rw [show parentChk NT.CN NT.C = true from rfl, hasCNanc_setTy, hanc]
    rfl
  have h := @snt_trans t p NT.CN NT.C hty (by decide) hchk f
  rw [show parentVal NT.CN NT.C = Option.none from rfl,
      show childVal NT.CN NT.C = Option.none from rfl] at h
  simpa using h

theorem snt_trans_AN_C_ok {t : CObj} {p : Pos} (hty : tyAt t p = some NT.AN)
    (hanc : hasCNanc t p = true) (f : Nat) :
    set_node_type (f + 1) t p NT.C
      = sntSeq f (setTy t p NT.C)
          (childJobs (setTy t p NT.C) p NT.C Cond.always) := by
  have hchk : (parentChk NT.AN NT.C && !hasCNanc (setTy t p NT.C) p) = false := by
    rw [show parentChk NT.AN NT.C = true from rfl, hasCNanc_setTy, hanc]
    rfl
  have h := @snt_trans t p NT.AN NT.C hty (by decide) hchk f
  rw [show parentVal NT.AN NT.C = Option.none from rfl,
      show childVal NT.AN NT.C = some NT.C from rfl] at h
  simpa using h

/-! ## C1: no-op runs (already saturated subtrees) -/

theorem noCkids_get? {ks : List CObj} {j : Nat} {n2 : String} {ty2 : NT}
    {kk : List CObj} (h : noCkids ks = true)
    (hk : ks.get? j = some (CObj.node n2 ty2 kk)) : ty2 ≠ NT.C := by
  unfold noCkids at h
  rw [List.all_eq_true] at h
  have h2 := h _ (List.get?_mem hk)
  intro he
  subst he
  simp [isCNode] at h2

theorem tyAt_of_getAt_node {t : CObj} {p : Pos} {n : String} {ty : NT}
    {kids : List CObj} (h : getAt t p = some (CObj.node n ty kids)) :
    tyAt t p = some ty := by
  unfold tyAt
  rw [h]

/-- A C force-update on an all-C subtree whose parent is not AN is a no-op. -/
theorem runs_noop_C : ∀ (m : Nat) (t : CObj) (p : Pos) (k : CObj),
    csize k ≤ m → getAt t p = some k → allC k = true →
    (p = [] ∨ ¬ tyAt t p.dropLast = some NT.AN) →
    Runs t p NT.C (SRes.ok t) := by
  intro m
  induction m with
  | zero =>
    intro t p k h _ _ _
    have := csize_pos k
    omega
  | succ m ih =>
    intro t p k hsz hget hall hpar
    match k with
    | CObj.attr n v =>
      apply runs_none
      unfold tyAt
      rw [hget]
    | CObj.node n ty kids =>
      obtain ⟨hty, hkids⟩ := allC_node_inv hall
      subst hty
      have htyat : tyAt t p = some NT.C := tyAt_of_getAt_node hget
      apply runs_step (snt_force_C htyat)
      have hpre : (if !p.isEmpty && (tyAt t p.dropLast = some NT.AN : Bool)
          then [(⟨p.dropLast, NT.CN, Cond.always⟩ : Job)] else []) = [] := by
        rcases hpar with h1 | h1
        · subst h1; rfl
        · simp [h1]
      rw [hpre, List.nil_append]
      have hcj : childJobs t p NT.C Cond.always = kidJobs p NT.C Cond.always 0 kids := by
        unfold childJobs
        rw [hget]
      rw [hcj]
      apply runsSeq_noop
      intro j hj
      right
      rw [Nat.zero_add]
      have hk : kids.get? j = some (kids.get ⟨j, hj⟩) := List.get?_eq_get hj
      have hgk : getAt t (p ++ [j]) = some (kids.get ⟨j, hj⟩) := by
        rw [getAt_child hget j, hk]
      have hsz2 : csize (kids.get ⟨j, hj⟩) ≤ m := by
        have h1 := csize_mem (List.get?_mem hk)
        simp only [csize] at hsz
        omega
      refine ih t (p ++ [j]) (kids.get ⟨j, hj⟩) hsz2 hgk
        (allCL_get? hkids hk) (Or.inr ?_)
      rw [List.dropLast_concat, htyat]
      simp

/-- The conditional child jobs of an AN force-update all skip when no child is
a C node. -/
theorem runsSeq_skip_kids {t : CObj} {p : Pos} {n : String} {kids : List CObj}
    (hget : getAt t p = some (CObj.node n NT.AN kids)) (hnk : noCkids kids = true) :
    RunsSeq t (childJobs t p NT.CN Cond.ifC) (SRes.ok t) := by
  have hcj : childJobs t p NT.CN Cond.ifC = kidJobs p NT.CN Cond.ifC 0 kids := by
    unfold childJobs
    rw [hget]
  rw [hcj]
  apply runsSeq_noop
  intro j hj
  left
  refine ⟨rfl, ?_⟩
  rw [Nat.zero_add]
  unfold tyAt
  rw [getAt_child hget j]
  have hk : kids.get? j = some (kids.get ⟨j, hj⟩) := List.get?_eq_get hj
  rw [hk]
  cases hkk : kids.get ⟨j, hj⟩ with
  | attr n2 v2 => simp
  | node n2 ty2 kk2 =>
    have hne := noCkids_get? hnk (by rw [hk, hkk])
    simp [hne]

/-- An AN force-update on a stable chain is a no-op. -/
theorem runs_noop_AN : ∀ (L : Nat) (t : CObj) (p : Pos) (n : String)
    (kids : List CObj), p.length ≤ L →
    getAt t p = some (CObj.node n NT.AN kids) →
    stA t p = true → noCkids kids = true →
    Runs t p NT.AN (SRes.ok t) := by
  intro L
  induction L with
  | zero =>
    intro t p n kids hlen hget hst hnk
    have hp : p = [] := List.length_eq_zero.mp (by omega)
    subst hp
    apply runs_step (snt_force_AN (tyAt_of_getAt_node hget))
    rw [show (if ([] : Pos).isEmpty then ([] : List Job)
        else [⟨([] : Pos).dropLast, NT.AN, Cond.always⟩]) = [] from rfl,
      List.nil_append]
    exact runsSeq_skip_kids hget hnk
  | succ L ih =>
    intro t p n kids hlen hget hst hnk
    rcases List.eq_nil_or_concat p with rfl | ⟨q, i, rfl⟩
    · apply runs_step (snt_force_AN (tyAt_of_getAt_node hget))
      rw [show (if ([] : Pos).isEmpty then ([] : List Job)
          else [⟨([] : Pos).dropLast, NT.AN, Cond.always⟩]) = [] from rfl,
        List.nil_append]
      exact runsSeq_skip_kids hget hnk
    · rw [List.concat_eq_append] at hlen hget hst ⊢
      apply runs_step (snt_force_AN (tyAt_of_getAt_node hget))
      have hif : (if (q ++ [i]).isEmpty then ([] : List Job)
          else [⟨(q ++ [i]).dropLast, NT.AN, Cond.always⟩])
          = [⟨q, NT.AN, Cond.always⟩] := by
        simp
      rw [hif]
      obtain ⟨hstq, hfacts⟩ := stA_at_prefix q [i] t (by simp) hst
      obtain ⟨n2, ty2, kids2, hgq, k2, hk2, _⟩ := getAt_prefix_node hget
      obtain ⟨hty2, hnk2⟩ := hfacts n2 ty2 kids2 hgq
      subst hty2
      refine runsSeq_append ?_ (runsSeq_skip_kids hget hnk)
      refine runsSeq_cons_fire (by simp) ?_ (runsSeq_nil t)
      exact ih t q n2 kids2 (by simp at hlen; omega) hgq hstq hnk2

/-- Every ancestor of a stable chain absorbs an AN force-update. -/
theorem runs_anc_noop_of_stA {t : CObj} {q : Pos} {u : CObj}
    (hst : stA t q = true) (hval : getAt t q = some u) :
    ∀ a ∈ ancChain q, Runs t a NT.AN (SRes.ok t) := by
  intro a ha
  obtain ⟨i, r, hdec⟩ := ancChain_mem q a ha
  subst hdec
  obtain ⟨n, ty, kids, hga, k, hk, _⟩ := getAt_prefix_node hval
  obtain ⟨hsta, hfacts⟩ := stA_at_prefix a (i :: r) t (by simp) hst
  obtain ⟨hty, hnk⟩ := hfacts n ty kids hga
  subst hty
  exact runs_noop_AN a.length t a n kids le_rfl hga hsta hnk

theorem runsSeq_ancJobs_noop {t : CObj} {q : Pos} {u : CObj}
    (hst : stA t q = true) (hval : getAt t q = some u) :
    RunsSeq t (ancJobs q NT.AN) (SRes.ok t) := by
  apply runsSeq_const_noop
  intro j hj
  unfold ancJobs at hj
  rw [List.mem_map] at hj
  obtain ⟨a, ha, rfl⟩ := hj
  exact ⟨rfl, runs_anc_noop_of_stA hst hval a ha⟩

/-! ## C1: the AN force-update promotion cascade -/

theorem setTy_eq (t : CObj) (p : Pos) (v : NT) : setTy t p v = updAt (tyFun v) t p := by
  unfold setTy
  exact updAt_funext (fun u => by cases u <;> rfl) t p

theorem countC_eq_zero {ks : List CObj} : countC ks = 0 ↔ noCkids ks = true := by
  induction ks with
  | nil => simp [countC, noCkids]
  | cons k ks ih =>
    unfold countC noCkids at ih ⊢
    simp only [List.filter_cons, List.all_cons]
    cases hk : isCNode k
    · simpa using ih
    · simp

theorem tyAt_kid {t : CObj} {q : Pos} {n : String} {ty : NT} {kids : List CObj}
    {i : Nat} {nm : String} {ty2 : NT} {kk : List CObj}
    (hget : getAt t q = some (CObj.node n ty kids))
    (hk : kids.get? i = some (CObj.node nm ty2 kk)) :
    tyAt t (q ++ [i]) = some ty2 := by
  unfold tyAt
  rw [getAt_child hget i, hk]

theorem tyAt_kid_notC {t : CObj} {q : Pos} {n : String} {ty : NT} {kids : List CObj}
    (hget : getAt t q = some (CObj.node n ty kids)) (hnk : noCkids kids = true)
    (x : Nat) : ¬ tyAt t (q ++ [x]) = some NT.C := by
  unfold tyAt
  rw [getAt_child hget x]
  cases hk : kids.get? x with
  | none => simp
  | some k2 =>
    match k2 with
    | CObj.attr n2 v2 => simp
    | CObj.node n2 ty2 kk2 =>
      have hne := noCkids_get? hnk hk
      simp [hne]

theorem getAt_setTy_kid {t : CObj} {q : Pos} {n : String} {ty : NT}
    {kids : List CObj} (hget : getAt t q = some (CObj.node n ty kids))
    (i : Nat) (v : NT) :
    getAt (setTy t (q ++ [i]) v) q
      = some (CObj.node n ty (updKids (tyFun v) kids i [])) := by
  rw [setTy_eq, getAt_updAt_above, hget]
  simp [updAt]

theorem stA_setTy_kid (t : CObj) (q : Pos) (i : Nat) (v : NT) :
    stA (setTy t (q ++ [i]) v) q = stA t q := by
  rw [setTy_eq]
  exact stA_updAt (tyFun v) [i] q t (fun he => absurd he (by simp))

theorem stA_updAt_self (F : CObj → CObj) (q : Pos) (t : CObj)
    (h : ∀ u, getAt t q = some u → isCNode (F u) = isCNode u) :
    stA (updAt F t q) q = stA t q := by
  have h2 := stA_updAt F [] q t (fun _ => h)
  rwa [List.append_nil] at h2

theorem isCNode_promoteKidsF (u : CObj) : isCNode (promoteKidsF u) = isCNode u := by
  match u with
  | CObj.attr n v => rfl
  | CObj.node n ty kids => cases ty <;> rfl

theorem map_promoteC_updKids_CN : ∀ (ks : List CObj) (i : Nat) (k : CObj),
    ks.get? i = some k → isCNode k = true →
    (updKids (tyFun NT.CN) ks i []).map promoteC = ks.map promoteC := by
  intro ks
  induction ks with
  | nil => intro i k h; simp at h
  | cons k2 ks ih =>
    intro i k h hC
    match i with
    | 0 =>
      simp only [List.get?_cons_zero, Option.some.injEq] at h
      subst h
      cases k2 with
      | attr n v => simp [isCNode] at hC
      | node n ty kk =>
        cases ty with
        | C => simp [updKids, updAt, tyFun, promoteC]
        | CN => simp [isCNode] at hC
        | AN => simp [isCNode] at hC
    | j + 1 =>
      simp only [List.get?_cons_succ] at h
      simp only [updKids, List.map_cons]
      rw [ih j k h hC]

theorem countC_updKids_CN : ∀ (ks : List CObj) (i : Nat) (k : CObj),
    ks.get? i = some k → isCNode k = true →
    countC (updKids (tyFun NT.CN) ks i []) + 1 = countC ks := by
  intro ks
  induction ks with
  | nil => intro i k h; simp at h
  | cons k2 ks ih =>
    intro i k h hC
    match i with
    | 0 =>
      simp only [List.get?_cons_zero, Option.some.injEq] at h
      subst h
      cases k2 with
      | attr n v => simp [isCNode] at hC
      | node n ty kk =>
        cases ty with
        | C =>
          simp [updKids, updAt, tyFun, countC, List.filter_cons, isCNode]
        | CN => simp [isCNode] at hC
        | AN => simp [isCNode] at hC
    | j + 1 =>
      simp only [List.get?_cons_succ] at h
      simp only [updKids]
      unfold countC at ih ⊢
      simp only [List.filter_cons]
      cases hk2 : isCNode k2
      · simpa using ih j k h hC
      · have h2 := ih j k h hC
        simp [hk2]
        omega

theorem mem_updKids {F : CObj → CObj} {k2 : CObj} : ∀ (ks : List CObj) (i : Nat)
    (s : Pos), k2 ∈ updKids F ks i s →
    k2 ∈ ks ∨ ∃ k0, ks.get? i = some k0 ∧ k2 = updAt F k0 s := by
  intro ks
  induction ks with
  | nil => intro i s h; simp [updKids] at h
  | cons k ks ih =>
    intro i s h
    match i with
    | 0 =>
      simp only [updKids] at h
      rcases List.mem_cons.mp h with h1 | h1
      · exact Or.inr ⟨k, rfl, h1⟩
      · exact Or.inl (List.mem_cons_of_mem _ h1)
    | j + 1 =>
      simp only [updKids] at h
      rcases List.mem_cons.mp h with h1 | h1
      · exact Or.inl (by simp [h1])
      · rcases ih j s h1 with h2 | ⟨k0, hk0, he⟩
        · exact Or.inl (List.mem_cons_of_mem _ h2)
        · exact Or.inr ⟨k0, by simpa using hk0, he⟩

theorem cRaw_tyFun_CN (k : CObj) : cRaw (tyFun NT.CN k) = true := by
  match k with
  | CObj.attr n v => rfl
  | CObj.node n ty kids => rfl

theorem promote_setTy_collapse {t : CObj} {q : Pos} {n : String} {kids : List CObj}
    {i : Nat} {k : CObj} (hget : getAt t q = some (CObj.node n NT.AN kids))
    (hk : kids.get? i = some k) (hkC : isCNode k = true) :
    updAt promoteKidsF (setTy t (q ++ [i]) NT.CN) q = updAt promoteKidsF t q := by
  rw [setTy_eq, updAt_append, updAt_updAt]
  apply updAt_congr
  intro u hu
  rw [hget] at hu
  cases hu
  show promoteKidsF (updAt (tyFun NT.CN) (CObj.node n NT.AN kids) [i])
      = promoteKidsF (CObj.node n NT.AN kids)
  have h1 : updAt (tyFun NT.CN) (CObj.node n NT.AN kids) [i]
      = CObj.node n NT.AN (updKids (tyFun NT.CN) kids i []) := by
    simp [updAt]
  rw [h1]
  show CObj.node n NT.AN ((updKids (tyFun NT.CN) kids i []).map promoteC)
      = CObj.node n NT.AN (kids.map promoteC)
  rw [map_promoteC_updKids_CN kids i k hk hkC]

theorem getAt_updAt_promote {t : CObj} {q : Pos} {n : String} {kids : List CObj}
    (hget : getAt t q = some (CObj.node n NT.AN kids)) :
    getAt (updAt promoteKidsF t q) q
      = some (CObj.node n NT.AN (kids.map promoteC)) := by
  rw [getAt_updAt_self, hget]
  rfl

/-- The child-job walk of an AN force-update: the first C child fires, its
transition re-runs the AN force-update above with one C child fewer, which
promotes every C child at once; all other jobs skip. -/
theorem runsSeq_fan_kids (c : Nat)
    (hFan : ∀ (t : CObj) (q : Pos) (n : String) (kids : List CObj),
      countC kids ≤ c → getAt t q = some (CObj.node n NT.AN kids) →
      stA t q = true → (∀ k ∈ kids, cRaw k = true) →
      Runs t q NT.AN (SRes.ok (updAt promoteKidsF t q))) :
    ∀ (ks : List CObj) (t : CObj) (q : Pos) (n : String) (kids : List CObj)
    (i : Nat), countC kids ≤ c + 1 →
    getAt t q = some (CObj.node n NT.AN kids) → stA t q = true →
    (∀ k ∈ kids, cRaw k = true) →
    noCkids (kids.take i) = true →
    kids.drop i = ks →
    RunsSeq t (kidJobs q NT.CN Cond.ifC i ks) (SRes.ok (updAt promoteKidsF t q)) := by
  intro ks
  induction ks with
  | nil =>
    intro t q n kids i hc hget hst hraw htake hdrop
    have hkids : noCkids kids = true := by
      have := List.take_append_drop i kids
      rw [hdrop, List.append_nil] at this
      rwa [this] at htake
    have hfix : updAt promoteKidsF t q = t :=
      updAt_fix hget (by simp [promoteKidsF, map_promoteC_id hkids])
    rw [hfix]
    exact runsSeq_nil t
  | cons k ks2 ih =>
    intro t q n kids i hc hget hst hraw htake hdrop
    have hk : kids.get? i = some k := by
      have h1 : (kids.drop i).get? 0 = some k := by rw [hdrop]; rfl
      rwa [List.get?_drop, Nat.add_zero] at h1
    have hilen : i < kids.length := by
      by_contra hcon
      rw [List.get?_eq_none.mpr (by omega)] at hk
      cases hk
    have htake1 : kids.take (i + 1) = kids.take i ++ [k] := by
      have hk2 : kids[i]? = some k := by simpa using hk
      rw [List.take_succ, hk2]
      rfl
    have hdrop1 : kids.drop (i + 1) = ks2 := by
      have h1 : kids.drop (i + 1) = (kids.drop i).drop 1 := by
        rw [List.drop_drop, Nat.add_comm]
      rw [h1, hdrop]
      rfl
    simp only [kidJobs]
    cases hCk : isCNode k with
    | false =>
      -- skip this job
      have hnotC : ¬ tyAt t (q ++ [i]) = some NT.C := by
        unfold tyAt
        rw [getAt_child hget i, hk]
        match k with
        | CObj.attr n2 v2 => simp
        | CObj.node n2 ty2 kk2 =>
          match ty2 with
          | NT.C => simp [isCNode] at hCk
          | NT.CN => simp
          | NT.AN => simp
      refine runsSeq_cons_skip rfl hnotC ?_
      refine ih t q n kids (i + 1) hc hget hst hraw ?_ hdrop1
      rw [htake1]
      unfold noCkids at htake ⊢
      rw [List.all_append, htake]
      simp [hCk]
    | true =>
      -- the job fires: C -> CN transition at the child, cascading to q
      have htyk : tyAt t (q ++ [i]) = some NT.C := by
        match k with
        | CObj.attr n2 v2 => simp [isCNode] at hCk
        | CObj.node n2 ty2 kk2 =>
          match ty2 with
          | NT.C => exact tyAt_kid hget hk
          | NT.CN => simp [isCNode] at hCk
          | NT.AN => simp [isCNode] at hCk
      have hgett1 := getAt_setTy_kid hget i NT.CN
      have hkids1raw : ∀ k2 ∈ updKids (tyFun NT.CN) kids i [], cRaw k2 = true := by
        intro k2 hk2
        rcases mem_updKids _ i [] hk2 with h1 | ⟨k0, hk0, he⟩
        · exact hraw k2 h1
        · subst he
          have : updAt (tyFun NT.CN) k0 [] = tyFun NT.CN k0 := by simp [updAt]
          rw [this]
          exact cRaw_tyFun_CN k0
      have hcount1 : countC (updKids (tyFun NT.CN) kids i []) ≤ c := by
        have := countC_updKids_CN kids i k hk hCk
        omega
      have hst1 : stA (setTy t (q ++ [i]) NT.CN) q = stA t q := stA_setTy_kid t q i NT.CN
      have hq1 := hFan (setTy t (q ++ [i]) NT.CN) q n (updKids (tyFun NT.CN) kids i [])
        hcount1 hgett1 (by rw [hst1]; exact hst) hkids1raw
      rw [promote_setTy_collapse hget hk hCk] at hq1
      -- after the cascade everything above and at q is stable
      have hgett2 := getAt_updAt_promote hget
      have hst2 : stA (updAt promoteKidsF t q) q = stA t q :=
        stA_updAt_self promoteKidsF q t (fun u hu => by rw [isCNode_promoteKidsF])
      have hkidrun : Runs t (q ++ [i]) NT.CN (SRes.ok (updAt promoteKidsF t q)) := by
        apply runs_step (snt_trans_C_CN htyk)
        rw [ancJobs_snoc]
        refine runsSeq_cons_fire (by simp) hq1 ?_
        exact runsSeq_ancJobs_noop (by rw [hst2]; exact hst) hgett2
      refine runsSeq_cons_fire (fun hcon => hcon.2 htyk) hkidrun ?_
      -- remaining jobs all skip: every C child is already promoted
      apply runsSeq_noop
      intro j hj
      left
      exact ⟨rfl, tyAt_kid_notC hgett2 (noCkids_map_promoteC kids) (i + 1 + j)⟩

/-- AN force-update at a stable AN node with raw C children: every C child
becomes CN, nothing else changes. -/
theorem runs_force_AN_promote : ∀ (c : Nat) (t : CObj) (q : Pos) (n : String)
    (kids : List CObj), countC kids ≤ c →
    getAt t q = some (CObj.node n NT.AN kids) → stA t q = true →
    (∀ k ∈ kids, cRaw k = true) →
    Runs t q NT.AN (SRes.ok (updAt promoteKidsF t q)) := by
  intro c
  induction c with
  | zero =>
    intro t q n kids hc hget hst hraw
    have hnk : noCkids kids = true := countC_eq_zero.mp (by omega)
    have hfix : updAt promoteKidsF t q = t :=
      updAt_fix hget (by simp [promoteKidsF, map_promoteC_id hnk])
    rw [hfix]
    exact runs_noop_AN q.length t q n kids le_rfl hget hst hnk
  | succ c ih =>
    intro t q n kids hc hget hst hraw
    have hwalk := runsSeq_fan_kids c ih kids t q n kids 0 hc hget hst hraw rfl rfl
    apply runs_step (snt_force_AN (tyAt_of_getAt_node hget))
    have hcj : childJobs t q NT.CN Cond.ifC = kidJobs q NT.CN Cond.ifC 0 kids := by
      unfold childJobs
      rw [hget]
    rw [hcj]
    rcases List.eq_nil_or_concat q with rfl | ⟨b, xb, rfl⟩
    · rw [show (if ([] : Pos).isEmpty then ([] : List Job)
          else [⟨([] : Pos).dropLast, NT.AN, Cond.always⟩]) = [] from rfl,
        List.nil_append]
      exact hwalk
    · rw [List.concat_eq_append] at hget hst hwalk ⊢
      have hif : (if (b ++ [xb]).isEmpty then ([] : List Job)
          else [⟨(b ++ [xb]).dropLast, NT.AN, Cond.always⟩])
          = [⟨b, NT.AN, Cond.always⟩] := by
        simp
      rw [hif]
      obtain ⟨hstb, hfacts⟩ := stA_at_prefix b [xb] t (by simp) hst
      obtain ⟨n2, ty2, kids2, hgb, k2, hk2b, _⟩ := getAt_prefix_node hget
      obtain ⟨hty2, hnk2⟩ := hfacts n2 ty2 kids2 hgb
      subst hty2
      refine runsSeq_append ?_ hwalk
      refine runsSeq_cons_fire (by simp) ?_ (runsSeq_nil t)
      exact runs_noop_AN b.length t b n2 kids2 le_rfl hgb hstb hnk2

/-- Retyping a raw C child of a stable AN node to CN promotes every raw C
sibling as well (the C→CN transition's parent walk re-runs the AN force
update at the parent). -/
theorem runs_kid_CN {t : CObj} {q : Pos} {n : String} {kids : List CObj} {i : Nat}
    {k : CObj} (hget : getAt t q = some (CObj.node n NT.AN kids))
    (hst : stA t q = true) (hraw : ∀ k2 ∈ kids, cRaw k2 = true)
    (hk : kids.get? i = some k) (hkC : isCNode k = true) :
    Runs t (q ++ [i]) NT.CN (SRes.ok (updAt promoteKidsF t q)) := by
  have htyk : tyAt t (q ++ [i]) = some NT.C := by
    cases k with
    | attr n2 v2 => simp [isCNode] at hkC
    | node n2 ty2 kk2 =>
      cases ty2 with
      | C => exact tyAt_kid hget hk
      | CN => simp [isCNode] at hkC
      | AN => simp [isCNode] at hkC
  have hgett1 := getAt_setTy_kid hget i NT.CN
  have hkids1raw : ∀ k2 ∈ updKids (tyFun NT.CN) kids i [], cRaw k2 = true := by
    intro k2 hk2
    rcases mem_updKids _ i [] hk2 with h1 | ⟨k0, hk0, he⟩
    · exact hraw k2 h1
    · subst he
      have h3 : updAt (tyFun NT.CN) k0 [] = tyFun NT.CN k0 := by simp [updAt]
      rw [h3]
      exact cRaw_tyFun_CN k0
  have hst1 : stA (setTy t (q ++ [i]) NT.CN) q = stA t q := stA_setTy_kid t q i NT.CN
  have hq1 := runs_force_AN_promote (countC (updKids (tyFun NT.CN) kids i []))
    (setTy t (q ++ [i]) NT.CN) q n (updKids (tyFun NT.CN) kids i []) le_rfl
    hgett1 (by rw [hst1]; exact hst) hkids1raw
  rw [promote_setTy_collapse hget hk hkC] at hq1
  have hgett2 := getAt_updAt_promote hget
  have hst2 : stA (updAt promoteKidsF t q) q = stA t q :=
    stA_updAt_self promoteKidsF q t (fun u hu => by rw [isCNode_promoteKidsF])
  apply runs_step (snt_trans_C_CN htyk)
  rw [ancJobs_snoc]
  refine runsSeq_cons_fire (by simp) hq1 ?_
  exact runsSeq_ancJobs_noop (by rw [hst2]; exact hst) hgett2

/-- A CN force-update on a fully promoted child of a stable AN node re-runs
the parent's AN force-update (promoting raw C siblings) and leaves the child
subtree unchanged. -/
theorem runs_kid_done_CN {t : CObj} {q : Pos} {n : String} {kids : List CObj}
    {i : Nat} {nm : String} {kk : List CObj}
    (hget : getAt t q = some (CObj.node n NT.AN kids)) (hst : stA t q = true)
    (hraw : ∀ k2 ∈ kids, cRaw k2 = true)
    (hk : kids.get? i = some (CObj.node nm NT.CN kk)) (hallk : allCL kk = true) :
    Runs t (q ++ [i]) NT.CN (SRes.ok (updAt promoteKidsF t q)) := by
  have htyk : tyAt t (q ++ [i]) = some NT.CN := tyAt_kid hget hk
  apply runs_step (snt_force_CN htyk)
  have hif : (if (q ++ [i]).isEmpty then ([] : List Job)
      else [⟨(q ++ [i]).dropLast, NT.AN, Cond.always⟩])
      = [⟨q, NT.AN, Cond.always⟩] := by
    simp
  rw [hif]
  have hgk : getAt t (q ++ [i]) = some (CObj.node nm NT.CN kk) := by
    rw [getAt_child hget i, hk]
  have hcj : childJobs t (q ++ [i]) NT.C Cond.always
      = kidJobs (q ++ [i]) NT.C Cond.always 0 kk := by
    unfold childJobs
    rw [hgk]
  rw [hcj]
  have hq1 := runs_force_AN_promote (countC kids) t q n kids le_rfl hget hst hraw
  refine runsSeq_append (runsSeq_cons_fire (by simp) hq1 (runsSeq_nil _)) ?_
  have hgett2 := getAt_updAt_promote hget
  have hgk2 : getAt (updAt promoteKidsF t q) (q ++ [i])
      = some (CObj.node nm NT.CN kk) := by
    rw [getAt_child hgett2 i, List.get?_map, hk]
    rfl
  apply runsSeq_noop
  intro j hj
  right
  rw [Nat.zero_add]
  have hkj : kk.get? j = some (kk.get ⟨j, hj⟩) := List.get?_eq_get hj
  have hgkj : getAt (updAt promoteKidsF t q) ((q ++ [i]) ++ [j])
      = some (kk.get ⟨j, hj⟩) := by
    rw [getAt_child hgk2 j, hkj]
  refine runs_noop_C (csize (kk.get ⟨j, hj⟩)) _ _ _ le_rfl hgkj
    (allCL_get? hallk hkj) (Or.inr ?_)
  rw [List.dropLast_concat, tyAt_of_getAt_node hgk2]
  simp

/-! ## C1: the C demotion walk -/

theorem mkAllCL_length : ∀ (ks : List CObj), (mkAllCL ks).length = ks.length := by
  intro ks
  induction ks with
  | nil => rfl
  | cons k ks ih => simp [mkAllCL, ih]

theorem mkAllCL_append : ∀ (as bs : List CObj),
    mkAllCL (as ++ bs) = mkAllCL as ++ mkAllCL bs := by
  intro as bs
  induction as with
  | nil => rfl
  | cons a as ih => simp [mkAllCL, ih]

theorem hasCNanc_updAt_below (F : CObj → CObj) (z ext : Pos) (hext : ext ≠ [])
    (t : CObj) : hasCNanc (updAt F t (z ++ ext)) z = hasCNanc t z := by
  apply hasCNanc_congr
  intro q hq
  obtain ⟨e, r, hdec⟩ := ancChain_mem z q hq
  subst hdec
  match ext with
  | [] => exact absurd rfl hext
  | x :: ext2 =>
    have h1 : (q ++ e :: r) ++ x :: ext2 = q ++ e :: (r ++ x :: ext2) := by simp
    rw [h1]
    exact (tyAt_updAt_strict_below q F t e (r ++ x :: ext2)).1

theorem updAt_const_absorb (v : CObj) (G : CObj → CObj) (t : CObj) (z : Pos) :
    updAt (fun _ => v) (updAt G t z) z = updAt (fun _ => v) t z := by
  rw [updAt_updAt]

/-- The child walk of a C demotion at a non-AN node: all-C children are
no-ops, children satisfying the demotable predicate `P` are retyped to all-C
subtrees by the capability `hP`. -/
theorem runsSeq_walk_demote (M : Nat) (P : CObj → Bool)
    (hP : ∀ (t : CObj) (z : Pos) (x : CObj), csize x ≤ M → getAt t z = some x →
      P x = true → hasCNanc t z = true → ¬ tyAt t z.dropLast = some NT.AN →
      Runs t z NT.C (SRes.ok (updAt mkAllC t z))) :
    ∀ (ks : List CObj) (t : CObj) (z : Pos) (n : String) (ty : NT)
    (kids : List CObj) (i : Nat),
    csizeL kids ≤ M →
    ty ≠ NT.AN →
    (ty = NT.CN ∨ hasCNanc t z = true) →
    (∀ k ∈ kids, allC k = true ∨ P k = true) →
    getAt t z = some (CObj.node n ty (mkAllCL (kids.take i) ++ kids.drop i)) →
    kids.drop i = ks →
    RunsSeq t (kidJobs z NT.C Cond.always i ks)
      (SRes.ok (updAt (fun _ => CObj.node n ty (mkAllCL kids)) t z)) := by
  intro ks
  induction ks with
  | nil =>
    intro t z n ty kids i hM htyA hcn hkc hget hdrop
    have hki : kids.take i = kids :=
      List.take_of_length_le (List.drop_eq_nil_iff.mp hdrop)
    rw [hdrop, List.append_nil, hki] at hget
    have hfix : updAt (fun _ => CObj.node n ty (mkAllCL kids)) t z = t :=
      updAt_fix hget rfl
    rw [hfix]
    exact runsSeq_nil t
  | cons k ks2 ih =>
    intro t z n ty kids i hM htyA hcn hkc hget hdrop
    have hk : kids.get? i = some k := by
      have h1 : (kids.drop i).get? 0 = some k := by rw [hdrop]; rfl
      rwa [List.get?_drop, Nat.add_zero] at h1
    have hilen : i < kids.length := by
      by_contra hcon
      rw [List.get?_eq_none.mpr (by omega)] at hk
      cases hk
    have hlen2 : (mkAllCL (kids.take i)).length = i := by
      rw [mkAllCL_length, List.length_take]
      omega
    have htake1 : kids.take (i + 1) = kids.take i ++ [k] := by
      have hk2 : kids[i]? = some k := by simpa using hk
      rw [List.take_succ, hk2]
      rfl
    have hdrop1 : kids.drop (i + 1) = ks2 := by
      have h1 : kids.drop (i + 1) = (kids.drop i).drop 1 := by
        rw [List.drop_drop, Nat.add_comm]
      rw [h1, hdrop]
      rfl
    have hkentry : (mkAllCL (kids.take i) ++ kids.drop i).get? i = some k := by
      rw [List.get?_append_right (by omega), hlen2, hdrop]
      simp
    have hgk : getAt t (z ++ [i]) = some k := by
      rw [getAt_child hget i, hkentry]
    have hmem : k ∈ kids := List.get?_mem hk
    have htyz : tyAt t z = some ty := tyAt_of_getAt_node hget
    have hparne : ¬ tyAt t (z ++ [i]).dropLast = some NT.AN := by
      rw [List.dropLast_concat, htyz]
      intro hcon
      exact htyA (by injection hcon)
    simp only [kidJobs]
    rcases hkc k hmem with hak | hpk
    · -- all-C child: no-op, state unchanged
      have hrun : Runs t (z ++ [i]) NT.C (SRes.ok t) :=
        runs_noop_C (csize k) t (z ++ [i]) k le_rfl hgk hak (Or.inr hparne)
      refine runsSeq_cons_fire (by simp) hrun ?_
      refine ih t z n ty kids (i + 1) hM htyA hcn hkc ?_ hdrop1
      rw [htake1, mkAllCL_append, hdrop1]
      have h5 : mkAllCL [k] = [k] := by simp [mkAllCL, mkAllC_id hak]
      rw [h5, show mkAllCL (kids.take i) ++ [k] ++ ks2
        = mkAllCL (kids.take i) ++ (k :: ks2) by simp, ← hdrop]
      exact hget
    · -- demotable child: hP retypes its subtree to all-C
      have hcnk : hasCNanc t (z ++ [i]) = true := by
        rw [hasCNanc_snoc]
        rcases hcn with h1 | h1
        · subst h1
          rw [htyz]
          simp
        · rw [h1]
          simp
      have hszk : csize k ≤ M := le_trans (csize_mem hmem) hM
      have hrun := hP t (z ++ [i]) k hszk hgk hpk hcnk hparne
      refine runsSeq_cons_fire (by simp) hrun ?_
      -- describe the new state
      have hget3 : getAt (updAt mkAllC t (z ++ [i])) z
          = some (CObj.node n ty (mkAllCL (kids.take (i + 1)) ++ kids.drop (i + 1))) := by
        rw [getAt_updAt_above, hget]
        simp only [Option.map_some']
        have h2 : updAt mkAllC (CObj.node n ty (mkAllCL (kids.take i) ++ kids.drop i)) [i]
            = CObj.node n ty
                (updKids mkAllC (mkAllCL (kids.take i) ++ kids.drop i) i []) := by
          simp [updAt]
        rw [h2]
        have h3 := updKids_append_len mkAllC (mkAllCL (kids.take i)) k ks2 []
        rw [hlen2] at h3
        rw [hdrop, h3, htake1, mkAllCL_append, hdrop1]
        have h4 : updAt mkAllC k [] = mkAllC k := by simp [updAt]
        simp [mkAllCL, h4]
      have hcn3 : ty = NT.CN ∨ hasCNanc (updAt mkAllC t (z ++ [i])) z = true := by
        rcases hcn with h1 | h1
        · exact Or.inl h1
        · right
          rw [hasCNanc_updAt_below mkAllC z [i] (by simp) t]
          exact h1
      have hnext := ih (updAt mkAllC t (z ++ [i])) z n ty kids (i + 1)
        hM htyA hcn3 hkc hget3 hdrop1
      have habs : updAt (fun _ => CObj.node n ty (mkAllCL kids))
            (updAt mkAllC t (z ++ [i])) z
          = updAt (fun _ => CObj.node n ty (mkAllCL kids)) t z := by
        rw [updAt_append, updAt_const_absorb]
      rw [habs] at hnext
      exact hnext

/-- Demoting a dirty subtree to C retypes the whole subtree to C (always
succeeds: the CN ancestor the check needs is present). -/
theorem runs_demote : ∀ (m : Nat) (t : CObj) (z : Pos) (x : CObj),
    csize x ≤ m → getAt t z = some x → dirty x = true → hasCNanc t z = true →
    Runs t z NT.C (SRes.ok (updAt mkAllC t z)) := by
  intro m
  induction m with
  | zero =>
    intro t z x hsz _ _ _
    have := csize_pos x
    omega
  | succ m ih =>
    intro t z x hsz hget hd hcn
    cases x with
    | attr n v => simp [dirty] at hd
    | node n ty kids =>
      cases ty with
      | C => simp [dirty] at hd
      | CN =>
        have htyz : tyAt t z = some NT.CN := tyAt_of_getAt_node hget
        have hall : allCL kids = true := hd
        apply runs_step (snt_trans_CN_C_ok htyz hcn)
        have hfin : setTy t z NT.C = updAt mkAllC t z := by
          rw [setTy_eq]
          apply updAt_congr
          intro u hu
          rw [hget] at hu
          cases hu
          show tyFun NT.C (CObj.node n NT.CN kids) = mkAllC (CObj.node n NT.CN kids)
          simp [tyFun, mkAllC, mkAllCL_id hall]
        rw [← hfin]
        exact runsSeq_nil _
      | AN =>
        have htyz : tyAt t z = some NT.AN := tyAt_of_getAt_node hget
        apply runs_step (snt_trans_AN_C_ok htyz hcn)
        have hgt1 : getAt (setTy t z NT.C) z = some (CObj.node n NT.C kids) := by
          rw [setTy_eq, getAt_updAt_self, hget]
          rfl
        have hcj : childJobs (setTy t z NT.C) z NT.C Cond.always
            = kidJobs z NT.C Cond.always 0 kids := by
          unfold childJobs
          rw [hgt1]
        rw [hcj]
        have hkcond : ∀ k ∈ kids, allC k = true ∨ dirty k = true := by
          have hd2 : (allCL kids || dirtyL kids) = true := hd
          rcases Bool.or_eq_true_iff.mp hd2 with h1 | h1
          · intro k hk
            exact Or.inl (allCL_mem h1 k hk)
          · exact dirtyL_mem h1
        have hM : csizeL kids ≤ m := by
          simp only [csize] at hsz
          omega
        have hcn1 : hasCNanc (setTy t z NT.C) z = true := by
          rw [hasCNanc_setTy]
          exact hcn
        have hwalk := runsSeq_walk_demote m dirty
          (fun t2 z2 x2 hs hg hx hc _ => ih t2 z2 x2 hs hg hx hc)
          kids (setTy t z NT.C) z n NT.C kids 0 hM (by simp) (Or.inr hcn1) hkcond
          (by simpa using hgt1) rfl
        have hfin : updAt (fun _ => CObj.node n NT.C (mkAllCL kids)) (setTy t z NT.C) z
            = updAt mkAllC t z := by
          rw [setTy_eq, updAt_updAt]
          apply updAt_congr
          intro u hu
          rw [hget] at hu
          cases hu
          rfl
        rw [hfin] at hwalk
        exact hwalk

/-- Demoting a consistent subtree to C (used by the AN→CN transition's child
walk) retypes the whole subtree to C. -/
theorem runs_demote_cons : ∀ (m : Nat) (t : CObj) (z : Pos) (x : CObj),
    csize x ≤ m → getAt t z = some x → consB x = true → hasCNanc t z = true →
    ¬ tyAt t z.dropLast = some NT.AN →
    Runs t z NT.C (SRes.ok (updAt mkAllC t z)) := by
  intro m
  induction m with
  | zero =>
    intro t z x hsz _ _ _ _
    have := csize_pos x
    omega
  | succ m ih =>
    intro t z x hsz hget hcons hcn hpar
    cases x with
    | attr n v =>
      have hfix : updAt mkAllC t z = t := updAt_fix hget rfl
      rw [hfix]
      apply runs_none
      unfold tyAt
      rw [hget]
    | node n ty kids =>
      cases ty with
      | C =>
        have hall := consB_allC hcons
        have hfix : updAt mkAllC t z = t := updAt_fix hget (mkAllC_id hall)
        rw [hfix]
        exact runs_noop_C (csize (CObj.node n NT.C kids)) t z _ le_rfl hget hall
          (Or.inr hpar)
      | CN =>
        have htyz : tyAt t z = some NT.CN := tyAt_of_getAt_node hget
        have hall : allCL kids = true :=
          consL_allCL_aux (csizeL kids) NT.CN kids le_rfl (Or.inr rfl) hcons
        apply runs_step (snt_trans_CN_C_ok htyz hcn)
        have hfin : setTy t z NT.C = updAt mkAllC t z := by
          rw [setTy_eq]
          apply updAt_congr
          intro u hu
          rw [hget] at hu
          cases hu
          show tyFun NT.C (CObj.node n NT.CN kids) = mkAllC (CObj.node n NT.CN kids)
          simp [tyFun, mkAllC, mkAllCL_id hall]
        rw [← hfin]
        exact runsSeq_nil _
      | AN =>
        have htyz : tyAt t z = some NT.AN := tyAt_of_getAt_node hget
        apply runs_step (snt_trans_AN_C_ok htyz hcn)
        have hgt1 : getAt (setTy t z NT.C) z = some (CObj.node n NT.C kids) := by
          rw [setTy_eq, getAt_updAt_self, hget]
          rfl
        have hcj : childJobs (setTy t z NT.C) z NT.C Cond.always
            = kidJobs z NT.C Cond.always 0 kids := by
          unfold childJobs
          rw [hgt1]
        rw [hcj]
        have hkcond : ∀ k ∈ kids, allC k = true ∨ consB k = true := by
          intro k hk
          exact Or.inr (consL_mem hcons k hk).2
        have hM : csizeL kids ≤ m := by
          simp only [csize] at hsz
          omega
        have hcn1 : hasCNanc (setTy t z NT.C) z = true := by
          rw [hasCNanc_setTy]
          exact hcn
        have hwalk := runsSeq_walk_demote m consB
          (fun t2 z2 x2 hs hg hx hc hnp => ih t2 z2 x2 hs hg hx hc hnp)
          kids (setTy t z NT.C) z n NT.C kids 0 hM (by simp) (Or.inr hcn1) hkcond
          (by simpa using hgt1) rfl
        have hfin : updAt (fun _ => CObj.node n NT.C (mkAllCL kids)) (setTy t z NT.C) z
            = updAt mkAllC t z := by
          rw [setTy_eq, updAt_updAt]
          apply updAt_congr
          intro u hu
          rw [hget] at hu
          cases hu
          rfl
        rw [hfin] at hwalk
        exact hwalk

/-- Retyping an AN-dirty node to CN demotes its whole subtree below the node
to C (the AN→CN transition retypes children to C, recursively); no parent is
touched. -/
theorem runs_dirty_CN {t : CObj} {y : Pos} {dn : String} {dkids : List CObj}
    (hget : getAt t y = some (CObj.node dn NT.AN dkids))
    (hd : (allCL dkids || dirtyL dkids) = true) :
    Runs t y NT.CN (SRes.ok (updAt casKid t y)) := by
  have htyz : tyAt t y = some NT.AN := tyAt_of_getAt_node hget
  apply runs_step (snt_trans_AN_CN htyz)
  have hgt1 : getAt (setTy t y NT.CN) y = some (CObj.node dn NT.CN dkids) := by
    rw [setTy_eq, getAt_updAt_self, hget]
    rfl
  have hcj : childJobs (setTy t y NT.CN) y NT.C Cond.always
      = kidJobs y NT.C Cond.always 0 dkids := by
    unfold childJobs
    rw [hgt1]
  rw [hcj]
  have hkcond : ∀ k ∈ dkids, allC k = true ∨ dirty k = true := by
    rcases Bool.or_eq_true_iff.mp hd with h1 | h1
    · intro k hk
      exact Or.inl (allCL_mem h1 k hk)
    · exact dirtyL_mem h1
  have hwalk := runsSeq_walk_demote (csizeL dkids) dirty
    (fun t2 z2 x2 hs hg hx hc _ => runs_demote (csizeL dkids) t2 z2 x2 hs hg hx hc)
    dkids (setTy t y NT.CN) y dn NT.CN dkids 0 le_rfl (by simp) (Or.inl rfl) hkcond
    (by simpa using hgt1) rfl
  have hfin : updAt (fun _ => CObj.node dn NT.CN (mkAllCL dkids)) (setTy t y NT.CN) y
      = updAt casKid t y := by
    rw [setTy_eq, updAt_updAt]
    apply updAt_congr
    intro u hu
    rw [hget] at hu
    cases hu
    rfl
  rw [hfin] at hwalk
  exact hwalk

/-! ## C1: the CN-target promotion sequence -/

theorem seqKidOK_cRaw {k : CObj} (h : seqKidOK k = true) : cRaw k = true := by
  cases k with
  | attr n v => rfl
  | node n ty kk =>
    cases ty with
    | C =>
      have hall : allCL kk = true := h
      simp [cRaw, isCNode, allC, hall]
    | CN => rfl
    | AN => rfl

theorem seqKidOK_casKid (k : CObj) : seqKidOK (casKid k) = true := by
  cases k with
  | attr n v => rfl
  | node n ty kk =>
    show seqKidOK (CObj.node n NT.CN (mkAllCL kk)) = true
    exact mkAllCL_allCL kk

theorem getAt_updAt_kid {t : CObj} {q : Pos} {n : String} {ty : NT}
    {kids : List CObj} (hget : getAt t q = some (CObj.node n ty kids))
    (i : Nat) (F : CObj → CObj) :
    getAt (updAt F t (q ++ [i])) q
      = some (CObj.node n ty (updKids F kids i [])) := by
  rw [getAt_updAt_above, hget]
  simp [updAt]

theorem stA_updAt_kid (F : CObj → CObj) (t : CObj) (q : Pos) (i : Nat) :
    stA (updAt F t (q ++ [i])) q = stA t q :=
  stA_updAt F [i] q t (fun he => absurd he (by simp))

theorem map_casKid_updKids : ∀ (ks : List CObj) (i : Nat),
    (updKids casKid ks i []).map casKid = ks.map casKid := by
  intro ks
  induction ks with
  | nil => intro i; simp [updKids]
  | cons k ks ih =>
    intro i
    match i with
    | 0 =>
      simp only [updKids, List.map_cons]
      congr 1
      have h1 : updAt casKid k [] = casKid k := by simp [updAt]
      rw [h1, casKid_idem]
    | j + 1 =>
      simp only [updKids, List.map_cons]
      rw [ih j]

theorem casKids_promote_collapse {t : CObj} {q : Pos} {n : String}
    {kids : List CObj} (hget : getAt t q = some (CObj.node n NT.AN kids)) :
    updAt casKidsF (updAt promoteKidsF t q) q = updAt casKidsF t q := by
  rw [updAt_updAt]
  apply updAt_congr
  intro u hu
  rw [hget] at hu
  cases hu
  show casKidsF (CObj.node n NT.AN (kids.map promoteC))
      = casKidsF (CObj.node n NT.AN kids)
  show CObj.node n NT.AN ((kids.map promoteC).map casKid)
      = CObj.node n NT.AN (kids.map casKid)
  rw [List.map_map]
  congr 1
  exact List.map_congr_left (fun k _ => casKid_promoteC k)

theorem casKids_casKid_collapse {t : CObj} {q : Pos} {n : String}
    {kids : List CObj} (hget : getAt t q = some (CObj.node n NT.AN kids))
    (i : Nat) :
    updAt casKidsF (updAt casKid t (q ++ [i])) q = updAt casKidsF t q := by
  rw [updAt_append, updAt_updAt]
  apply updAt_congr
  intro u hu
  rw [hget] at hu
  cases hu
  have h1 : updAt casKid (CObj.node n NT.AN kids) [i]
      = CObj.node n NT.AN (updKids casKid kids i []) := by
    simp [updAt]
  rw [h1]
  show CObj.node n NT.AN ((updKids casKid kids i []).map casKid)
      = CObj.node n NT.AN (kids.map casKid)
  rw [map_casKid_updKids]

theorem runsSeq_promote_kids_done {t : CObj} {q : Pos} {n : String}
    {kids : List CObj} {i : Nat}
    (hget : getAt t q = some (CObj.node n NT.AN kids))
    (hpost : ∀ k ∈ kids, postKid k = true) (hdrop : kids.drop i = []) :
    RunsSeq t (kidJobs q NT.CN Cond.always i (kids.drop i))
      (SRes.ok (updAt casKidsF t q)) := by
  have hfix : updAt casKidsF t q = t := by
    apply updAt_fix hget
    show CObj.node n NT.AN (kids.map casKid) = CObj.node n NT.AN kids
    congr 1
    calc kids.map casKid
        = kids.map id := List.map_congr_left (fun k hk => casKid_of_postKid (hpost k hk))
      _ = kids := List.map_id kids
  rw [hfix, hdrop]
  exact runsSeq_nil t

/-- Re-typing the children of a stable AN node to CN in sequence ends with
every child in its cascade final state (raw C children promoted, promoted
children unchanged, AN-dirty children demoted to CN over all-C subtrees). -/
theorem runsSeq_promote_kids : ∀ (m : Nat) (t : CObj) (q : Pos) (n : String)
    (kids : List CObj) (i : Nat),
    kids.length ≤ i + m →
    getAt t q = some (CObj.node n NT.AN kids) →
    stA t q = true →
    (∀ k ∈ kids, seqKidOK k = true) →
    (∀ k ∈ kids.take i, postKid k = true) →
    RunsSeq t (kidJobs q NT.CN Cond.always i (kids.drop i))
      (SRes.ok (updAt casKidsF t q)) := by
  intro m
  induction m with
  | zero =>
    intro t q n kids i hlen hget hst hok hpost
    have hdrop : kids.drop i = [] := List.drop_eq_nil_iff.mpr (by omega)
    have htk : kids.take i = kids := List.take_of_length_le (by omega)
    rw [htk] at hpost
    exact runsSeq_promote_kids_done hget hpost hdrop
  | succ m ih =>
    intro t q n kids i hlen hget hst hok hpost
    cases hdrop : kids.drop i with
    | nil =>
      have htk : kids.take i = kids :=
        List.take_of_length_le (List.drop_eq_nil_iff.mp hdrop)
      rw [htk] at hpost
      have h2 := runsSeq_promote_kids_done hget hpost hdrop
      rwa [hdrop] at h2
    | cons k ks2 =>
      have hk : kids.get? i = some k := by
        have h1 : (kids.drop i).get? 0 = some k := by rw [hdrop]; rfl
        rwa [List.get?_drop, Nat.add_zero] at h1
      have hilen : i < kids.length := by
        by_contra hcon
        rw [List.get?_eq_none.mpr (by omega)] at hk
        cases hk
      have htake1 : kids.take (i + 1) = kids.take i ++ [k] := by
        have hk2 : kids[i]? = some k := by simpa using hk
        rw [List.take_succ, hk2]
        rfl
      have hdrop1 : kids.drop (i + 1) = ks2 := by
        have h1 : kids.drop (i + 1) = (kids.drop i).drop 1 := by
          rw [List.drop_drop, Nat.add_comm]
        rw [h1, hdrop]
        rfl
      have hmem : k ∈ kids := List.get?_mem hk
      have hgk : getAt t (q ++ [i]) = some k := by
        rw [getAt_child hget i, hk]
      have hraw : ∀ k2 ∈ kids, cRaw k2 = true :=
        fun k2 hk2 => seqKidOK_cRaw (hok k2 hk2)
      simp only [kidJobs]
      -- the continuation after a promoting step (state updAt promoteKidsF t q)
      have hcont : postKid (promoteC k) = true → RunsSeq (updAt promoteKidsF t q)
          (kidJobs q NT.CN Cond.always (i + 1) ks2)
          (SRes.ok (updAt casKidsF t q)) := by
        intro hkp
        have hget2 := getAt_updAt_promote hget
        have hst2 : stA (updAt promoteKidsF t q) q = stA t q :=
          stA_updAt_self promoteKidsF q t (fun u hu => by rw [isCNode_promoteKidsF])
        have hok2 : ∀ k2 ∈ kids.map promoteC, seqKidOK k2 = true := by
          intro k2 hk2
          rw [List.mem_map] at hk2
          obtain ⟨k0, hk0, rfl⟩ := hk2
          exact seqKidOK_promoteC (hok k0 hk0)
        have hpost2 : ∀ k2 ∈ (kids.map promoteC).take (i + 1), postKid k2 = true := by
          intro k2 hk2
          rw [← List.map_take, htake1, List.map_append, List.mem_append] at hk2
          rcases hk2 with h1 | h1
          · rw [List.mem_map] at h1
            obtain ⟨k0, hk0, rfl⟩ := h1
            exact postKid_promoteC (hpost k0 hk0)
          · simp only [List.map_cons, List.map_nil, List.mem_singleton] at h1
            subst h1
            exact hkp
        have hdm : (kids.map promoteC).drop (i + 1) = ks2.map promoteC := by
          rw [← List.map_drop, hdrop1]
        have h3 := ih (updAt promoteKidsF t q) q n (kids.map promoteC) (i + 1)
          (by rw [List.length_map]; omega) hget2 (by rw [hst2]; exact hst) hok2 hpost2
        rw [hdm, kidJobs_congr q NT.CN Cond.always (ks2.map promoteC) ks2 (i + 1)
          (by rw [List.length_map])] at h3
        rwa [casKids_promote_collapse hget] at h3
      cases k with
      | attr nm vm =>
        have hrun : Runs t (q ++ [i]) NT.CN (SRes.ok t) := by
          apply runs_none
          unfold tyAt
          rw [hgk]
        refine runsSeq_cons_fire (by simp) hrun ?_
        have h3 := ih t q n kids (i + 1) (by omega) hget hst hok ?_
        · rwa [hdrop1] at h3
        · intro k2 hk2
          rw [htake1, List.mem_append] at hk2
          rcases hk2 with h1 | h1
          · exact hpost k2 h1
          · simp only [List.mem_singleton] at h1
            subst h1
            rfl
      | node nm tyk kk =>
        cases tyk with
        | C =>
          have hrun := runs_kid_CN hget hst hraw hk rfl
          have hall : allCL kk = true := hok _ hmem
          refine runsSeq_cons_fire (by simp) hrun (hcont ?_)
          show postKid (CObj.node nm NT.CN kk) = true
          simp [postKid, cnDone, hall]
        | CN =>
          have hall : allCL kk = true := hok _ hmem
          have hrun := runs_kid_done_CN hget hst hraw hk hall
          refine runsSeq_cons_fire (by simp) hrun (hcont ?_)
          show postKid (CObj.node nm NT.CN kk) = true
          simp [postKid, cnDone, hall]
        | AN =>
          have hd : (allCL kk || dirtyL kk) = true := hok _ hmem
          have hrun := runs_dirty_CN hgk hd
          refine runsSeq_cons_fire (by simp) hrun ?_
          -- recurse on the updated state
          have hget3 := getAt_updAt_kid hget i casKid
          have hkids3 : updKids casKid kids i []
              = kids.take i ++ casKid (CObj.node nm NT.AN kk) :: ks2 := by
            conv_lhs => rw [← List.take_append_drop i kids, hdrop]
            have h4 := updKids_append_len casKid (kids.take i)
              (CObj.node nm NT.AN kk) ks2 []
            rw [List.length_take, Nat.min_eq_left (by omega)] at h4
            rw [h4]
            congr 2
            simp [updAt]
          have hst3 : stA (updAt casKid t (q ++ [i])) q = stA t q :=
            stA_updAt_kid casKid t q i
          have hok3 : ∀ k2 ∈ updKids casKid kids i [], seqKidOK k2 = true := by
            intro k2 hk2
            rcases mem_updKids _ i [] hk2 with h1 | ⟨k0, hk0, he⟩
            · exact hok k2 h1
            · subst he
              have h5 : updAt casKid k0 [] = casKid k0 := by simp [updAt]
              rw [h5]
              exact seqKidOK_casKid k0
          have hpost3 : ∀ k2 ∈ (updKids casKid kids i []).take (i + 1),
              postKid k2 = true := by
            intro k2 hk2
            rw [hkids3] at hk2
            have h6 : (kids.take i ++ casKid (CObj.node nm NT.AN kk) :: ks2).take (i + 1)
                = kids.take i ++ [casKid (CObj.node nm NT.AN kk)] := by
              rw [show kids.take i ++ casKid (CObj.node nm NT.AN kk) :: ks2
                  = (kids.take i ++ [casKid (CObj.node nm NT.AN kk)]) ++ ks2 by simp]
              rw [show i + 1 = (kids.take i ++ [casKid (CObj.node nm NT.AN kk)]).length by
                simp [List.length_take]; omega]
              exact List.take_left _ _
            rw [h6, List.mem_append] at hk2
            rcases hk2 with h1 | h1
            · exact hpost k2 h1
            · simp only [List.mem_singleton] at h1
              subst h1
              exact postKid_casKid _
          have hdrop3 : (updKids casKid kids i []).drop (i + 1) = ks2 := by
            rw [hkids3]
            rw [show kids.take i ++ casKid (CObj.node nm NT.AN kk) :: ks2
                = (kids.take i ++ [casKid (CObj.node nm NT.AN kk)]) ++ ks2 by simp]
            rw [show i + 1 = (kids.take i ++ [casKid (CObj.node nm NT.AN kk)]).length by
              simp [List.length_take]; omega]
            exact List.drop_left _ _
          have hlen3 : (updKids casKid kids i []).length ≤ (i + 1) + m := by
            rw [length_updKids]
            omega
          have h3 := ih (updAt casKid t (q ++ [i])) q n (updKids casKid kids i [])
            (i + 1) hlen3 hget3 (by rw [hst3]; exact hst) hok3 hpost3
          rw [hdrop3] at h3
          rwa [casKids_casKid_collapse hget i] at h3

/-! ## C1: re-promotion of a demoted node -/

theorem allC_seqKidOK {k : CObj} (h : allC k = true) : seqKidOK k = true := by
  cases k with
  | attr n v => rfl
  | node n ty kk =>
    obtain ⟨hty, hkk⟩ := allC_node_inv h
    subst hty
    exact hkk

theorem dirty_seqKidOK {k : CObj} (h : dirty k = true) : seqKidOK k = true := by
  cases k with
  | attr n v => simp [dirty] at h
  | node n ty kk =>
    cases ty with
    | C => simp [dirty] at h
    | CN => exact h
    | AN => exact h

theorem mkAllCL_get? : ∀ (ks : List CObj) (i : Nat),
    (mkAllCL ks).get? i = (ks.get? i).map mkAllC := by
  intro ks
  induction ks with
  | nil => intro i; simp [mkAllCL]
  | cons k ks ih =>
    intro i
    match i with
    | 0 => simp [mkAllCL]
    | j + 1 => simpa [mkAllCL] using ih j

theorem map_casKid_updKids_tyFun (v : NT) : ∀ (ks : List CObj) (i : Nat),
    (updKids (tyFun v) ks i []).map casKid = ks.map casKid := by
  intro ks
  induction ks with
  | nil => intro i; simp [updKids]
  | cons k ks ih =>
    intro i
    match i with
    | 0 =>
      simp only [updKids, List.map_cons]
      congr 1
      have h1 : updAt (tyFun v) k [] = tyFun v k := by simp [updAt]
      rw [h1, casKid_tyFun]
    | j + 1 =>
      simp only [updKids, List.map_cons]
      rw [ih j]

/-- The child walk of a CN force-update at a demoted node (all children
all-C): the first C child fires, re-typing the node to AN and promoting every
child; the remaining jobs are no-ops. -/
theorem runs_repro_kids : ∀ (ks : List CObj) (s : CObj) (q : Pos) (n : String)
    (kids : List CObj) (i : Nat),
    getAt s q = some (CObj.node n NT.CN kids) →
    stA s q = true →
    (∀ k ∈ kids, allC k = true) →
    noCkids (kids.drop i) = false →
    (∀ k ∈ kids.take i, isAttr k = true) →
    kids.drop i = ks →
    RunsSeq s (kidJobs q NT.CN Cond.always i ks) (SRes.ok (updAt casKidsAN s q)) := by
  intro ks
  induction ks with
  | nil =>
    intro s q n kids i hget hst hkall hex hattr hdrop
    rw [hdrop] at hex
    simp [noCkids] at hex
  | cons k ks2 ih =>
    intro s q n kids i hget hst hkall hex hattr hdrop
    have hk : kids.get? i = some k := by
      have h1 : (kids.drop i).get? 0 = some k := by rw [hdrop]; rfl
      rwa [List.get?_drop, Nat.add_zero] at h1
    have hilen : i < kids.length := by
      by_contra hcon
      rw [List.get?_eq_none.mpr (by omega)] at hk
      cases hk
    have htake1 : kids.take (i + 1) = kids.take i ++ [k] := by
      have hk2 : kids[i]? = some k := by simpa using hk
      rw [List.take_succ, hk2]
      rfl
    have hdrop1 : kids.drop (i + 1) = ks2 := by
      have h1 : kids.drop (i + 1) = (kids.drop i).drop 1 := by
        rw [List.drop_drop, Nat.add_comm]
      rw [h1, hdrop]
      rfl
    have hmem : k ∈ kids := List.get?_mem hk
    have hgk : getAt s (q ++ [i]) = some k := by
      rw [getAt_child hget i, hk]
    simp only [kidJobs]
    cases k with
    | attr nm vm =>
      have hrun : Runs s (q ++ [i]) NT.CN (SRes.ok s) := by
        apply runs_none
        unfold tyAt
        rw [hgk]
      refine runsSeq_cons_fire (by simp) hrun ?_
      refine ih s q n kids (i + 1) hget hst hkall ?_ ?_ hdrop1
      · rw [hdrop1]
        rw [hdrop] at hex
        rw [noCkids_cons] at hex
        simpa [isCNode] using hex
      · intro k2 hk2
        rw [htake1, List.mem_append] at hk2
        rcases hk2 with h1 | h1
        · exact hattr k2 h1
        · simp only [List.mem_singleton] at h1
          subst h1
          rfl
    | node nm tyk kk =>
      obtain ⟨htyC, hallkk⟩ := allC_node_inv (hkall _ hmem)
      subst htyC
      -- the firing job: C→CN at the child cascades to q, retyping it to AN
      have htyk : tyAt s (q ++ [i]) = some NT.C := tyAt_kid hget hk
      have hgt1 := getAt_setTy_kid hget i NT.CN
      have htyq1 : tyAt (setTy s (q ++ [i]) NT.CN) q = some NT.CN :=
        tyAt_of_getAt_node hgt1
      have hgt2 : getAt (setTy (setTy s (q ++ [i]) NT.CN) q NT.AN) q
          = some (CObj.node n NT.AN (updKids (tyFun NT.CN) kids i [])) := by
        rw [setTy_eq, getAt_updAt_self, hgt1]
        rfl
      have hst1 : stA (setTy s (q ++ [i]) NT.CN) q = stA s q := stA_setTy_kid s q i NT.CN
      have hst2 : stA (setTy (setTy s (q ++ [i]) NT.CN) q NT.AN) q
          = stA (setTy s (q ++ [i]) NT.CN) q := by
        rw [setTy_eq]
        apply stA_updAt_self
        intro u hu
        rw [hgt1] at hu
        cases hu
        rfl
      have hok1 : ∀ k2 ∈ updKids (tyFun NT.CN) kids i [], seqKidOK k2 = true := by
        intro k2 hk2
        rcases mem_updKids _ i [] hk2 with h1 | ⟨k0, hk0, he⟩
        · exact allC_seqKidOK (hkall k2 h1)
        · subst he
          have h5 : updAt (tyFun NT.CN) k0 [] = tyFun NT.CN k0 := by simp [updAt]
          rw [h5]
          rw [hk0] at hk
          injection hk with hk6
          subst hk6
          show seqKidOK (CObj.node nm NT.CN kk) = true
          exact hallkk
      have hseq := runsSeq_promote_kids (updKids (tyFun NT.CN) kids i []).length
        (setTy (setTy s (q ++ [i]) NT.CN) q NT.AN) q n
        (updKids (tyFun NT.CN) kids i []) 0 (by omega) hgt2
        (by rw [hst2, hst1]; exact hst) hok1 (by simp)
      have hcollapse : updAt casKidsF (setTy (setTy s (q ++ [i]) NT.CN) q NT.AN) q
          = updAt casKidsAN s q := by
        rw [setTy_eq (setTy s (q ++ [i]) NT.CN) q NT.AN, setTy_eq s (q ++ [i]) NT.CN,
          updAt_append, updAt_updAt, updAt_updAt]
        apply updAt_congr
        intro u hu
        rw [hget] at hu
        cases hu
        have h7 : updAt (tyFun NT.CN) (CObj.node n NT.CN kids) [i]
            = CObj.node n NT.CN (updKids (tyFun NT.CN) kids i []) := by
          simp [updAt]
        show casKidsF (tyFun NT.AN (updAt (tyFun NT.CN) (CObj.node n NT.CN kids) [i]))
            = casKidsAN (CObj.node n NT.CN kids)
        rw [h7]
        show CObj.node n NT.AN ((updKids (tyFun NT.CN) kids i []).map casKid)
            = CObj.node n NT.AN (kids.map casKid)
        rw [map_casKid_updKids_tyFun]
      have hg4 : getAt (updAt casKidsAN s q) q
          = some (CObj.node n NT.AN (kids.map casKid)) := by
        rw [getAt_updAt_self, hget]
        rfl
      have hst4 : stA (updAt casKidsAN s q) q = stA s q := by
        apply stA_updAt_self
        intro u hu
        rw [hget] at hu
        cases hu
        rfl
      have hkidrun : Runs s (q ++ [i]) NT.CN (SRes.ok (updAt casKidsAN s q)) := by
        apply runs_step (snt_trans_C_CN htyk)
        rw [ancJobs_snoc]
        refine runsSeq_cons_fire (by simp) ?_
          (runsSeq_ancJobs_noop (by rw [hst4]; exact hst) hg4)
        apply runs_step (snt_trans_CN_AN htyq1)
        have hcj : childJobs (setTy (setTy s (q ++ [i]) NT.CN) q NT.AN) q
            NT.CN Cond.always
            = kidJobs q NT.CN Cond.always 0 (updKids (tyFun NT.CN) kids i []) := by
          unfold childJobs
          rw [hgt2]
        rw [hcj]
        have h8 : (updKids (tyFun NT.CN) kids i []).drop 0
            = updKids (tyFun NT.CN) kids i [] := rfl
        rw [← h8]
        rw [hcollapse] at hseq
        exact hseq
      refine runsSeq_cons_fire (by simp) hkidrun ?_
      -- every remaining job is a no-op on the promoted state
      apply runsSeq_noop
      intro j hj
      right
      have hx : (kids.map casKid).get? (i + 1 + j) = (kids.get? (i + 1 + j)).map casKid :=
        List.get?_map casKid kids (i + 1 + j)
      cases hk0 : kids.get? (i + 1 + j) with
      | none =>
        apply runs_none
        unfold tyAt
        rw [getAt_child hg4 (i + 1 + j), hx, hk0]
        rfl
      | some k0 =>
        cases k0 with
        | attr nm2 vm2 =>
          apply runs_none
          unfold tyAt
          rw [getAt_child hg4 (i + 1 + j), hx, hk0]
          rfl
        | node nm2 ty2 kk2 =>
          have hx2 : (kids.map casKid).get? (i + 1 + j)
              = some (CObj.node nm2 NT.CN (mkAllCL kk2)) := by
            rw [hx, hk0]
            rfl
          have hrun2 := runs_kid_done_CN hg4 (by rw [hst4]; exact hst)
            (fun k2 hk2 => by
              rw [List.mem_map] at hk2
              obtain ⟨k3, _, rfl⟩ := hk2
              simp [cRaw, isCNode_casKid])
            hx2 (mkAllCL_allCL kk2)
          have hfix2 : updAt promoteKidsF (updAt casKidsAN s q) q
              = updAt casKidsAN s q := by
            apply updAt_fix hg4
            show CObj.node n NT.AN ((kids.map casKid).map promoteC)
                = CObj.node n NT.AN (kids.map casKid)
            congr 1
            exact map_promoteC_id (noCkids_map_casKid kids)
          rwa [hfix2] at hrun2

/-! ## C1: the full ancestor cascade of a C target -/

theorem mkAllCL_eq_map : ∀ (ks : List CObj), mkAllCL ks = ks.map mkAllC := by
  intro ks
  induction ks with
  | nil => rfl
  | cons k ks ih => simp [mkAllCL, ih]

theorem map_casKid_mkAllCL (ks : List CObj) :
    (mkAllCL ks).map casKid = ks.map casKid := by
  rw [mkAllCL_eq_map, List.map_map]
  exact List.map_congr_left (fun k _ => casKid_mkAllC k)

/-- CN force-update child walk at a freshly demoted node: re-promotes the
node to AN with all children in cascade final state. -/
theorem runsSeq_casc_tail {t3 : CObj} {q : Pos} {n : String} {kids : List CObj}
    (hg : getAt t3 q = some (CObj.node n NT.CN (mkAllCL kids)))
    (hst : stA t3 q = true) (hdl : dirtyL kids = true) :
    RunsSeq t3 (kidJobs q NT.CN Cond.always 0 kids)
      (SRes.ok (updAt casKidsAN t3 q)) := by
  rw [kidJobs_congr q NT.CN Cond.always kids (mkAllCL kids) 0 (mkAllCL_length kids).symm]
  have hex : noCkids (mkAllCL kids) = false := by
    obtain ⟨i, k, hik, hdk⟩ := dirtyL_exists hdl
    have h1 : (mkAllCL kids).get? i = some (mkAllC k) := by
      rw [mkAllCL_get?, hik]
      rfl
    exact noCkids_false_of_get? h1 (isCNode_mkAllC_of_dirty hdk)
  exact runs_repro_kids (mkAllCL kids) t3 q n (mkAllCL kids) 0 hg hst
    (fun k hk => allCL_mem (mkAllCL_allCL kids) k hk) hex (by simp) rfl

/-- The cascade at the root: C→AN retypes the root and promotes each child. -/
theorem runs_casc_root {t : CObj} {n : String} {kids : List CObj}
    (hget : getAt t [] = some (CObj.node n NT.C kids)) (hdl : dirtyL kids = true) :
    ∃ t2, Runs t [] NT.AN (SRes.ok t2)
      ∧ getAt t2 [] = some (CObj.node n NT.AN (kids.map casKid))
      ∧ stA t2 [] = true := by
  have htyq : tyAt t [] = some NT.C := tyAt_of_getAt_node hget
  have hteq : t = CObj.node n NT.C kids := by simpa [getAt] using hget
  subst hteq
  have hgt1 : getAt (setTy (CObj.node n NT.C kids) [] NT.AN) []
      = some (CObj.node n NT.AN kids) := by
    rw [setTy_eq]
    simp [updAt, getAt, tyFun]
  refine ⟨CObj.node n NT.AN (kids.map casKid), ?_, rfl, stA_nil _⟩
  apply runs_step (snt_trans_C_AN htyq)
  rw [show ancJobs ([] : Pos) NT.AN = [] from rfl, List.nil_append]
  have hcj : childJobs (setTy (CObj.node n NT.C kids) [] NT.AN) [] NT.CN Cond.always
      = kidJobs [] NT.CN Cond.always 0 kids := by
    unfold childJobs
    rw [hgt1]
  rw [hcj]
  have hok : ∀ k ∈ kids, seqKidOK k = true := fun k hk => by
    rcases dirtyL_mem hdl k hk with h | h
    · exact allC_seqKidOK h
    · exact dirty_seqKidOK h
  have hseq := runsSeq_promote_kids kids.length (setTy (CObj.node n NT.C kids) [] NT.AN)
    [] n kids 0 (by omega) hgt1 (stA_nil _) hok (by simp)
  have hfin : updAt casKidsF (setTy (CObj.node n NT.C kids) [] NT.AN) []
      = CObj.node n NT.AN (kids.map casKid) := by
    rw [setTy_eq]
    simp [updAt, tyFun, casKidsF]
  rw [hfin] at hseq
  exact hseq

/-- Finishing a cascade: the target (now CN over an all-C subtree, below an
AN node whose children are all cascade-final) is re-promoted to AN by its
child jobs. -/
theorem runs_casc_finish {t3 : CObj} {b : Pos} {xb : Nat} {mb n : String}
    {bk3 kids : List CObj}
    (hg3 : getAt t3 b = some (CObj.node mb NT.AN bk3))
    (hst3 : stA t3 b = true)
    (hnk3 : noCkids bk3 = true)
    (hxb3 : bk3.get? xb = some (CObj.node n NT.CN (mkAllCL kids)))
    (hdl : dirtyL kids = true) :
    RunsSeq t3 (kidJobs (b ++ [xb]) NT.CN Cond.always 0 kids)
      (SRes.ok (updAt casKidsAN t3 (b ++ [xb])))
    ∧ getAt (updAt casKidsAN t3 (b ++ [xb])) (b ++ [xb])
        = some (CObj.node n NT.AN (kids.map casKid))
    ∧ stA (updAt casKidsAN t3 (b ++ [xb])) (b ++ [xb]) = true := by
  have hgq : getAt t3 (b ++ [xb]) = some (CObj.node n NT.CN (mkAllCL kids)) := by
    rw [getAt_child hg3 xb, hxb3]
  have hstq : stA t3 (b ++ [xb]) = true := by
    rw [stA_snoc]
    refine ⟨hst3, fun n2 ty2 kids2 hg2 => ?_⟩
    rw [hg3] at hg2
    cases hg2
    exact ⟨rfl, hnk3⟩
  refine ⟨runsSeq_casc_tail hgq hstq hdl, ?_, ?_⟩
  · rw [getAt_updAt_self, hgq]
    show some (CObj.node n NT.AN ((mkAllCL kids).map casKid))
      = some (CObj.node n NT.AN (kids.map casKid))
    rw [map_casKid_mkAllCL]
  · rw [stA_updAt_self casKidsAN (b ++ [xb]) t3
      (fun u hu => by rw [hgq] at hu; cases hu; rfl)]
    exact hstq

/-- The cascade: retyping a C node (with exactly one dirty child among all-C
siblings) to AN walks every ancestor, retypes the whole chain to AN, promotes
off-path C children, and ends with the target AN over cascade-final children.
The chain above must have the shape consistency gives a C node. -/
theorem runs_casc : ∀ (L : Nat) (t : CObj) (q : Pos) (n : String)
    (kids : List CObj), q.length ≤ L →
    getAt t q = some (CObj.node n NT.C kids) →
    zTop t q = true →
    dirtyL kids = true →
    ∃ t2, Runs t q NT.AN (SRes.ok t2)
      ∧ getAt t2 q = some (CObj.node n NT.AN (kids.map casKid))
      ∧ stA t2 q = true := by
  intro L
  induction L with
  | zero =>
    intro t q n kids hlen hget hz hdl
    have hq : q = [] := List.length_eq_zero.mp (by omega)
    subst hq
    exact runs_casc_root hget hdl
  | succ L ihL =>
    intro t q n kids hlen hget hz hdl
    rcases List.eq_nil_or_concat q with rfl | ⟨b, xb, rfl⟩
    · exact runs_casc_root hget hdl
    · rw [List.concat_eq_append] at hlen hget hz ⊢
      have htyq : tyAt t (b ++ [xb]) = some NT.C := tyAt_of_getAt_node hget
      obtain ⟨mb, tyb, bkids, hgb, hxb⟩ := getAt_parent hget
      have hgt1q : getAt (setTy t (b ++ [xb]) NT.AN) (b ++ [xb])
          = some (CObj.node n NT.AN kids) := by
        rw [setTy_eq, getAt_updAt_self, hget]
        rfl
      have hgt1b := getAt_setTy_kid hgb xb NT.AN
      have hxb1 : (updKids (tyFun NT.AN) bkids xb []).get? xb
          = some (CObj.node n NT.AN kids) := by
        rw [get?_updKids_self, hxb]
        simp [updAt, tyFun]
      have hcjq : childJobs (setTy t (b ++ [xb]) NT.AN) (b ++ [xb]) NT.CN Cond.always
          = kidJobs (b ++ [xb]) NT.CN Cond.always 0 kids := by
        unfold childJobs
        rw [hgt1q]
      rcases zTop_snoc b t xb hz mb tyb bkids hgb with
        ⟨htyb, hnkb, hstb⟩ | ⟨htyb, hoffb, hstb⟩ | ⟨htyb, hoffb, hzb⟩
      · -- an AN parent of a C node contradicts the chain shape
        subst htyb
        exact absurd rfl (noCkids_get? hnkb hxb)
      · -- CN anchor directly above the target
        subst htyb
        have htyb1 : tyAt (setTy t (b ++ [xb]) NT.AN) b = some NT.CN :=
          tyAt_of_getAt_node hgt1b
        have hst1b : stA (setTy t (b ++ [xb]) NT.AN) b = stA t b :=
          stA_setTy_kid t b xb NT.AN
        have hgt2b : getAt (setTy (setTy t (b ++ [xb]) NT.AN) b NT.AN) b
            = some (CObj.node mb NT.AN (updKids (tyFun NT.AN) bkids xb [])) := by
          rw [setTy_eq (setTy t (b ++ [xb]) NT.AN) b NT.AN, getAt_updAt_self, hgt1b]
          rfl
        have hst2b : stA (setTy (setTy t (b ++ [xb]) NT.AN) b NT.AN) b
            = stA (setTy t (b ++ [xb]) NT.AN) b := by
          rw [setTy_eq (setTy t (b ++ [xb]) NT.AN) b NT.AN]
          apply stA_updAt_self
          intro u hu
          rw [hgt1b] at hu
          cases hu
          rfl
        have hok1 : ∀ k2 ∈ updKids (tyFun NT.AN) bkids xb [], seqKidOK k2 = true := by
          intro k2 hk2
          obtain ⟨j, hj⟩ := List.get?_of_mem hk2
          by_cases hjx : xb = j
          · subst hjx
            rw [hxb1] at hj
            injection hj with hj
            subst hj
            show seqKidOK (CObj.node n NT.AN kids) = true
            show (allCL kids || dirtyL kids) = true
            rw [hdl]
            simp
          · rw [get?_updKids_ne _ _ _ _ _ hjx] at hj
            exact allC_seqKidOK (offAllC_get?_ne bkids xb j k2 hoffb hj hjx)
        have hseqb := runsSeq_promote_kids (updKids (tyFun NT.AN) bkids xb []).length
          (setTy (setTy t (b ++ [xb]) NT.AN) b NT.AN) b mb
          (updKids (tyFun NT.AN) bkids xb []) 0 (by omega) hgt2b
          (by rw [hst2b, hst1b]; exact hstb) hok1 (by simp)
        have hg3b : getAt (updAt casKidsF (setTy (setTy t (b ++ [xb]) NT.AN) b NT.AN) b) b
            = some (CObj.node mb NT.AN
                ((updKids (tyFun NT.AN) bkids xb []).map casKid)) := by
          rw [getAt_updAt_self, hgt2b]
          rfl
        have hst3b : stA (updAt casKidsF (setTy (setTy t (b ++ [xb]) NT.AN) b NT.AN) b) b
            = true := by
          rw [stA_updAt_self casKidsF b _ (fun u hu => by rw [hgt2b] at hu; cases hu; rfl),
            hst2b, hst1b]
          exact hstb
        have hxb3 : ((updKids (tyFun NT.AN) bkids xb []).map casKid).get? xb
            = some (CObj.node n NT.CN (mkAllCL kids)) := by
          rw [List.get?_map, hxb1]
          rfl
        obtain ⟨hseqfin, hgfin, hstfin⟩ :=
          runs_casc_finish hg3b hst3b (noCkids_map_casKid _) hxb3 hdl
        refine ⟨_, ?_, hgfin, hstfin⟩
        apply runs_step (snt_trans_C_AN htyq)
        rw [ancJobs_snoc, hcjq, List.cons_append]
        refine runsSeq_cons_fire (by simp) ?_
          (runsSeq_append (runsSeq_ancJobs_noop hst3b hg3b) hseqfin)
        apply runs_step (snt_trans_CN_AN htyb1)
        have hcjb : childJobs (setTy (setTy t (b ++ [xb]) NT.AN) b NT.AN) b
            NT.CN Cond.always
            = kidJobs b NT.CN Cond.always 0 (updKids (tyFun NT.AN) bkids xb []) := by
          unfold childJobs
          rw [hgt2b]
        rw [hcjb]
        exact hseqb
      · -- a C parent: recurse up the chain
        subst htyb
        have hzb1 : zTop (setTy t (b ++ [xb]) NT.AN) b = zTop t b := by
          rw [setTy_eq]
          exact zTop_updAt (tyFun NT.AN) [xb] (by simp) b t
        have hdlb1 : dirtyL (updKids (tyFun NT.AN) bkids xb []) = true := by
          apply dirtyL_of_single _ xb (CObj.node n NT.AN kids) hxb1
          · show (allCL kids || dirtyL kids) = true
            rw [hdl]
            simp
          · rw [offAllC_updKids_self]
            exact hoffb
        obtain ⟨t3, hrunb, hg3b, hst3b⟩ := ihL (setTy t (b ++ [xb]) NT.AN) b mb
          (updKids (tyFun NT.AN) bkids xb []) (by simp at hlen; omega) hgt1b
          (by rw [hzb1]; exact hzb) hdlb1
        have hxb3 : ((updKids (tyFun NT.AN) bkids xb []).map casKid).get? xb
            = some (CObj.node n NT.CN (mkAllCL kids)) := by
          rw [List.get?_map, hxb1]
          rfl
        obtain ⟨hseqfin, hgfin, hstfin⟩ :=
          runs_casc_finish hg3b hst3b (noCkids_map_casKid _) hxb3 hdl
        refine ⟨_, ?_, hgfin, hstfin⟩
        apply runs_step (snt_trans_C_AN htyq)
        rw [ancJobs_snoc, hcjq, List.cons_append]
        exact runsSeq_cons_fire (by simp) hrunb
          (runsSeq_append (runsSeq_ancJobs_noop hst3b hg3b) hseqfin)

/-! ## C1: the ancestor phase of retyping a C node to CN or AN -/

theorem anc_AN_of_stA {t : CObj} {p : Pos} {u : CObj} (hst : stA t p = true)
    (hval : getAt t p = some u) : ∀ a ∈ ancChain p, tyAt t a = some NT.AN := by
  intro a ha
  obtain ⟨i, r, hdec⟩ := ancChain_mem p a ha
  subst hdec
  obtain ⟨n, ty, kids, hga, k, hk, _⟩ := getAt_prefix_node hval
  obtain ⟨_, hfacts⟩ := stA_at_prefix a (i :: r) t (by simp) hst
  have := (hfacts n ty kids hga).1
  subst this
  exact tyAt_of_getAt_node hga

/-- Retyping a consistent C node to CN or AN and running the resulting
ancestor walk: every ancestor ends AN; the target's children are untouched;
the target itself ends with the new type at the root and CN otherwise (the
parent cascade demotes it back). -/
theorem runs_anc_phase {t : CObj} {p : Pos} {pn : String} {pkids : List CObj}
    (vt : NT) (hget : getAt t p = some (CObj.node pn NT.C pkids))
    (hz : zTop t p = true) (hall : allCL pkids = true)
    (hvt : vt = NT.CN ∨ vt = NT.AN) :
    ∃ t2, RunsSeq (setTy t p vt) (ancJobs p NT.AN) (SRes.ok t2)
      ∧ ((p = [] ∧ getAt t2 p = some (CObj.node pn vt pkids))
        ∨ (p ≠ [] ∧ getAt t2 p = some (CObj.node pn NT.CN pkids)))
      ∧ stA t2 p = true := by
  rcases List.eq_nil_or_concat p with rfl | ⟨b, xb, rfl⟩
  · refine ⟨setTy t [] vt, ?_, Or.inl ⟨rfl, ?_⟩, stA_nil _⟩
    · rw [show ancJobs ([] : Pos) NT.AN = [] from rfl]
      exact runsSeq_nil _
    · rw [setTy_eq, getAt_updAt_self, hget]
      rfl
  · rw [List.concat_eq_append] at hget hz ⊢
    obtain ⟨mb, tyb, bkids, hgb, hxb⟩ := getAt_parent hget
    have hgt1b := getAt_setTy_kid hgb xb vt
    have hxb1 : (updKids (tyFun vt) bkids xb []).get? xb
        = some (CObj.node pn vt pkids) := by
      rw [get?_updKids_self, hxb]
      simp [updAt, tyFun]
    have hdirty1 : dirty (CObj.node pn vt pkids) = true := by
      rcases hvt with h | h <;> subst h
      · exact hall
      · show (allCL pkids || dirtyL pkids) = true
        rw [hall]
        simp
    have hcask : casKid (CObj.node pn vt pkids) = CObj.node pn NT.CN pkids := by
      show CObj.node pn NT.CN (mkAllCL pkids) = CObj.node pn NT.CN pkids
      rw [mkAllCL_id hall]
    rcases zTop_snoc b t xb hz mb tyb bkids hgb with
      ⟨htyb, hnkb, hstb⟩ | ⟨htyb, hoffb, hstb⟩ | ⟨htyb, hoffb, hzb⟩
    · subst htyb
      exact absurd rfl (noCkids_get? hnkb hxb)
    · -- CN anchor above: CN→AN at the parent with the promotion sequence
      subst htyb
      have htyb1 : tyAt (setTy t (b ++ [xb]) vt) b = some NT.CN :=
        tyAt_of_getAt_node hgt1b
      have hst1b : stA (setTy t (b ++ [xb]) vt) b = stA t b :=
        stA_setTy_kid t b xb vt
      have hgt2b : getAt (setTy (setTy t (b ++ [xb]) vt) b NT.AN) b
          = some (CObj.node mb NT.AN (updKids (tyFun vt) bkids xb [])) := by
        rw [setTy_eq (setTy t (b ++ [xb]) vt) b NT.AN, getAt_updAt_self, hgt1b]
        rfl
      have hst2b : stA (setTy (setTy t (b ++ [xb]) vt) b NT.AN) b
          = stA (setTy t (b ++ [xb]) vt) b := by
        rw [setTy_eq (setTy t (b ++ [xb]) vt) b NT.AN]
        apply stA_updAt_self
        intro u hu
        rw [hgt1b] at hu
        cases hu
        rfl
      have hok1 : ∀ k2 ∈ updKids (tyFun vt) bkids xb [], seqKidOK k2 = true := by
        intro k2 hk2
        obtain ⟨j, hj⟩ := List.get?_of_mem hk2
        by_cases hjx : xb = j
        · subst hjx
          rw [hxb1] at hj
          injection hj with hj
          subst hj
          exact dirty_seqKidOK hdirty1
        · rw [get?_updKids_ne _ _ _ _ _ hjx] at hj
          exact allC_seqKidOK (offAllC_get?_ne bkids xb j k2 hoffb hj hjx)
      have hseqb := runsSeq_promote_kids (updKids (tyFun vt) bkids xb []).length
        (setTy (setTy t (b ++ [xb]) vt) b NT.AN) b mb
        (updKids (tyFun vt) bkids xb []) 0 (by omega) hgt2b
        (by rw [hst2b, hst1b]; exact hstb) hok1 (by simp)
      have hg3b : getAt (updAt casKidsF (setTy (setTy t (b ++ [xb]) vt) b NT.AN) b) b
          = some (CObj.node mb NT.AN
              ((updKids (tyFun vt) bkids xb []).map casKid)) := by
        rw [getAt_updAt_self, hgt2b]
        rfl
      have hst3b : stA (updAt casKidsF (setTy (setTy t (b ++ [xb]) vt) b NT.AN) b) b
          = true := by
        rw [stA_updAt_self casKidsF b _ (fun u hu => by rw [hgt2b] at hu; cases hu; rfl),
          hst2b, hst1b]
        exact hstb
      have hxb3 : ((updKids (tyFun vt) bkids xb []).map casKid).get? xb
          = some (CObj.node pn NT.CN pkids) := by
        rw [List.get?_map, hxb1]
        simp [hcask]
      refine ⟨updAt casKidsF (setTy (setTy t (b ++ [xb]) vt) b NT.AN) b, ?_,
        Or.inr ⟨by simp, ?_⟩, ?_⟩
      · rw [ancJobs_snoc]
        refine runsSeq_cons_fire (by simp) ?_ (runsSeq_ancJobs_noop hst3b hg3b)
        apply runs_step (snt_trans_CN_AN htyb1)
        have hcjb : childJobs (setTy (setTy t (b ++ [xb]) vt) b NT.AN) b
            NT.CN Cond.always
            = kidJobs b NT.CN Cond.always 0 (updKids (tyFun vt) bkids xb []) := by
          unfold childJobs
          rw [hgt2b]
        rw [hcjb]
        exact hseqb
      · rw [getAt_child hg3b xb, hxb3]
      · rw [stA_snoc]
        refine ⟨hst3b, fun n2 ty2 kids2 hg2 => ?_⟩
        rw [hg3b] at hg2
        cases hg2
        exact ⟨rfl, noCkids_map_casKid _⟩
    · -- C parent: full cascade at the parent
      subst htyb
      have hzb1 : zTop (setTy t (b ++ [xb]) vt) b = zTop t b := by
        rw [setTy_eq]
        exact zTop_updAt (tyFun vt) [xb] (by simp) b t
      have hdlb1 : dirtyL (updKids (tyFun vt) bkids xb []) = true := by
        apply dirtyL_of_single _ xb (CObj.node pn vt pkids) hxb1 hdirty1
        rw [offAllC_updKids_self]
        exact hoffb
      obtain ⟨t3, hrunb, hg3b, hst3b⟩ := runs_casc b.length (setTy t (b ++ [xb]) vt) b
        mb (updKids (tyFun vt) bkids xb []) le_rfl hgt1b
        (by rw [hzb1]; exact hzb) hdlb1
      have hxb3 : ((updKids (tyFun vt) bkids xb []).map casKid).get? xb
          = some (CObj.node pn NT.CN pkids) := by
        rw [List.get?_map, hxb1]
        simp [hcask]
      refine ⟨t3, ?_, Or.inr ⟨by simp, ?_⟩, ?_⟩
      · rw [ancJobs_snoc]
        exact runsSeq_cons_fire (by simp) hrunb (runsSeq_ancJobs_noop hst3b hg3b)
      · rw [getAt_child hg3b xb, hxb3]
      · rw [stA_snoc]
        refine ⟨hst3b, fun n2 ty2 kids2 hg2 => ?_⟩
        rw [hg3b] at hg2
        cases hg2
        exact ⟨rfl, noCkids_map_casKid _⟩

/-! ## C1: the six rows of the transition table -/

theorem runsSeq_kidJobs_noop {t : CObj} {q : Pos} (v : NT) :
    ∀ (ks : List CObj) (i : Nat),
    (∀ d k, ks.get? d = some k → tyAt t (q ++ [i + d]) = Option.none) →
    RunsSeq t (kidJobs q v Cond.always i ks) (SRes.ok t) := by
  intro ks
  induction ks with
  | nil => intro i _; exact runsSeq_nil t
  | cons k ks ih =>
    intro i h
    refine runsSeq_cons_fire (by simp) ?_ (ih (i + 1) ?_)
    · refine runs_none v ?_
      have h0 := h 0 k rfl
      simpa using h0
    · intro d k2 hd
      have h3 := h (d + 1) k2 hd
      have h4 : i + (d + 1) = i + 1 + d := by omega
      rwa [h4] at h3

theorem tyAt_kid_mapped {F : CObj → CObj} {v : NT}
    (hF : ∀ n ty kids, ∃ kk, F (CObj.node n ty kids) = CObj.node n v kk)
    {t2 : CObj} {p : Pos} {n2 : String} {ty2 : NT} {pkids : List CObj}
    (hg2 : getAt t2 p = some (CObj.node n2 ty2 (pkids.map F)))
    {t : CObj} {n : String} {ty : NT}
    (hget : getAt t p = some (CObj.node n ty pkids)) :
    ∀ j, (tyAt t (p ++ [j])).isSome = true → tyAt t2 (p ++ [j]) = some v := by
  intro j hj
  unfold tyAt at hj ⊢
  rw [getAt_child hget j] at hj
  rw [getAt_child hg2 j, List.get?_map]
  cases hk : pkids.get? j with
  | none => rw [hk] at hj; simp at hj
  | some k =>
    rw [hk] at hj
    match k with
    | CObj.attr nm vv => simp at hj
    | CObj.node nm tt kk =>
      obtain ⟨kk2, hkk2⟩ := hF nm tt kk
      simp [hkk2]

theorem allC_noCk_attr {k : CObj} (hC : allC k = true) (hnc : isCNode k = false) :
    isAttr k = true := by
  cases k with
  | attr n v => rfl
  | node n ty kids =>
    obtain ⟨hty, _⟩ := allC_node_inv hC
    subst hty
    simp [isCNode] at hnc

theorem tyAt_kid_attr {t : CObj} {q : Pos} {n : String} {ty : NT} {kids : List CObj}
    {i : Nat} {nm : String} {v : PyVal}
    (hget : getAt t q = some (CObj.node n ty kids))
    (hk : kids.get? i = some (CObj.attr nm v)) :
    tyAt t (q ++ [i]) = Option.none := by
  unfold tyAt
  rw [getAt_child hget i, hk]

/-- Row 1 (C → CN): every ancestor becomes AN, the direct children are
untouched. -/
theorem runs_row1 {t : CObj} {p : Pos} {pn : String} {pkids : List CObj}
    (hcons : consB t = true)
    (hget : getAt t p = some (CObj.node pn NT.C pkids)) :
    ∃ t2, Runs t p NT.CN (SRes.ok t2)
      ∧ (∀ a ∈ ancChain p, tyAt t2 a = some NT.AN)
      ∧ (∀ j, tyAt t2 (p ++ [j]) = tyAt t (p ++ [j])) := by
  have htyp := tyAt_of_getAt_node hget
  have hz := consB_zTop p t hcons pn pkids hget
  have hall : allCL pkids = true :=
    (allC_node_inv (consB_allC (consB_getAt p t hcons _ hget))).2
  obtain ⟨t2, hseq, hsh, hst2⟩ := runs_anc_phase NT.CN hget hz hall (Or.inl rfl)
  have hg2 : getAt t2 p = some (CObj.node pn NT.CN pkids) := by
    rcases hsh with ⟨_, hg2⟩ | ⟨_, hg2⟩ <;> exact hg2
  refine ⟨t2, runs_step (snt_trans_C_CN htyp) hseq, anc_AN_of_stA hst2 hg2, ?_⟩
  intro j
  unfold tyAt
  rw [getAt_child hg2 j, getAt_child hget j]

/-- Row 2 (C → AN): every ancestor becomes AN, every direct child node
becomes CN. -/
theorem runs_row2 {t : CObj} {p : Pos} {pn : String} {pkids : List CObj}
    (hcons : consB t = true)
    (hget : getAt t p = some (CObj.node pn NT.C pkids)) :
    ∃ t2, Runs t p NT.AN (SRes.ok t2)
      ∧ (∀ a ∈ ancChain p, tyAt t2 a = some NT.AN)
      ∧ (∀ j, (tyAt t (p ++ [j])).isSome = true →
          tyAt t2 (p ++ [j]) = some NT.CN) := by
  have htyp := tyAt_of_getAt_node hget
  have hz := consB_zTop p t hcons pn pkids hget
  have hall : allCL pkids = true :=
    (allC_node_inv (consB_allC (consB_getAt p t hcons _ hget))).2
  obtain ⟨t2, hseq, hsh, hst2⟩ := runs_anc_phase NT.AN hget hz hall (Or.inr rfl)
  have hok : ∀ k ∈ pkids, seqKidOK k = true :=
    fun k hk => allC_seqKidOK (allCL_mem hall k hk)
  rcases hsh with ⟨hp, hg2⟩ | ⟨hp, hg2⟩
  · -- the target is the root: the force-update promotion sequence runs at it
    subst hp
    have hcj : childJobs (setTy t [] NT.AN) [] NT.CN Cond.always
        = kidJobs [] NT.CN Cond.always 0 pkids := by
      unfold childJobs
      rw [setTy_eq, getAt_updAt_self, hget]
      rfl
    have hseq2 := runsSeq_promote_kids pkids.length t2 [] pn pkids 0 (by omega)
      hg2 (stA_nil t2) hok (by simp)
    have hg3 : getAt (updAt casKidsF t2 []) []
        = some (CObj.node pn NT.AN (pkids.map casKid)) := by
      rw [getAt_updAt_self, hg2]
      rfl
    refine ⟨updAt casKidsF t2 [], ?_, by simp [ancChain], ?_⟩
    · apply runs_step (snt_trans_C_AN htyp)
      rw [hcj]
      exact runsSeq_append hseq hseq2
    · exact tyAt_kid_mapped (fun n ty kids => ⟨mkAllCL kids, rfl⟩) hg3 hget
  · -- below the root the cascade has demoted the target back to CN
    have hcj : childJobs (setTy t p NT.AN) p NT.CN Cond.always
        = kidJobs p NT.CN Cond.always 0 pkids := by
      unfold childJobs
      rw [setTy_eq, getAt_updAt_self, hget]
      rfl
    cases hnc : noCkids pkids with
    | true =>
      -- all children are attributes: the child jobs are no-ops
      have hattr : ∀ d k, pkids.get? d = some k → isAttr k = true := by
        intro d k hd
        apply allC_noCk_attr (allCL_mem hall k (List.get?_mem hd))
        cases hck : isCNode k with
        | false => rfl
        | true =>
          exfalso
          cases k with
          | attr nm v => simp [isCNode] at hck
          | node nm ty kk =>
            cases ty with
            | C => exact absurd rfl (noCkids_get? hnc hd)
            | CN => simp [isCNode] at hck
            | AN => simp [isCNode] at hck
      have hnoop : RunsSeq t2 (kidJobs p NT.CN Cond.always 0 pkids)
          (SRes.ok t2) := by
        apply runsSeq_kidJobs_noop NT.CN pkids 0
        intro d k hd
        have hka := hattr d k hd
        cases k with
        | attr nm v => simpa using tyAt_kid_attr hg2 hd
        | node nm ty kk => simp [isAttr] at hka
      refine ⟨t2, ?_, anc_AN_of_stA hst2 hg2, ?_⟩
      · apply runs_step (snt_trans_C_AN htyp)
        rw [hcj]
        exact runsSeq_append hseq hnoop
      · intro j hj
        exfalso
        unfold tyAt at hj
        rw [getAt_child hget j] at hj
        cases hd : pkids.get? j with
        | none => rw [hd] at hj; simp at hj
        | some k =>
          rw [hd] at hj
          have hka := hattr j k hd
          cases k with
          | attr nm v => simp at hj
          | node nm ty kk => simp [isAttr] at hka
    | false =>
      -- a node child exists: the first child job re-promotes the target
      have hseq2 := runs_repro_kids pkids t2 p pn pkids 0 hg2 hst2
        (fun k hk => allCL_mem hall k hk) (by rw [List.drop_zero]; exact hnc)
        (by simp) rfl
      have hg3 : getAt (updAt casKidsAN t2 p) p
          = some (CObj.node pn NT.AN (pkids.map casKid)) := by
        rw [getAt_updAt_self, hg2]
        rfl
      have hst3 : stA (updAt casKidsAN t2 p) p = true := by
        rw [stA_updAt_self casKidsAN p t2
          (fun u hu => by rw [hg2] at hu; cases hu; rfl)]
        exact hst2
      refine ⟨updAt casKidsAN t2 p, ?_, anc_AN_of_stA hst3 hg3, ?_⟩
      · apply runs_step (snt_trans_C_AN htyp)
        rw [hcj]
        exact runsSeq_append hseq hseq2
      · exact tyAt_kid_mapped (fun n ty kids => ⟨mkAllCL kids, rfl⟩) hg3 hget

/-- Row 3 (CN → AN): ancestors untouched, every direct child node becomes
CN. -/
theorem runs_row3 {t : CObj} {p : Pos} {pn : String} {pkids : List CObj}
    (hcons : consB t = true)
    (hget : getAt t p = some (CObj.node pn NT.CN pkids)) :
    ∃ t2, Runs t p NT.AN (SRes.ok t2)
      ∧ (∀ a ∈ ancChain p, tyAt t2 a = tyAt t a)
      ∧ (∀ j, (tyAt t (p ++ [j])).isSome = true →
          tyAt t2 (p ++ [j]) = some NT.CN) := by
  have htyp := tyAt_of_getAt_node hget
  have hall : allCL pkids = true := by
    have hc2 : consB (CObj.node pn NT.CN pkids) = true :=
      consB_getAt p t hcons _ hget
    exact consL_allCL_aux (csizeL pkids) NT.CN pkids le_rfl (Or.inr rfl) hc2
  have hg1 : getAt (setTy t p NT.AN) p = some (CObj.node pn NT.AN pkids) := by
    rw [setTy_eq, getAt_updAt_self, hget]
    rfl
  have hst1 : stA (setTy t p NT.AN) p = true := by
    rw [setTy_eq, stA_updAt_self (tyFun NT.AN) p t
      (fun u hu => by rw [hget] at hu; cases hu; rfl)]
    exact consB_stA p t hcons pn NT.CN pkids hget (by decide)
  have hseq := runsSeq_promote_kids pkids.length (setTy t p NT.AN) p pn pkids 0
    (by omega) hg1 hst1 (fun k hk => allC_seqKidOK (allCL_mem hall k hk))
    (by simp)
  have hg3 : getAt (updAt casKidsF (setTy t p NT.AN) p) p
      = some (CObj.node pn NT.AN (pkids.map casKid)) := by
    rw [getAt_updAt_self, hg1]
    rfl
  refine ⟨updAt casKidsF (setTy t p NT.AN) p, ?_, ?_, ?_⟩
  · apply runs_step (snt_trans_CN_AN htyp)
    have hcj : childJobs (setTy t p NT.AN) p NT.CN Cond.always
        = kidJobs p NT.CN Cond.always 0 pkids := by
      unfold childJobs
      rw [hg1]
    rw [hcj]
    exact hseq
  · intro a ha
    obtain ⟨i, r, rfl⟩ := ancChain_mem p a ha
    rw [(tyAt_updAt_strict_below a casKidsF
        (setTy t (a ++ i :: r) NT.AN) i r).1,
      setTy_eq, (tyAt_updAt_strict_below a (tyFun NT.AN) t i r).1]
  · exact tyAt_kid_mapped (fun n ty kids => ⟨mkAllCL kids, rfl⟩) hg3 hget

/-- Row 4 (AN → CN): ancestors untouched, every direct child node becomes C
(its whole subtree is demoted). -/
theorem runs_row4 {t : CObj} {p : Pos} {pn : String} {pkids : List CObj}
    (hcons : consB t = true)
    (hget : getAt t p = some (CObj.node pn NT.AN pkids)) :
    ∃ t2, Runs t p NT.CN (SRes.ok t2)
      ∧ (∀ a ∈ ancChain p, tyAt t2 a = tyAt t a)
      ∧ (∀ j, (tyAt t (p ++ [j])).isSome = true →
          tyAt t2 (p ++ [j]) = some NT.C) := by
  have htyp := tyAt_of_getAt_node hget
  have hkc : ∀ k ∈ pkids, allC k = true ∨ consB k = true := by
    intro k hk
    have hc2 : consB (CObj.node pn NT.AN pkids) = true :=
      consB_getAt p t hcons _ hget
    exact Or.inr (consL_mem hc2 k hk).2
  have hg1 : getAt (setTy t p NT.CN) p = some (CObj.node pn NT.CN pkids) := by
    rw [setTy_eq, getAt_updAt_self, hget]
    rfl
  have hseq := runsSeq_walk_demote (csizeL pkids) consB
    (fun s z x hsz hg hc hcn hpar =>
      runs_demote_cons (csizeL pkids) s z x hsz hg hc hcn hpar)
    pkids (setTy t p NT.CN) p pn NT.CN pkids 0 le_rfl (by decide)
    (Or.inl rfl) hkc (by simpa using hg1) rfl
  have hg3 : getAt (updAt (fun _ => CObj.node pn NT.CN (mkAllCL pkids))
      (setTy t p NT.CN) p) p
      = some (CObj.node pn NT.CN (mkAllCL pkids)) := by
    rw [getAt_updAt_self, hg1]
    rfl
  refine ⟨updAt (fun _ => CObj.node pn NT.CN (mkAllCL pkids))
    (setTy t p NT.CN) p, ?_, ?_, ?_⟩
  · apply runs_step (snt_trans_AN_CN htyp)
    have hcj : childJobs (setTy t p NT.CN) p NT.C Cond.always
        = kidJobs p NT.C Cond.always 0 pkids := by
      unfold childJobs
      rw [hg1]
    rw [hcj]
    exact hseq
  · intro a ha
    obtain ⟨i, r, rfl⟩ := ancChain_mem p a ha
    rw [(tyAt_updAt_strict_below a
        (fun _ => CObj.node pn NT.CN (mkAllCL pkids))
        (setTy t (a ++ i :: r) NT.CN) i r).1,
      setTy_eq, (tyAt_updAt_strict_below a (tyFun NT.CN) t i r).1]
  · have hg4 : getAt (updAt (fun _ => CObj.node pn NT.CN (mkAllCL pkids))
        (setTy t p NT.CN) p) p
        = some (CObj.node pn NT.CN (pkids.map mkAllC)) := by
      rw [hg3, mkAllCL_eq_map]
    exact tyAt_kid_mapped (fun n ty kids => ⟨mkAllCL kids, rfl⟩) hg4 hget

/-- Rows 5 and 6 (CN → C and AN → C): in a consistent tree a CN or AN node
never has a ContentNode ancestor (they are all AttributeNodes), so the
demotion precondition always fails and the call raises, leaving the partially
mutated tree. -/
theorem runs_row56 {t : CObj} {p : Pos} {pn : String} {cur : NT}
    {pkids : List CObj} (hcons : consB t = true)
    (hget : getAt t p = some (CObj.node pn cur pkids))
    (hcur : cur = NT.CN ∨ cur = NT.AN) :
    hasCNanc t p = false
      ∧ Runs t p NT.C (SRes.err (cnErrMsg (nameAt t p)) (setTy t p NT.C)) := by
  have htyp := tyAt_of_getAt_node hget
  have hst : stA t p = true := by
    apply consB_stA p t hcons pn cur pkids hget
    rcases hcur with rfl | rfl <;> decide
  have hanc : hasCNanc t p = false := hasCNanc_false_of_stA hst hget
  refine ⟨hanc, 1, fun f hf => ?_⟩
  obtain ⟨g, rfl⟩ : ∃ g, f = g + 1 := ⟨f - 1, by omega⟩
  have hne : ¬ cur = NT.C := by rcases hcur with rfl | rfl <;> decide
  have hchk : parentChk cur NT.C = true := by
    rcases hcur with rfl | rfl <;> rfl
  have hanc1 : hasCNanc (setTy t p NT.C) p = false := by
    rw [hasCNanc_setTy]
    exact hanc
  rw [snt_trans_err g htyp hne hchk hanc1, nameAt_setTy]

/-- A C force-update on an all-C tree (the state every freshly built
configuration is in) is a no-op: `set_node_type(C)` at the root of an all-C
tree returns the tree unchanged. -/
theorem set_node_type_allC_noop (t : CObj) (h : allC t = true) :
    Runs t [] NT.C (SRes.ok t) :=
  runs_noop_C (csize t) t [] t le_rfl rfl h (Or.inl rfl)

/-! ## C1 -/

/-- C1: On a structurally consistent tree, `set_node_type` realises the
six-row transition table of the spec.  Retyping a C node to CN (row 1) or to
AN (row 2) turns every ancestor into an AttributeNode; row 1 leaves every
direct child's type unchanged while row 2 turns every direct child node into
a ContentNode.  Retyping a CN node to AN (row 3) leaves every ancestor's type
unchanged and turns every direct child node into a ContentNode.  Retyping an
AN node to CN (row 4) leaves every ancestor's type unchanged and demotes
every direct child node to C.  For the two precondition rows (CN → C and
AN → C, rows 5 and 6) the call raises the structural-consistency error
exactly when the node has no ContentNode ancestor: in a consistent tree a CN
or AN node never has one (`hasCNanc` is false), and the call always errors
with the partially mutated tree. -/
theorem C1_set_node_type_table {t : CObj} {p : Pos} {pn : String} {cur : NT}
    {pkids : List CObj} (hcons : consB t = true)
    (hget : getAt t p = some (CObj.node pn cur pkids)) :
    (cur = NT.C → ∃ t2, Runs t p NT.CN (SRes.ok t2)
        ∧ (∀ a ∈ ancChain p, tyAt t2 a = some NT.AN)
        ∧ (∀ j, tyAt t2 (p ++ [j]) = tyAt t (p ++ [j])))
    ∧ (cur = NT.C → ∃ t2, Runs t p NT.AN (SRes.ok t2)
        ∧ (∀ a ∈ ancChain p, tyAt t2 a = some NT.AN)
        ∧ (∀ j, (tyAt t (p ++ [j])).isSome = true →
            tyAt t2 (p ++ [j]) = some NT.CN))
    ∧ (cur = NT.CN → ∃ t2, Runs t p NT.AN (SRes.ok t2)
        ∧ (∀ a ∈ ancChain p, tyAt t2 a = tyAt t a)
        ∧ (∀ j, (tyAt t (p ++ [j])).isSome = true →
            tyAt t2 (p ++ [j]) = some NT.CN))
    ∧ (cur = NT.AN → ∃ t2, Runs t p NT.CN (SRes.ok t2)
        ∧ (∀ a ∈ ancChain p, tyAt t2 a = tyAt t a)
        ∧ (∀ j, (tyAt t (p ++ [j])).isSome = true →
            tyAt t2 (p ++ [j]) = some NT.C))
    ∧ (cur = NT.CN ∨ cur = NT.AN →
        hasCNanc t p = false
        ∧ Runs t p NT.C
            (SRes.err (cnErrMsg (nameAt t p)) (setTy t p NT.C))) := by
  refine ⟨?_, ?_, ?_, ?_, ?_⟩
  · intro h
    subst h
    exact runs_row1 hcons hget
  · intro h
    subst h
    exact runs_row2 hcons hget
  · intro h
    subst h
    exact runs_row3 hcons hget
  · intro h
    subst h
    exact runs_row4 hcons hget
  · intro h
    exact runs_row56 hcons hget h

def c1t : CObj :=
  CObj.node "root" NT.AN
    [CObj.node "cn" NT.CN
      [CObj.node "c" NT.C [CObj.attr "x" (PyVal.scalar Scalar.none)]]]

theorem C1_witness :
    consB c1t = true
    ∧ (∃ t2, Runs c1t [0, 0] NT.AN (SRes.ok t2)
        ∧ (∀ a ∈ ancChain ([0, 0] : Pos), tyAt t2 a = some NT.AN)
        ∧ (∀ j, (tyAt c1t ([0, 0] ++ [j])).isSome = true →
            tyAt t2 ([0, 0] ++ [j]) = some NT.CN)) := by
  have hc : consB c1t = true := by decide
  have hg : getAt c1t [0, 0]
      = some (CObj.node "c" NT.C
          [CObj.attr "x" (PyVal.scalar Scalar.none)]) := rfl
  exact ⟨hc, (C1_set_node_type_table hc hg).2.1 rfl⟩

end Gconfiglib
